import Mathlib

/-!
# Jagger: pattern search and tagger loop

A shallow embedding of `jagger.h` (`u8_len`, `unicode`,
`ccedar::da_::longestPatternSearch`) and of `jagger.cc` (`tagger::write_feature`,
`tagger::run`), followed by the properties established about them.

Conventions.
* A `const char*` is the list of the bytes found from the pointer on; a byte is a
  `Nat`, masked the way the source masks it.  Bytes behind the end of the list
  read as `0`, the content of the value-initialised `simple_reader` buffer
  behind the data of its first `read`.
* `c2i` and `p2f` are the memory-mapped tables, seen as functions of the index.
* The unbounded `for` loops take a fuel argument and return `none` when it runs
  out, so a returned `some` is a run of the loop that really ended.
-/

/-! ## Constants of `jagger.h` -/

namespace jagger

def BUF_SIZE : Nat := 1 <<< 17
def CP_MAX : Nat := 0x10ffff
def MAX_PATTERN_BITS : Nat := 7
def MAX_FEATURE_BITS : Nat := 9
def NUM : Nat := 1 <<< 0
def ALPHA : Nat := 1 <<< 1
def KANA : Nat := 1 <<< 2
def OTHER : Nat := 0
def ANY : Nat := 7

end jagger

/-! ## UTF-8 helpers of `jagger.h` -/

/-- Length of a UTF-8 character from its first byte: the 16-entry table of the
source, indexed by the high nibble. -/
def u8_len (p : List Nat) : Nat :=
  [1, 1, 1, 1, 1, 1, 1, 1, 1, 1, 1, 1, 2, 2, 3, 4].getD ((p.getD 0 0 &&& 0xff) >>> 4) 0

/-- Decoder `unicode (p, b)`: the code point and the byte count `b` it sets. -/
def unicode (p : List Nat) : Nat × Nat :=
  let p0 := p.getD 0 0 &&& 0xff
  if p0 &&& 0xf0 = 0xe0 then
    ((((p0 &&& 0xf) <<< 12) ||| ((p.getD 1 0 &&& 0x3f) <<< 6)) ||| (p.getD 2 0 &&& 0x3f), 3)
  else if p0 < 0x80 then (p0, 1)
  else if p0 &&& 0xe0 = 0xc0 then
    (((p0 &&& 0x1f) <<< 6) ||| (p.getD 1 0 &&& 0x3f), 2)
  else
    (((((p0 &&& 0x7) <<< 18) ||| ((p.getD 1 0 &&& 0x3f) <<< 12))
        ||| ((p.getD 2 0 &&& 0x3f) <<< 6)) ||| (p.getD 3 0 &&& 0x3f), 4)

/-! ## The double-array trie and `longestPatternSearch` -/

namespace ccedar

/-- Result of one `traverse` call: a stored value or one of the two sentinels. -/
inductive result where
  | value (v : Int)
  | NO_VALUE
  | NO_PATH
  deriving DecidableEq, Repr

/-- Modelled from the spec: the double-array trie `ccedar::da` of `ccedar_core.h`,
which is not among the sources.  The spec (4.1) treats it as a keyed trie over
flat `base`/`check` arrays: `child frm key` is the node reached from node `frm`
by the edge labelled `key` (`none`: no such edge), `value n` is the value stored
for the key that ends in node `n` (`none`: no value there), and `check n` is the
parent link of the double array that the POS refinement walks.  The root is
node `0`. -/
structure da where
  child : Nat → Nat → Option Nat
  value : Nat → Option Int
  check : Nat → Nat

/-- Modelled from the spec: `traverse (&key, from, pos = 0, 1)` of
`ccedar_core.h`, a walk of one key element from the cursor `frm`.  It returns
the value of the node reached, `NO_VALUE` when the node is a valid internal node
without value, `NO_PATH` when there is no such edge; the second component is the
cursor after the call, which moves only when the edge exists. -/
def da.traverse (t : da) (key : Nat) (frm : Nat) : result × Nat :=
  match t.child frm key with
  | none => (result.NO_PATH, frm)
  | some to_ =>
    match t.value to_ with
    | some v => (result.value v, to_)
    | none => (result.NO_VALUE, to_)

/-- State of the surface pass of `longestPatternSearch` when the loop is left:
the cursor `frm` (`from` in the source), the node `from_` of the last value and
that value `n`. -/
structure surface where
  frm : Nat
  from_ : Nat
  n : Int
  deriving DecidableEq, Repr

/-- The first `for` loop of `longestPatternSearch`.  `key` holds the bytes from
the pointer `key` on, `len` is `end - key`, `o` is the offset `f.p - key` of the
feeder and `b` the byte count of the last decoded character.  Each round
evaluates the loop condition `i = c2i[f.read (b)]` and, when `i` is not `0`, the
body and `f.advance (b)`. -/
def surfacePass (t : da) (c2i : Nat → Nat) (key : List Nat) (len : Nat) :
    Nat → Nat → Nat → surface → Option surface
  | 0, _, _, _ => none
  | fuel + 1, o, b, s =>
    -- u8_feeder::read: `p == p_end ? 0 : unicode (p, b)`
    let rd : Nat × Nat := if o = len then (0, b) else unicode (key.drop o)
    let i := c2i rd.1
    if i = 0 then some s
    else
      match t.traverse i s.frm with
      | (result.NO_VALUE, frm) => surfacePass t c2i key len fuel (o + rd.2) rd.2 { s with frm := frm }
      | (result.NO_PATH, _) => some s
      | (result.value n_, frm) =>
        surfacePass t c2i key len fuel (o + rd.2) rd.2 { frm := frm, from_ := frm, n := n_ }

/-- The second `for` loop of `longestPatternSearch`: try to extend the node
`frm` by `fi_prev`, and follow the `check` link until `from_` has been tried. -/
def posLoop (t : da) (fi_prev : Nat) (from_ : Nat) (n : Int) : Nat → Nat → Option Int
  | 0, _ => none
  | fuel + 1, frm =>
    match (t.traverse fi_prev frm).1 with
    | result.value n_ => some n_
    | _ => if frm = from_ then some n else posLoop t fi_prev from_ n fuel (t.check frm)

/-- The function `da_::longestPatternSearch (key, end, fi_prev, c2i, from = 0)`.
`fuel` bounds the rounds of each of the two loops. -/
def longestPatternSearch (fuel : Nat) (t : da) (key : List Nat) (len : Nat) (fi_prev : Nat)
    (c2i : Nat → Nat) (frm : Nat) : Option Int :=
  match surfacePass t c2i key len fuel 0 0 { frm := frm, from_ := 0, n := 0 } with
  | none => none
  | some s =>
    if fi_prev = 0 then some s.n
    else posLoop t fi_prev s.from_ s.n fuel s.frm

end ccedar

/-! ## Keys of the trie and the characters of a window -/

namespace ccedar

/-- Node reached from node `n` by following `key`, edge after edge. -/
def da.node (t : da) : List Nat → Nat → Option Nat
  | [], n => some n
  | k :: ks, n =>
    match t.child n k with
    | none => none
    | some m => da.node t ks m

/-- Value the trie stores for the node `n` extended by the single key element
`k`: what `traverse (&k, n, 0, 1)` yields when it yields a value. -/
def da.ext (t : da) (k : Nat) (n : Nat) : Option Int :=
  match t.child n k with
  | none => none
  | some m => t.value m

/-- Value the trie stores for `key`, read from the root: `key` is a valued key
when this is `some v`. -/
def da.find (t : da) (key : List Nat) : Option Int :=
  (t.node key 0).bind t.value

/-- Invariants of a compiled trie (spec, section 3): the empty key has no value,
the id `0` labels no edge (it "forces a miss"), and the `check` link of a node
reached by an edge is the node the edge leaves. -/
structure da.wf (t : da) : Prop where
  root : t.value 0 = none
  zero : ∀ n, t.child n 0 = none
  link : ∀ n k m, t.child n k = some m → t.check m = n

/-- A window made of whole characters: every element of `cs` is the byte
sequence of one character, as long as the decoder `unicode` says it is. -/
def whole (cs : List (List Nat)) : Prop :=
  ∀ c ∈ cs, (unicode c).2 = c.length

/-- The window mapped through `c2i`: one id per character. -/
def ids (c2i : Nat → Nat) (cs : List (List Nat)) : List Nat :=
  cs.map (fun c => c2i (unicode c).1)

/-- The surface pass seen on the ids of the characters: stop at an id `0` or at
a missing edge, remember the last value and its node. -/
def walk (t : da) : List Nat → surface → surface
  | [], s => s
  | i :: is, s =>
    if i = 0 then s
    else
      match t.child s.frm i with
      | none => s
      | some m =>
        match t.value m with
        | some v => walk t is { frm := m, from_ := m, n := v }
        | none => walk t is { s with frm := m }

end ccedar

/-! ## The tagger: `write_feature` and `run` -/

namespace jagger

def MAX_KEY_BITS : Nat := 14

/-- The record `feat_info_t`.  `core_feat_offset` exists in the compact build
only and is read there only. -/
structure feat_info_t where
  ti : Nat
  core_feat_len : Nat
  feat_len : Nat
  core_feat_offset : Nat
  feat_offset : Nat
  deriving DecidableEq, Repr

/-- The anonymous union of `tagger::run`: the bit-fields `shift : 7`,
`ctype : 4`, `id : 20` and `concat : 1` laid over the `int r`, as the 32-bit
record of the spec (section 3): `shift` in bits 0-6, `ctype` in bits 7-10, `id`
in bits 11-30 and `concat` in bit 31. -/
structure pattern where
  shift : Nat
  ctype : Nat
  id : Nat
  concat : Bool
  deriving DecidableEq, Repr

/-- Reading the member `r` of the union. -/
def pattern.r (s : pattern) : Nat :=
  s.shift + 128 * s.ctype + 2048 * s.id + (if s.concat then 2147483648 else 0)

/-- Assignment `s.r = n`: the bit-fields found in the 32 bits of the `int`. -/
def unpack (n : Int) : pattern :=
  let w := (n % 4294967296).toNat
  { shift := w % 128, ctype := w / 128 % 16, id := w / 2048 % 1048576,
    concat := decide (w / 2147483648 = 1) }

/-- The members of `tagger` that hold the model: the trie and the three tables. -/
structure tagger where
  _da : ccedar.da
  _c2i : Nat → Nat
  _p2f : Nat → feat_info_t
  _fs : List Nat

/-- The bytes `writer.write (&_fs[offset], len)` copies. -/
def slice (fs : List Nat) (offset len : Nat) : List Nat :=
  (fs.drop offset).take len

/-- The bytes written by `tagger::write_feature (writer, concat, finfo)`;
`compact` tells whether the build defines `USE_COMPACT_DICT`. -/
def write_feature (compact : Bool) (m : tagger) (concat : Bool) (finfo : feat_info_t) :
    List Nat :=
  (if compact then slice m._fs finfo.core_feat_offset finfo.core_feat_len else []) ++
    (if concat then
      (if compact then [] else slice m._fs finfo.feat_offset finfo.core_feat_len) ++
        [44, 42, 44, 42, 44, 42, 10]
    else slice m._fs finfo.feat_offset finfo.feat_len)

/-- One call of `writer.write` or of `write_feature` made by `tagger::run`, by
call site. -/
inductive write where
  /-- `writer.write (reader.ptr (), s.shift)` -/
  | surface (bytes : List Nat)
  /-- `write_feature (writer, s_prev.concat, finfo)` -/
  | feature (concat : Bool) (finfo : feat_info_t)
  /-- `writer.write (" ", 1)` -/
  | space
  /-- `writer.write (TAGGING ? "EOS\n" : "\n", TAGGING ? 4 : 1)` -/
  | eos (tagging : Bool)
  deriving DecidableEq, Repr

/-- The bytes a write appends to the output. -/
def write.bytes (compact : Bool) (m : tagger) : write → List Nat
  | write.surface bs => bs
  | write.feature concat finfo => write_feature compact m concat finfo
  | write.space => [32]
  | write.eos true => [69, 79, 83, 10]
  | write.eos false => [10]

/-- The variables `s_prev` and `finfo` that `tagger::run` carries from one round
of its loop to the next. -/
structure state where
  s_prev : pattern
  finfo : feat_info_t
  deriving DecidableEq, Repr

/-- The state before the first round: `s_prev = {}`, `finfo = { _c2i[CP_MAX + 1] }`. -/
def state.init (m : tagger) : state :=
  { s_prev := { shift := 0, ctype := 0, id := 0, concat := false },
    finfo := { ti := m._c2i (CP_MAX + 1) % 2 ^ MAX_KEY_BITS, core_feat_len := 0, feat_len := 0,
               core_feat_offset := 0, feat_offset := 0 } }

/-- The decision `s` of a round that is not at a newline, before `s.concat` is
set: `s.r = n`, then `if (! s.shift) s.shift = u8_len (reader.ptr ())`. -/
def current (n : Int) (ptr : List Nat) : pattern :=
  if (unpack n).shift = 0 then { unpack n with shift := u8_len ptr } else unpack n

/-- The value given to `s.concat`. -/
def concatenates (s_prev s : pattern) : Bool :=
  decide (s_prev.ctype = s.ctype) && decide (s_prev.ctype ≠ OTHER) &&
    (decide (s_prev.ctype ≠ KANA) || decide (s_prev.shift + s.shift < 18))

/-- One round of the loop of `tagger::run <TAGGING, TTY>`, with the unread data
`ptr` (from `reader.ptr ()` to `reader.end ()`) not empty.  It yields the state
after the round, the writes of the round, and the `s.shift` given to
`reader.advance`.  `none`: the pattern search did not end within `fuel`.  When
`s.shift` is more than the unread data, `writer.write (reader.ptr (), s.shift)`
copies bytes from behind the data; the surface here holds the unread bytes only,
and `loop` gives `none` for the round, so no property of a run rests on that
surface. -/
def step (TAGGING : Bool) (fuel : Nat) (m : tagger) (st : state) (ptr : List Nat) :
    Option (state × List write × Nat) :=
  if ptr.getD 0 0 = 10 then
    some ({ s_prev := { shift := 0, ctype := 0, id := 0, concat := false },
            finfo := { st.finfo with ti := m._c2i (CP_MAX + 1) % 2 ^ MAX_KEY_BITS } },
          (if st.s_prev.r ≠ 0 ∧ TAGGING = true then [write.feature st.s_prev.concat st.finfo]
            else []) ++ [write.eos TAGGING],
          1)
  else
    match ccedar.longestPatternSearch fuel m._da ptr ptr.length st.finfo.ti m._c2i 0 with
    | none => none
    | some n =>
      let s := current n ptr
      let s := if st.s_prev.r ≠ 0 then { s with concat := concatenates st.s_prev s } else s
      some ({ s_prev := s, finfo := m._p2f s.id },
            (if st.s_prev.r ≠ 0 ∧ s.concat = false then
                [if TAGGING = true then write.feature st.s_prev.concat st.finfo else write.space]
              else []) ++ [write.surface (ptr.take s.shift)],
            s.shift)

/-- The loop `for (;! reader.eob ();)` of `tagger::run` on the unread data
`ptr`, for an input that the first `read` delivers whole: later calls of
`reader.read ()` return `0` and the flushes of the writer do not change what is
written.  Every search sees all the unread input; `simple_reader` and its
refills are not part of this loop, `loop_batch` has them.  `none`: a search or
the loop did not end within `fuel`, or a round advanced the cursor past the end
of the data (`shift > ptr.length`), after which the source reads outside the
input. -/
def loop (TAGGING : Bool) (fuel : Nat) (m : tagger) : Nat → state → List Nat →
    Option (state × List write)
  | 0, _, _ => none
  | k + 1, st, ptr =>
    if ptr = [] then some (st, [])
    else
      match step TAGGING fuel m st ptr with
      | none => none
      | some (st', out, shift) =>
        if ptr.length < shift then none
        else
          match loop TAGGING fuel m k st' (ptr.drop shift) with
          | none => none
          | some (st'', out') => some (st'', out ++ out')

/-- The writes after the loop: the commit of the pending morpheme. -/
def finish (TAGGING : Bool) (st : state) : List write :=
  if st.s_prev.r ≠ 0 then
    (if TAGGING = true then [write.feature st.s_prev.concat st.finfo] else []) ++
      [write.eos TAGGING]
  else []

/-- The function `tagger::run <TAGGING, TTY>` on an input `input` that the first
`read` delivers whole: the sequence of its writes.  `run_batch` is the function
with its reader, on an input delivered in chunks. -/
def run (TAGGING : Bool) (fuel : Nat) (m : tagger) (input : List Nat) : Option (List write) :=
  match loop TAGGING fuel m fuel (state.init m) input with
  | none => none
  | some (st, out) => some (out ++ finish TAGGING st)

/-- The bytes on standard output. -/
def output (compact : Bool) (m : tagger) (ws : List write) : List Nat :=
  (ws.map (write.bytes compact m)).flatten

end jagger

/-! ## Reading the writes of `run` -/

namespace jagger

/-- The rewriting of tagging-mode writes into segmentation-mode writes: a feature
write followed by a surface becomes a single space, a feature write before an
end-of-sentence marker is deleted, and every `"EOS\n"` becomes `"\n"`. -/
def toSegmentation : List write → List write
  | [] => []
  | write.feature _ _ :: write.surface bs :: ws =>
    write.space :: write.surface bs :: toSegmentation ws
  | write.feature _ _ :: write.eos _ :: ws => write.eos false :: toSegmentation ws
  | write.eos _ :: ws => write.eos false :: toSegmentation ws
  | w :: ws => w :: toSegmentation ws

/-- A continuation byte `0x80-0xBF`. -/
def utf8Cont (b : Nat) : Bool := decide (0x80 ≤ b) && decide (b ≤ 0xBF)

/-- The well-formed UTF-8 byte sequences of one character (Unicode, table 3-7). -/
def utf8Char : List Nat → Bool
  | [b0] => decide (b0 ≤ 0x7F)
  | [b0, b1] => decide (0xC2 ≤ b0) && decide (b0 ≤ 0xDF) && utf8Cont b1
  | [b0, b1, b2] =>
    ((decide (b0 = 0xE0) && decide (0xA0 ≤ b1) && decide (b1 ≤ 0xBF)) ||
      (decide (0xE1 ≤ b0) && decide (b0 ≤ 0xEC) && utf8Cont b1) ||
      (decide (b0 = 0xED) && decide (0x80 ≤ b1) && decide (b1 ≤ 0x9F)) ||
      (decide (0xEE ≤ b0) && decide (b0 ≤ 0xEF) && utf8Cont b1)) && utf8Cont b2
  | [b0, b1, b2, b3] =>
    ((decide (b0 = 0xF0) && decide (0x90 ≤ b1) && decide (b1 ≤ 0xBF)) ||
      (decide (0xF1 ≤ b0) && decide (b0 ≤ 0xF3) && utf8Cont b1) ||
      (decide (b0 = 0xF4) && decide (0x80 ≤ b1) && decide (b1 ≤ 0x8F))) &&
      utf8Cont b2 && utf8Cont b3
  | _ => false

/-- Valid UTF-8: a concatenation of well-formed characters. -/
def validUtf8 (bs : List Nat) : Prop :=
  ∃ cs : List (List Nat), (∀ c ∈ cs, utf8Char c = true) ∧ cs.flatten = bs

/-- The bytes of the input that a sequence of writes carries: the bytes of the
surfaces, and one newline for every end-of-sentence marker. -/
def restore : List write → List Nat
  | [] => []
  | write.surface bs :: ws => bs ++ restore ws
  | write.eos _ :: ws => 10 :: restore ws
  | write.feature _ _ :: ws => restore ws
  | write.space :: ws => restore ws

/-- The bytes of the surfaces alone. -/
def surfaces : List write → List Nat
  | [] => []
  | write.surface bs :: ws => bs ++ surfaces ws
  | _ :: ws => surfaces ws

/-- The number of end-of-sentence markers. -/
def markers : List write → Nat
  | [] => 0
  | write.eos _ :: ws => markers ws + 1
  | _ :: ws => markers ws

end jagger

/-! ## Small tries and models -/

namespace ccedar

/-- A small trie: the keys `[1]`, `[1, 9]` and `[1, 2, 9]` have the values `10`,
`20` and `30`; the key `[1, 2]` is an inner node without value. -/
def demoTrie : da where
  child := fun n k =>
    match n, k with
    | 0, 1 => some 1
    | 1, 2 => some 2
    | 1, 9 => some 3
    | 2, 9 => some 4
    | _, _ => none
  value := fun n =>
    match n with
    | 1 => some 10
    | 3 => some 20
    | 4 => some 30
    | _ => none
  check := fun n =>
    match n with
    | 2 => 1
    | 3 => 1
    | 4 => 2
    | _ => 0

/-- A `c2i` table giving `a` the id `1` and `b` the id `2`; every other code
point, `x` among them, has the id `0`. -/
def demoC2i : Nat → Nat := fun cp => if cp = 97 then 1 else if cp = 98 then 2 else 0

/-- A trie with the two keys `[1]` (value `5`) and `[1, 2]` (value `7`). -/
def abTrie : da where
  child := fun n k =>
    match n, k with
    | 0, 1 => some 1
    | 1, 2 => some 2
    | _, _ => none
  value := fun n =>
    match n with
    | 1 => some 5
    | 2 => some 7
    | _ => none
  check := fun n =>
    match n with
    | 2 => 1
    | _ => 0

/-- A trie holding the single POS-only key `[5]`, with value `42`: what the
trainer stores for an unknown-word pattern `("", ti_prev)`. -/
def posTrie : da where
  child := fun n k =>
    match n, k with
    | 0, 5 => some 1
    | _, _ => none
  value := fun n =>
    match n with
    | 1 => some 42
    | _ => none
  check := fun _ => 0

end ccedar

namespace jagger

/-- The `p2f` table whose entries are all zero. -/
def zeroP2f : Nat → feat_info_t :=
  fun _ => { ti := 0, core_feat_len := 0, feat_len := 0, core_feat_offset := 0, feat_offset := 0 }

/-- A trie with the single key `[1]`, holding the decision `r`. -/
def oneKeyTrie (r : Int) : ccedar.da where
  child := fun n k =>
    match n, k with
    | 0, 1 => some 1
    | _, _ => none
  value := fun n =>
    match n with
    | 1 => some r
    | _ => none
  check := fun _ => 0

/-- A model whose only pattern is the digit `1`, with the decision
`shift = 1, ctype = NUM, id = 0` (`r = 1 + 128 * 1`). -/
def numModel : tagger where
  _da := oneKeyTrie 129
  _c2i := fun cp => if cp = 49 then 1 else 0
  _p2f := zeroP2f
  _fs := []

/-- A model whose only pattern is the katakana letter `ア` (U+30A2, the bytes
`E3 82 A2`), with the decision `shift = 3, ctype = KANA, id = 0`
(`r = 3 + 128 * 4`). -/
def kanaModel : tagger where
  _da := oneKeyTrie 515
  _c2i := fun cp => if cp = 0x30A2 then 1 else 0
  _p2f := zeroP2f
  _fs := []

/-- A model without any pattern: every search returns the zero decision. -/
def emptyModel : tagger where
  _da := { child := fun _ _ => none, value := fun _ => none, check := fun _ => 0 }
  _c2i := fun _ => 0
  _p2f := zeroP2f
  _fs := []

/-- The state of `numModel` after a first match of the digit `1`. -/
def numPending : state :=
  { s_prev := { shift := 1, ctype := 1, id := 0, concat := false }, finfo := zeroP2f 0 }

/-- The state of `kanaModel` after a first match of the letter `ア`. -/
def kanaPending : state :=
  { s_prev := { shift := 3, ctype := 4, id := 0, concat := false }, finfo := zeroP2f 0 }

/-- Seven times the katakana letter `ア`, 21 bytes, and a newline. -/
def kanaLine : List Nat :=
  [0xE3, 0x82, 0xA2, 0xE3, 0x82, 0xA2, 0xE3, 0x82, 0xA2, 0xE3, 0x82, 0xA2, 0xE3, 0x82, 0xA2,
   0xE3, 0x82, 0xA2, 0xE3, 0x82, 0xA2, 10]

end jagger

namespace jagger

/-- A model with the feature blob `ABC`, for the byte ranges of `write_feature`. -/
def featModel : tagger where
  _da := { child := fun _ _ => none, value := fun _ => none, check := fun _ => 0 }
  _c2i := fun _ => 0
  _p2f := zeroP2f
  _fs := [65, 66, 67]

/-- A `feat_info_t` whose core is the byte `A` and whose feature is `BC`. -/
def featInfo : feat_info_t :=
  { ti := 0, core_feat_len := 1, feat_len := 2, core_feat_offset := 0, feat_offset := 1 }

end jagger

namespace jagger

/-- The constant `max_plen = 1 << MAX_PATTERN_BITS` of `extract_patterns`. -/
def max_plen : Nat := 1 <<< MAX_PATTERN_BITS

/-- One entry of an observation table `pi2sfic[pi]`, a `std::map` from
`(shift, feature id)` to a count: `((shift, fi), count)`.  A table is the list of
the entries of the map in the order of iteration. -/
abbrev observation := (Nat × Nat) × Nat

/-- The statement `s2c[jt->first.first] += jt->second`. -/
def s2c_add (s2c : List Nat) (jt : observation) : List Nat :=
  s2c.set jt.1.1 (s2c.getD jt.1.1 0 + jt.2)

/-- The vector `s2c` after the loop over `sfi2c`:
`std::vector <int> s2c (max_plen + 1, 0)`, then one `+=` per entry. -/
def s2c_of (sfi2c : List observation) : List Nat :=
  sfi2c.foldl s2c_add (List.replicate (max_plen + 1) 0)

/-- The loop of `std::max_element`: `lv` is the value of the largest element so
far, `li` its index, `i` the index of the head of the list still to visit;
`largest` moves only to a strictly greater element. -/
def max_element_loop : List Nat → Nat → Nat → Nat → Nat
  | [], _, li, _ => li
  | x :: xs, lv, li, i =>
    if lv < x then max_element_loop xs x i (i + 1) else max_element_loop xs lv li (i + 1)

/-- The index that `std::max_element` returns: the first greatest element. -/
def max_element : List Nat → Nat
  | [] => 0
  | x :: xs => max_element_loop xs x 0 1

/-- The shift chosen for a seen pattern:
`-std::distance (s2c.rend (), std::max_element (s2c.rbegin (), s2c.rend ())) - 1`.
The reverse iterator found at position `k` of the reversed vector lies
`s2c.size () - k` steps before `rend`, so the expression is `s2c.size () - k - 1`. -/
def choose_shift (sfi2c : List observation) : Nat :=
  (s2c_of sfi2c).length - max_element (s2c_of sfi2c).reverse - 1

/-- The sum, over all feature ids, of the counts observed with the shift `s`. -/
def shift_total (sfi2c : List observation) (s : Nat) : Nat :=
  ((sfi2c.filter (fun jt => jt.1.1 = s)).map (fun jt => jt.2)).sum

/-- An observation table: the token `ab` seen 3 times as a whole with feature 7,
twice cut after `a` with feature 4, once cut after `a` with feature 5. -/
def demoTable : List observation := [((1, 4), 2), ((1, 5), 1), ((2, 7), 3)]

end jagger

namespace jagger

/-- The order `b <= a` of `std::pair <size_t, int>`, first the count, then the
index: the order in which `std::sort (_ccnt.rbegin (), _ccnt.rend () - 1)` leaves
two elements `a` before `b`. -/
def pair_ge (a b : Nat × Nat) : Prop := b.1 < a.1 ∨ (b.1 = a.1 ∧ b.2 ≤ a.2)

instance pair_ge_decidable : DecidableRel pair_ge :=
  fun a b => inferInstanceAs (Decidable (b.1 < a.1 ∨ (b.1 = a.1 ∧ b.2 ≤ a.2)))

/-- The vector `_ccnt` after `std::sort (_ccnt.rbegin (), _ccnt.rend () - 1)`: the
element 0 stays, the others are put in descending order.  The pairs of a
usage-count table are pairwise different (they carry their index), so the sorted
vector does not depend on the sorting algorithm. -/
def sort_ccnt : List (Nat × Nat) → List (Nat × Nat)
  | [] => []
  | x :: xs => x :: xs.insertionSort pair_ge

/-- The loop `for (size_t i = 1; i < _ccnt.size () && _ccnt[i].first; ++i)
c2i[_ccnt[i].second] = static_cast <uint16_t> (i)`, on the elements from index
`i` on. -/
def assign_c2i : List (Nat × Nat) → Nat → List Nat → List Nat
  | [], _, c2i => c2i
  | e :: es, i, c2i =>
    if e.1 = 0 then c2i else assign_c2i es (i + 1) (c2i.set e.2 (i % 65536))

/-- The vector `c2i` that `write_patterns` computes from `_ccnt`. -/
def c2i_of (_ccnt : List (Nat × Nat)) : List Nat :=
  assign_c2i ((sort_ccnt _ccnt).drop 1) 1 (List.replicate (sort_ccnt _ccnt).length 0)

/-- A usage-count table of five entries: every pair carries its index. -/
def demoCcnt : List (Nat × Nat) := [(9, 0), (2, 1), (0, 2), (5, 3), (2, 4)]

/-- A usage-count table with 65536 entries of positive count behind the entry 0:
the entry of index `i + 1` has the count `65536 - i`. -/
def bigCcnt : List (Nat × Nat) :=
  (0, 0) :: (List.range 65536).map (fun i => (65536 - i, i + 1))

end jagger

namespace jagger

/-! ## The pattern compiler `write_patterns` of `train_jagger.cc`

Strings are lists of bytes.  A `bag_t` is the list `_id2key` of its keys in the
order of their ids; the map `_key2id` is the inverse of that list. -/

/-- The value of `NUM_POS_FIELD` in `train_jagger.cc`. -/
def NUM_POS_FIELD : Nat := 4

/-- The string `FEAT_UNK` (24 bytes). -/
def FEAT_UNK : List Nat :=
  [0x09, 0xE5, 0x90, 0x8D, 0xE8, 0xA9, 0x9E, 0x2C, 0xE6, 0x99, 0xAE, 0xE9, 0x80, 0x9A,
    0xE5, 0x90, 0x8D, 0xE8, 0xA9, 0x9E, 0x2C, 0x2A, 0x2C, 0x2A]

/-- The string `FEAT_NUM` (18 bytes). -/
def FEAT_NUM : List Nat :=
  [0x09, 0xE5, 0x90, 0x8D, 0xE8, 0xA9, 0x9E, 0x2C, 0xE6, 0x95, 0xB0, 0xE8, 0xA9, 0x9E,
    0x2C, 0x2A, 0x2C, 0x2A]

/-- The string `FEAT_SYMBOL` (18 bytes). -/
def FEAT_SYMBOL : List Nat :=
  [0x09, 0xE7, 0x89, 0xB9, 0xE6, 0xAE, 0x8A, 0x2C, 0xE8, 0xA8, 0x98, 0xE5, 0x8F, 0xB7,
    0x2C, 0x2A, 0x2C, 0x2A]

/-- The string literal `"\tBOS"`. -/
def FEAT_BOS : List Nat := [9, 66, 79, 83]

/-- The string literal `",*,*,*\n"`. -/
def FEAT_REST : List Nat := [44, 42, 44, 42, 44, 42, 10]

/-- The four keys `extract_patterns` puts into `_tbag` before anything else. -/
def tbag_seed : List (List Nat) := [FEAT_BOS, FEAT_UNK, FEAT_NUM, FEAT_SYMBOL]

/-- The call `std::strchr (p, c)` on the C string that starts the list `p` and ends
at its first 0 byte (or at the end of the list): the offset of the first `c`. -/
def strchr : List Nat → Nat → Option Nat
  | [], c => if c = 0 then some 0 else none
  | b :: bs, c =>
    if b = c then some 0 else if b = 0 then none else (strchr bs c).map (fun k => k + 1)

/-- The loop of `_strchr_n (p, c, n)`, with the pointer at the offset `off`: the
offset of the `n`-th `c`.  The result is `none` where the source computes `--p`
from a null pointer (fewer than `n` occurrences) or steps before the string. -/
def _strchr_n (p : List Nat) (c : Nat) : Nat → Nat → Option Nat
  | 0, off => if off = 0 then none else some (off - 1)
  | n + 1, off =>
    match strchr (p.drop off) c with
    | some k => _strchr_n p c n (off + k + 1)
    | none => none

/-- The call `bag_t::to_i (f)`: the id of the key and the bag afterwards; a new key
gets the next id. -/
def bag_t.to_i {T : Type} [DecidableEq T] (_id2key : List T) (f : T) : Nat × List T :=
  if f ∈ _id2key then (_id2key.indexOf f, _id2key) else (_id2key.length, _id2key ++ [f])

/-- The call `bag_t::to_s (fi)`; `none` for an id the bag does not hold. -/
def bag_t.to_s {T : Type} (_id2key : List T) (fi : Nat) : Option T := _id2key.get? fi

/-- What `bag_t::serialize (fp, offsets, size)` does: the bytes written, the
offsets pushed and the size returned. -/
structure serialized where
  bytes : List Nat
  offsets : List Nat
  size : Nat
  deriving DecidableEq, Repr

/-- The call `bag_t::serialize (fp, offsets, size)`. -/
def bag_t.serialize : List (List Nat) → Nat → serialized
  | [], size => { bytes := [], offsets := [], size := size }
  | k :: ks, size =>
    let r := bag_t.serialize ks (size + k.length)
    { bytes := k ++ r.bytes, offsets := size :: r.offsets, size := r.size }

/-- The record `pat_info_t`: the bit-fields `shift : 8`, `ctype : 4`, `fi : 20`
are kept as numbers below their bounds by `pat_info_t.new`. -/
structure pat_info_t where
  surf : List Nat
  ti_prev : Int
  count : Int
  shift : Nat
  ctype : Nat
  fi : Nat
  deriving DecidableEq, Repr

/-- The constructor of `pat_info_t`: every bit-field keeps the low bits of the
`int` assigned to it. -/
def pat_info_t.new (surf_ : List Nat) (ti_prev_ count_ shift_ ctype_ fi_ : Int) : pat_info_t :=
  { surf := surf_, ti_prev := ti_prev_, count := count_, shift := (shift_ % 256).toNat,
    ctype := (ctype_ % 16).toNat, fi := (fi_ % 1048576).toNat }

/-- The order `operator<` of `pat_info_t`. -/
def pat_info_t.lt (a b : pat_info_t) : Prop :=
  a.count < b.count ∨ (a.count = b.count ∧ a.surf < b.surf)

instance pat_info_t.lt_decidable : DecidableRel pat_info_t.lt :=
  fun a b => inferInstanceAs (Decidable (a.count < b.count ∨ (a.count = b.count ∧ a.surf < b.surf)))

/-- The members of `pattern_builder`. -/
structure pattern_builder where
  _tbag : List (List Nat)
  _fbag : List (List Nat)
  _pi2sf : List pat_info_t
  _ccnt : List (Nat × Nat)

/-- The loop `for (int i (0), b (0), len (it->surf.size ()); i < len; i += b)
pv.push_back (c2i[unicode (&it->surf[i], b)])`, from the offset `i` on; every round
advances by at least one byte, so `len` rounds are enough. -/
def surf_ids (c2i : List Nat) (surf : List Nat) : Nat → Nat → List Nat
  | 0, _ => []
  | fuel + 1, i =>
    if i < surf.length then
      c2i.getD (unicode (surf.drop i)).1 0 ::
        surf_ids c2i surf fuel (i + (unicode (surf.drop i)).2)
    else []

/-- The local state of the pattern loop of `write_patterns`: the bags `_tbag`,
`fbag`, `fsbag` and the assignments `da.update (key) = value` made so far. -/
structure compile_state where
  _tbag : List (List Nat)
  fbag : List (List Nat)
  fsbag : List (Nat × Nat)
  da : List (List Nat × Nat)
  deriving DecidableEq, Repr

/-- One round of the pattern loop of `write_patterns` (the text line that
`it->print` writes is left out).  The result is `none` where the source reads
`_fbag.to_s` at an id the bag does not hold or `_strchr_n` leaves the string. -/
def compile_pattern (compact : Bool) (_fbag : List (List Nat)) (c2i : List Nat)
    (st : compile_state) (it : pat_info_t) : Option compile_state :=
  match bag_t.to_s _fbag it.fi with
  | none => none
  | some fs =>
    match _strchr_n fs 44 NUM_POS_FIELD 0 with
    | none => none
    | some pos =>
      let ti := bag_t.to_i st._tbag (fs.take pos)
      let fi := bag_t.to_i st.fbag (fs.drop (if compact then pos else 0))
      let pi := bag_t.to_i st.fsbag (fi.1, ti.1)
      let pv := surf_ids c2i it.surf it.surf.length 0 ++
        (if it.ti_prev + 1 ≠ 0 then [c2i.getD (CP_MAX + 1 + it.ti_prev).toNat 0] else [])
      let s : pattern :=
        { shift := it.shift % 128, ctype := it.ctype % 16, id := pi.1 % 1048576,
          concat := false }
      some { _tbag := ti.2, fbag := fi.2, fsbag := pi.2, da := st.da ++ [(pv, s.r)] }

/-- The pattern loop of `write_patterns` over the patterns in the order given. -/
def compile_patterns (compact : Bool) (_fbag : List (List Nat)) (c2i : List Nat) :
    List pat_info_t → compile_state → Option compile_state
  | [], st => some st
  | it :: its, st =>
    match compile_pattern compact _fbag c2i st it with
    | none => none
    | some st1 => compile_patterns compact _fbag c2i its st1

/-- One round of the loop that fills `p2f`: the record of the pair `(fi, ti)`.
`tser` is what `_tbag.serialize` did (compact build), `fser` what
`fbag.serialize` did. -/
def p2f_entry (compact : Bool) (c2i : List Nat) (st : compile_state)
    (tser fser : serialized) (p : Nat × Nat) : Option feat_info_t :=
  match bag_t.to_s st._tbag p.2, bag_t.to_s st.fbag p.1, fser.offsets.get? p.1 with
  | some tkey, some fkey, some off =>
    if compact then
      match tser.offsets.get? p.2 with
      | some off_ =>
        some { ti := c2i.getD (CP_MAX + 1 + p.2) 0 % 2 ^ MAX_KEY_BITS,
               core_feat_len := tkey.length % 2 ^ MAX_FEATURE_BITS,
               feat_len := fkey.length % 2 ^ MAX_FEATURE_BITS,
               core_feat_offset := off_ % 2 ^ 18,
               feat_offset := (tser.size + off) % 2 ^ 28 }
      | none => none
    else
      some { ti := c2i.getD (CP_MAX + 1 + p.2) 0 % 2 ^ MAX_KEY_BITS,
             core_feat_len := tkey.length % 2 ^ MAX_FEATURE_BITS,
             feat_len := fkey.length % 2 ^ MAX_FEATURE_BITS,
             core_feat_offset := 0,
             feat_offset := off % 2 ^ 28 }
  | _, _, _ => none

/-- The loop `for (size_t pi = 0; pi < fsbag.size (); ++pi)` that fills `p2f`. -/
def p2f_of (compact : Bool) (c2i : List Nat) (st : compile_state) (tser fser : serialized) :
    List (Nat × Nat) → Option (List feat_info_t)
  | [] => some []
  | p :: ps =>
    match p2f_entry compact c2i st tser fser p, p2f_of compact c2i st tser fser ps with
    | some e, some es => some (e :: es)
    | _, _ => none

/-- The arrays `write_patterns` writes: `c2i` (file `.c2i`), the assignments
`da.update (key) = value` in the order made (file `.da`), the feature blob (file
`.fs`) and the records of `p2f` (file `.p2f`). -/
structure model_files where
  c2i : List Nat
  da : List (List Nat × Nat)
  fs : List Nat
  p2f : List feat_info_t
  deriving DecidableEq, Repr

/-- The state of the bags when the pattern loop of `write_patterns` starts:
`fbag` holds `f0`, `fsbag` holds the pair `(0, 1)`. -/
def compile_init (compact : Bool) (b : pattern_builder) : compile_state :=
  { _tbag := b._tbag,
    fbag := (bag_t.to_i [] (if compact then FEAT_REST else FEAT_UNK ++ FEAT_REST)).2,
    fsbag := (bag_t.to_i [] ((0 : Nat), (1 : Nat))).2,
    da := [] }

/-- The vector `_pi2sf` after `std::sort (_pi2sf.rbegin (), _pi2sf.rend ())`:
descending in `operator<`. -/
def sort_pi2sf (_pi2sf : List pat_info_t) : List pat_info_t :=
  _pi2sf.insertionSort (fun a b => ¬ pat_info_t.lt a b)

/-- What `write_patterns` writes once the pattern loop has left the bags in the
state `st`. -/
def write_files (compact : Bool) (c2i : List Nat) (st : compile_state) : Option model_files :=
  let tser := bag_t.serialize st._tbag 0
  let fser := bag_t.serialize st.fbag 0
  match p2f_of compact c2i st tser fser st.fsbag with
  | none => none
  | some p2f =>
    some { c2i := c2i.take (CP_MAX + 2), da := st.da,
           fs := (if compact then tser.bytes else []) ++ fser.bytes, p2f := p2f }

/-- The function `pattern_builder::write_patterns`, in the compact build
(`USE_COMPACT_DICT`) or not. -/
def write_patterns (compact : Bool) (b : pattern_builder) : Option model_files :=
  match compile_patterns compact b._fbag (c2i_of b._ccnt) (sort_pi2sf b._pi2sf)
      (compile_init compact b) with
  | none => none
  | some st => write_files compact (c2i_of b._ccnt) st

end jagger

namespace jagger

/-- What the pattern loop of `write_patterns` keeps true of its bags: every pair
of `fsbag` names a key of `fbag` and a key of `_tbag` (in the non-compact build
the second is no longer than the first), and every value assigned in the trie
carries an id of `fsbag`. -/
def compile_inv (compact : Bool) (st : compile_state) : Prop :=
  (∀ p ∈ st.fsbag, ∃ fkey tkey, st.fbag.get? p.1 = some fkey ∧ st._tbag.get? p.2 = some tkey ∧
    (compact = false → tkey.length ≤ fkey.length)) ∧
  (∀ kv ∈ st.da, (unpack (kv.2 : Int)).id < st.fsbag.length)

/-- The pattern set handed to `write_patterns` by `extract_patterns`: `_tbag`
starts with the four seeded keys, and every pattern names a feature string of
`_fbag` that has `NUM_POS_FIELD` commas. -/
def compilable (b : pattern_builder) : Prop :=
  tbag_seed <+: b._tbag ∧
  ∀ it ∈ b._pi2sf,
    ((bag_t.to_s b._fbag it.fi).bind (fun fs => _strchr_n fs 44 NUM_POS_FIELD 0)).isSome = true

instance compilable_decidable (b : pattern_builder) : Decidable (compilable b) :=
  inferInstanceAs (Decidable (tbag_seed <+: b._tbag ∧
    ∀ it ∈ b._pi2sf,
      ((bag_t.to_s b._fbag it.fi).bind
        (fun fs => _strchr_n fs 44 NUM_POS_FIELD 0)).isSome = true))

/-- A pattern set without patterns: only the seeded keys. -/
def seedBuilder : pattern_builder :=
  { _tbag := tbag_seed, _fbag := [], _pi2sf := [], _ccnt := [] }

/-- A feature string of 13 bytes: the POS fields `A,B,C,D` and two more fields. -/
def demoFeat : List Nat := [9, 65, 44, 66, 44, 67, 44, 68, 44, 120, 44, 121, 10]

/-- A pattern set with two patterns of the feature `demoFeat`: the surface `a`,
and the surface `ab` after the POS 4. -/
def demoBuilder : pattern_builder :=
  { _tbag := tbag_seed ++ [[9, 65, 44, 66, 44, 67, 44, 68]], _fbag := [demoFeat],
    _pi2sf := [pat_info_t.new [97] (-1) 3 1 0 0, pat_info_t.new [97, 98] 4 5 2 0 0],
    _ccnt := [] }

end jagger

namespace jagger

/-- A feature string of 512 bytes: `FEAT_UNK`, a comma and 487 letters `a`. -/
def longFeat : List Nat := FEAT_UNK ++ [44] ++ List.replicate 487 97

/-- A pattern set with one pattern, the surface `a` with the feature `longFeat`. -/
def longBuilder : pattern_builder :=
  { _tbag := tbag_seed, _fbag := [longFeat],
    _pi2sf := [pat_info_t.new [97] (-1) 0 1 0 0], _ccnt := [] }

end jagger

namespace jagger

/-! ## The length checks of `extract_patterns` -/

/-- What a check of the trainer comes to: the fatal error of `ERR_IF`, or a
value. -/
inductive checked (α : Type) where
  | fatal : checked α
  | value : α → checked α
  deriving DecidableEq, Repr

/-- Lines 78-82 of `extract_patterns`: the surface of the dictionary row `line`,
quoted or not, behind the check `ERR_IF (p - surf - quoted > max_plen, ...)`.  The
result is `none` where `_strchr_n` finds no delimiter. -/
def dict_surface (line : List Nat) : Option (checked (List Nat)) :=
  let quoted : Nat := if line.getD 0 0 = 34 then 1 else 0
  let surf : Nat := quoted
  match _strchr_n line (if quoted = 1 then 34 else 44) 1 surf with
  | none => none
  | some d =>
    let p := d + quoted
    if p - surf - quoted > max_plen then some checked.fatal
    else some (checked.value (slice line surf (p - surf - quoted)))

/-- Line 121 of `extract_patterns`: the shift of a corpus token of `shift` bytes,
behind the check `ERR_IF (shift >> MAX_PATTERN_BITS, ...)`. -/
def corpus_shift (shift : Nat) : checked Nat :=
  if shift >>> MAX_PATTERN_BITS ≠ 0 then checked.fatal else checked.value shift

/-- The record `extract_patterns` pushes to `_pi2sf` for a pattern `c` that the
corpus never showed: `shift (c.size ())` and `count (0)` keep their initial
values. -/
def unseen_pattern (c : List Nat) (ti_prev ctype fi : Int) : pat_info_t :=
  pat_info_t.new c ti_prev 0 c.length ctype fi

/-- A surface of 128 bytes. -/
def longSurf : List Nat := List.replicate 128 97

/-- The dictionary row of the surface `longSurf`: three numeric fields, then the
fields of `demoFeat`. -/
def longRow : List Nat := longSurf ++ [44, 48, 44, 48, 44, 48, 44] ++ demoFeat.drop 1

/-- The pattern set of the one dictionary word `longSurf`, never seen in the
corpus. -/
def longSurfBuilder : pattern_builder :=
  { _tbag := tbag_seed ++ [[9, 65, 44, 66, 44, 67, 44, 68]], _fbag := [demoFeat],
    _pi2sf := [unseen_pattern longSurf (-1) 0 0], _ccnt := [] }

end jagger

namespace jagger

/-! ## The reader `simple_reader` and `tagger::run` in batch mode -/

/-- One round of the loop of `tagger::run` on the memory `mem` at `reader.ptr ()`,
of which the first `len` bytes are unread data (`len` is `reader.end () -
reader.ptr ()`): as `step`, with the bytes behind the data as the buffer holds
them. -/
def step_at (TAGGING : Bool) (fuel : Nat) (m : tagger) (st : state) (mem : List Nat)
    (len : Nat) : Option (state × List write × Nat) :=
  if mem.getD 0 0 = 10 then
    some ({ s_prev := { shift := 0, ctype := 0, id := 0, concat := false },
            finfo := { st.finfo with ti := m._c2i (CP_MAX + 1) % 2 ^ MAX_KEY_BITS } },
          (if st.s_prev.r ≠ 0 ∧ TAGGING = true then [write.feature st.s_prev.concat st.finfo]
            else []) ++ [write.eos TAGGING],
          1)
  else
    match ccedar.longestPatternSearch fuel m._da mem len st.finfo.ti m._c2i 0 with
    | none => none
    | some n =>
      let s := current n mem
      let s := if st.s_prev.r ≠ 0 then { s with concat := concatenates st.s_prev s } else s
      some ({ s_prev := s, finfo := m._p2f s.id },
            (if st.s_prev.r ≠ 0 ∧ s.concat = false then
                [if TAGGING = true then write.feature st.s_prev.concat st.finfo else write.space]
              else []) ++ [write.surface (mem.take s.shift)],
            s.shift)

/-- The class `simple_reader`: the cells of `_buf` written so far (the cells
behind them are 0, as `_buf ()` leaves them), the offsets of `_p` and `_q` in the
buffer, and the results the coming calls of `::read (0, ...)` have to deliver:
the chunks of standard input, after which `::read` returns 0. -/
structure simple_reader where
  _buf : List Nat
  _p : Nat
  _q : Nat
  stdin : List (List Nat)
  deriving DecidableEq, Repr

/-- The function `simple_reader::read`: `memmove` of the unread data to the start
of the buffer, then one call of `::read`, which delivers the next chunk (what of
it fits in the rest of the buffer).  The result is `none` when `_p` is behind
`_q`: `memmove` is called with the size `_q - _p < 0`. -/
def simple_reader.read (r : simple_reader) : Option simple_reader :=
  if r._q < r._p then none
  else
    let n := r._q - r._p
    let buf := (r._buf.drop r._p).take n ++ r._buf.drop n
    match r.stdin with
    | [] => some { _buf := buf, _p := 0, _q := n, stdin := [] }
    | c :: cs =>
      let got := c.take (BUF_SIZE - n)
      some { _buf := buf.take n ++ got ++ buf.drop (n + got.length), _p := 0,
             _q := n + got.length,
             stdin := if c.drop (BUF_SIZE - n) = [] then cs else c.drop (BUF_SIZE - n) :: cs }

/-- The constructor of `simple_reader`: an empty buffer, then `read ()`. -/
def simple_reader.new (stdin : List (List Nat)) : Option simple_reader :=
  simple_reader.read { _buf := [], _p := 0, _q := 0, stdin := stdin }

/-- The function `simple_reader::advance`. -/
def simple_reader.advance (r : simple_reader) (shift : Nat) : simple_reader :=
  { r with _p := r._p + shift }

/-- The function `simple_reader::readable`. -/
def simple_reader.readable (r : simple_reader) (min : Nat) : Bool :=
  decide (r._p + min ≤ r._q)

/-- The function `simple_reader::eob`. -/
def simple_reader.eob (r : simple_reader) : Bool := decide (r._p = r._q)

/-- The reader after a round of `tagger::run <TAGGING, false>`:
`reader.advance (s.shift)`, then
`if (! reader.readable (1 << MAX_PATTERN_BITS)) reader.read ()`. -/
def simple_reader.next (r : simple_reader) (shift : Nat) : Option simple_reader :=
  if (r.advance shift).readable (1 <<< MAX_PATTERN_BITS) then some (r.advance shift)
  else (r.advance shift).read

/-- The loop `for (;! reader.eob ();)` of `tagger::run <TAGGING, false>` with its
reader.  `none`: a search or the loop did not end within `fuel`, or `read` was
called with `_p` behind `_q`. -/
def loop_batch (TAGGING : Bool) (fuel : Nat) (m : tagger) :
    Nat → state → simple_reader → Option (state × List write)
  | 0, _, _ => none
  | k + 1, st, r =>
    if r.eob then some (st, [])
    else
      match step_at TAGGING fuel m st (r._buf.drop r._p) (r._q - r._p) with
      | none => none
      | some (st', out, shift) =>
        match r.next shift with
        | none => none
        | some r' =>
          match loop_batch TAGGING fuel m k st' r' with
          | none => none
          | some (st'', out') => some (st'', out ++ out')

/-- The function `tagger::run <TAGGING, false>` (batch mode) on a standard input
that delivers the chunks `stdin` to the successive calls of `::read`: the
sequence of its writes. -/
def run_batch (TAGGING : Bool) (fuel : Nat) (m : tagger) (stdin : List (List Nat)) :
    Option (List write) :=
  match simple_reader.new stdin with
  | none => none
  | some r =>
    match loop_batch TAGGING fuel m fuel (state.init m) r with
    | none => none
    | some (st, out) => some (out ++ finish TAGGING st)

/-- A trie with the single key `[1, 2]`, holding the decision `shift = 2,
ctype = OTHER, id = 1` (`r = 2 + 2048 * 1`). -/
def pairTrie : ccedar.da where
  child := fun n k =>
    match n, k with
    | 0, 1 => some 1
    | 1, 2 => some 2
    | _, _ => none
  value := fun n =>
    match n with
    | 2 => some 2050
    | _ => none
  check := fun n =>
    match n with
    | 2 => 1
    | _ => 0

/-- The record of the unknown word in `pairModel`: the feature `\tU\n`. -/
def pairUnk : feat_info_t :=
  { ti := 0, core_feat_len := 2, feat_len := 3, core_feat_offset := 0, feat_offset := 0 }

/-- The record of the word `ab` in `pairModel`: the feature `\tP\n`. -/
def pairWord : feat_info_t :=
  { ti := 0, core_feat_len := 2, feat_len := 3, core_feat_offset := 0, feat_offset := 3 }

/-- A model whose only pattern is the word `ab`. -/
def pairModel : tagger where
  _da := pairTrie
  _c2i := ccedar.demoC2i
  _p2f := fun i => if i = 1 then pairWord else pairUnk
  _fs := [9, 85, 10, 9, 80, 10]

/-- An input of `BUF_SIZE - 1` bytes: the word `ab` and `BUF_SIZE - 3` newlines. -/
def pairInput : List Nat := [97, 98] ++ List.replicate (BUF_SIZE - 3) 10

/-- The input `pairInput` in two chunks: the byte `a`, then the rest. -/
def pairChunks : List (List Nat) := [[97], 98 :: List.replicate (BUF_SIZE - 3) 10]

end jagger

namespace jagger

/-- An input of `BUF_SIZE - 1` bytes: the letter `あ` (U+3042, the bytes
`E3 81 82`) and `BUF_SIZE - 4` newlines. -/
def hiraInput : List Nat := [0xE3, 0x81, 0x82] ++ List.replicate (BUF_SIZE - 4) 10

/-- The input `hiraInput` in two chunks: the lead byte of `あ`, then the rest. -/
def hiraChunks : List (List Nat) := [[0xE3], 0x81 :: 0x82 :: List.replicate (BUF_SIZE - 4) 10]

end jagger

namespace jagger

/-! ## The symbol seeds of `extract_patterns` -/

/-- The loop `for (...; b; k >>= 6) c[b--] = 0x80 | (k & 0x3f)` of the symbol
seeds, on the array `c`. -/
def symbol_loop : Nat → Nat → List Nat → List Nat
  | 0, _, c => c
  | b + 1, k, c => symbol_loop b (k >>> 6) (c.set (b + 1) (0x80 ||| (k &&& 0x3f)))

/-- The array `char c[5]` that lines 101-104 of `extract_patterns` fill for the
code point `j`: `b` counts the continuation bytes, `c[0]` starts as the lead mask
`"\0\xc0\xe0\xf0"[b]` and takes the high bits of `j` (as a `char`, 8 bits). -/
def symbol_array (j : Nat) : List Nat :=
  let b := (if j > 0xffff then 1 else 0) + (if j > 0x7ff then 1 else 0) +
    (if j > 0x7f then 1 else 0)
  symbol_loop b j [([0, 0xc0, 0xe0, 0xf0].getD b 0 ||| (j >>> (6 * b))) % 256, 0, 0, 0, 0]

/-- The C string at `&c[0]`: the bytes before the first 0. -/
def c_str (c : List Nat) : List Nat := c.takeWhile (fun x => decide (x ≠ 0))

/-- The surface of the symbol seed of the code point `j`: the string
`std::make_pair (&c[0], -1)` is built from. -/
def symbol_seed (j : Nat) : List Nat := c_str (symbol_array j)

end jagger

namespace jagger

/-! ## The choice of the feature id in `extract_patterns` -/

/-- The order of the keys of `std::map <std::pair <int, int>, int>`: first the
shift, then the feature id.  The loops over `sfi2c` meet the observations in
this order. -/
def obs_lt (a b : observation) : Prop :=
  a.1.1 < b.1.1 ∨ (a.1.1 = b.1.1 ∧ a.1.2 < b.1.2)

instance obs_lt_decidable : DecidableRel obs_lt :=
  fun a b => inferInstanceAs (Decidable (a.1.1 < b.1.1 ∨ (a.1.1 = b.1.1 ∧ a.1.2 < b.1.2)))

/-- One round of the loop of lines 186-189: `if (jt->first.first == shift &&
jt->second > count) count = jt->second, fi = jt->first.second`, on the pair
`(count, fi)`. -/
def choose_fi_step (shift : Nat) (acc : Nat × Nat) (jt : observation) : Nat × Nat :=
  if jt.1.1 = shift ∧ jt.2 > acc.1 then (jt.2, jt.1.2) else acc

/-- The loop of lines 186-189 from `count = 0`, `fi = 0`: the pair `(count, fi)`
chosen for the shift `shift`. -/
def choose_fi (sfi2c : List observation) (shift : Nat) : Nat × Nat :=
  sfi2c.foldl (choose_fi_step shift) (0, 0)

/-- An observation table in the order of the map: the shift 2 seen with the
features 3, 5 and 8, the counts 4, 6 and 6. -/
def tieTable : List observation := [((1, 9), 1), ((2, 3), 4), ((2, 5), 6), ((2, 8), 6)]

end jagger

namespace jagger

/-! ## The character classes of the trainer -/

/-- The string `chars_[0]`: the digits and numerals (class `NUM`), 94 bytes. -/
def chars_num : List Nat :=
  [
    48, 49, 50, 51, 52, 53, 54, 55, 56, 57, 239, 188, 144, 239, 188, 145, 239, 188, 146, 239,
    188, 147, 239, 188, 148, 239, 188, 149, 239, 188, 150, 239, 188, 151, 239, 188, 152, 239,
    188, 153, 227, 128, 135, 228, 184, 128, 228, 186, 140, 228, 184, 137, 229, 155, 155, 228,
    186, 148, 229, 133, 173, 228, 184, 131, 229, 133, 171, 228, 185, 157, 229, 141, 129, 231,
    153, 190, 229, 141, 131, 228, 184, 135, 229, 132, 132, 229, 133, 134, 230, 149, 176, 227,
    131, 187]

/-- The string `chars_[1]`: the letters (class `ALPHA`), 208 bytes. -/
def chars_alpha : List Nat :=
  [
    97, 98, 99, 100, 101, 102, 103, 104, 105, 106, 107, 108, 109, 110, 111, 112, 113, 114, 115,
    116, 117, 118, 119, 120, 121, 122, 65, 66, 67, 68, 69, 70, 71, 72, 73, 74, 75, 76, 77, 78,
    79, 80, 81, 82, 83, 84, 85, 86, 87, 88, 89, 90, 239, 189, 129, 239, 189, 130, 239, 189, 131,
    239, 189, 132, 239, 189, 133, 239, 189, 134, 239, 189, 135, 239, 189, 136, 239, 189, 137,
    239, 189, 138, 239, 189, 139, 239, 189, 140, 239, 189, 141, 239, 189, 142, 239, 189, 143,
    239, 189, 144, 239, 189, 145, 239, 189, 146, 239, 189, 147, 239, 189, 148, 239, 189, 149,
    239, 189, 150, 239, 189, 151, 239, 189, 152, 239, 189, 153, 239, 189, 154, 239, 188, 161,
    239, 188, 162, 239, 188, 163, 239, 188, 164, 239, 188, 165, 239, 188, 166, 239, 188, 167,
    239, 188, 168, 239, 188, 169, 239, 188, 170, 239, 188, 171, 239, 188, 172, 239, 188, 173,
    239, 188, 174, 239, 188, 175, 239, 188, 176, 239, 188, 177, 239, 188, 178, 239, 188, 179,
    239, 188, 180, 239, 188, 181, 239, 188, 182, 239, 188, 183, 239, 188, 184, 239, 188, 185,
    239, 188, 186]

/-- The string `chars_[2]`: the katakana (class `KANA`), 282 bytes. -/
def chars_kana : List Nat :=
  [
    227, 130, 161, 227, 130, 162, 227, 130, 163, 227, 130, 164, 227, 130, 165, 227, 130, 166,
    227, 130, 167, 227, 130, 168, 227, 130, 169, 227, 130, 170, 227, 130, 171, 227, 130, 172,
    227, 130, 173, 227, 130, 174, 227, 130, 175, 227, 130, 176, 227, 130, 177, 227, 130, 178,
    227, 130, 179, 227, 130, 180, 227, 130, 181, 227, 130, 182, 227, 130, 183, 227, 130, 184,
    227, 130, 185, 227, 130, 186, 227, 130, 187, 227, 130, 188, 227, 130, 189, 227, 130, 190,
    227, 130, 191, 227, 131, 128, 227, 131, 129, 227, 131, 130, 227, 131, 131, 227, 131, 132,
    227, 131, 133, 227, 131, 134, 227, 131, 135, 227, 131, 136, 227, 131, 137, 227, 131, 138,
    227, 131, 139, 227, 131, 140, 227, 131, 141, 227, 131, 142, 227, 131, 143, 227, 131, 144,
    227, 131, 145, 227, 131, 146, 227, 131, 147, 227, 131, 148, 227, 131, 149, 227, 131, 150,
    227, 131, 151, 227, 131, 152, 227, 131, 153, 227, 131, 154, 227, 131, 155, 227, 131, 156,
    227, 131, 157, 227, 131, 158, 227, 131, 159, 227, 131, 160, 227, 131, 161, 227, 131, 162,
    227, 131, 163, 227, 131, 164, 227, 131, 165, 227, 131, 166, 227, 131, 167, 227, 131, 168,
    227, 131, 169, 227, 131, 170, 227, 131, 171, 227, 131, 172, 227, 131, 173, 227, 131, 174,
    227, 131, 175, 227, 131, 176, 227, 131, 177, 227, 131, 178, 227, 131, 179, 227, 131, 180,
    227, 131, 181, 227, 131, 182, 227, 131, 183, 227, 131, 184, 227, 131, 185, 227, 131, 186,
    227, 131, 188, 227, 131, 189, 227, 131, 190, 227, 131, 191]

/-- The table `chars_` without its closing 0. -/
def chars_ : List (List Nat) := [chars_num, chars_alpha, chars_kana]

/-- The inner loop of the character seeds, `for (const char *p = &chars_[i][0];
*p; ..., p += b) char_t[unicode (p, b)] = 1 << i`, from the offset `o` of the
string `s`; the table is the list of the assignments made, the last one first. -/
def mark_chars (i : Nat) (s : List Nat) : Nat → Nat → List (Nat × Nat) → List (Nat × Nat)
  | 0, _, t => t
  | fuel + 1, o, t =>
    if s.getD o 0 ≠ 0 then
      mark_chars i s fuel (o + (unicode (s.drop o)).2) (((unicode (s.drop o)).1, 1 <<< i) :: t)
    else t

/-- The assignments to `char_t` made by the loop over `chars_`, the last one
first. -/
def char_t_table : List (Nat × Nat) :=
  mark_chars 2 chars_kana chars_kana.length 0
    (mark_chars 1 chars_alpha chars_alpha.length 0
      (mark_chars 0 chars_num chars_num.length 0 []))

/-- The array `char_t` of `extract_patterns`: 0 wherever the loop assigned
nothing. -/
def char_t (cp : Nat) : Nat :=
  match char_t_table.find? (fun e => decide (e.1 = cp)) with
  | some e => e.2
  | none => 0

/-- The loop of `check_ctype (p, len, char_t, n)`, from the offset `offset`: every
round advances by at least one byte. -/
def check_ctype_loop (tbl : Nat → Nat) (p : List Nat) (len : Nat) : Nat → Nat → Nat → Nat
  | 0, _, n => n
  | fuel + 1, offset, n =>
    if n ≠ 0 ∧ offset < len then
      check_ctype_loop tbl p len fuel (offset + (unicode (p.drop offset)).2)
        (n &&& tbl (unicode (p.drop offset)).1)
    else n

/-- The function `check_ctype (p, len, char_t, n)`. -/
def check_ctype (tbl : Nat → Nat) (p : List Nat) (len n : Nat) : Nat :=
  check_ctype_loop tbl p len len 0 n

/-- The `ctype` of line 200: `check_ctype (c.c_str (), shift, char_t,
shift ? ANY : OTHER)`. -/
def pattern_ctype (tbl : Nat → Nat) (c : List Nat) (shift : Nat) : Nat :=
  check_ctype tbl c shift (if shift ≠ 0 then ANY else OTHER)

end jagger

namespace jagger

/-! ## The mining loop of `extract_patterns` -/

/-- The statement `++m[key]` on a `std::map <std::pair <int, int>, int>`, kept as
the list of its entries in the order of the keys. -/
def bump : List observation → Nat × Nat → List observation
  | [], key => [(key, 1)]
  | e :: es, key =>
    if e.1 = key then (e.1, e.2 + 1) :: es
    else if obs_lt (key, 0) e then (key, 1) :: e :: es
    else e :: bump es key

/-- The bag `pbag` of the patterns `(surface, prev_pos)` and the vector `pi2sfic`
of their observation tables. -/
structure miner where
  pbag : List (List Nat × Int)
  pi2sfic : List (List observation)
  deriving DecidableEq, Repr

/-- The body of the loop of line 122, for the pattern `cs.substr (i, k)`: the two
calls of `pbag.to_i`, `pi2sfic.resize`, the two increments.  The second component
tells whether `pi >= pi_max`, the test of the `break`. -/
def mine_round (cs : List Nat) (i k shift fi : Nat) (ti_prev : Int) (m : miner) :
    miner × Bool :=
  let pi_max := m.pbag.length
  let pi := bag_t.to_i m.pbag (slice cs i k, (-1 : Int))
  let pi_ := bag_t.to_i pi.2 (slice cs i k, ti_prev)
  let t0 := m.pi2sfic ++ List.replicate (pi_.2.length - m.pi2sfic.length) []
  let t1 := t0.set pi.1 (bump (t0.getD pi.1 []) (shift, fi))
  let t2 := t1.set pi_.1 (bump (t1.getD pi_.1 []) (shift, fi))
  ({ pbag := pi_.2, pi2sfic := t2 }, decide (pi.1 ≥ pi_max))

/-- The loop `for (int k = shift; i + k <= cs.size () && k <= max_plen;
k += u8_len (&cs[i + k]))` of line 122, from the value `k`: the values of `k`
whose round ran, and the bags afterwards. -/
def mine_loop (cs : List Nat) (i shift fi : Nat) (ti_prev : Int) :
    Nat → Nat → miner → List Nat × miner
  | 0, _, m => ([], m)
  | fuel + 1, k, m =>
    if i + k ≤ cs.length ∧ k ≤ max_plen then
      if (mine_round cs i k shift fi ti_prev m).2 = true then
        ([k], (mine_round cs i k shift fi ti_prev m).1)
      else
        (k :: (mine_loop cs i shift fi ti_prev fuel (k + u8_len (cs.drop (i + k)))
            (mine_round cs i k shift fi ti_prev m).1).1,
          (mine_loop cs i shift fi ti_prev fuel (k + u8_len (cs.drop (i + k)))
            (mine_round cs i k shift fi ti_prev m).1).2)
    else ([], m)

/-- The mining loop for the token of `shift` bytes at the offset `i` of the
sentence `cs`; `k` grows in every round, so `max_plen + 1` rounds are enough. -/
def mine (cs : List Nat) (i shift fi : Nat) (ti_prev : Int) (m : miner) : List Nat × miner :=
  mine_loop cs i shift fi ti_prev (max_plen + 1) shift m

/-- The bags in which the patterns `(a, -1)` and `(a, 0)` have been seen once,
with the shift 1 and the feature 7. -/
def seenMiner : miner :=
  { pbag := [([97], -1), ([97], 0)], pi2sfic := [[((1, 7), 1)], [((1, 7), 1)]] }

end jagger

namespace jagger

/-! ## The pruning pass of `extract_patterns` -/

/-- The order `operator<` of `std::string`, byte by byte. -/
def string_lt : List Nat → List Nat → Bool
  | _, [] => false
  | [], _ :: _ => true
  | a :: as, b :: bs => decide (a < b) || (decide (a = b) && string_lt as bs)

/-- An entry of `pbag` as the pruning pass reads it: the pattern
`(surface, prev_pos)` and its observation table `pi2sfic[pi]`, empty when the
pattern was not seen in the corpus. -/
structure candidate where
  surf : List Nat
  ti_prev : Int
  sfi2c : List observation
  deriving DecidableEq, Repr

/-- The order of the keys of `pbag`, a `std::map` over
`std::pair <std::string, int>`: the pruning pass meets the patterns in this
order. -/
def key_lt (a b : candidate) : Prop :=
  string_lt a.surf b.surf = true ∨ (a.surf = b.surf ∧ a.ti_prev < b.ti_prev)

instance key_lt_decidable : DecidableRel key_lt :=
  fun a b => inferInstanceAs
    (Decidable (string_lt a.surf b.surf = true ∨ (a.surf = b.surf ∧ a.ti_prev < b.ti_prev)))

/-- The vector `_pi2sf` of the retained patterns and the trie `patterns` of the
retained surface-only patterns, as the list of the assignments
`patterns.update (key) = value`, the last one first. -/
structure pruner where
  _pi2sf : List pat_info_t
  patterns : List (List Nat × Nat)
  deriving DecidableEq, Repr

/-- Modelled from the spec: one `traverse` call on the byte trie `patterns` (a
`ccedar::da <char, int>` of `ccedar_core.h`, which is not among the sources),
that reaches the node of the key prefix `q`: the value of `q` when `q` is a key,
`NO_VALUE` when `q` only starts a key, `NO_PATH` when no key starts with `q`. -/
def patterns_traverse (t : List (List Nat × Nat)) (q : List Nat) : ccedar.result :=
  match t.find? (fun kv => decide (kv.1 = q)) with
  | some kv => ccedar.result.value (Int.ofNat kv.2)
  | none => if t.any (fun kv => q.isPrefixOf kv.1) then ccedar.result.NO_VALUE
            else ccedar.result.NO_PATH

/-- The loop of lines 192-197, `for (size_t from (0), pos (0); pos < c.size (); )`:
every `traverse` call takes one more byte of `c`; `r` is the index of the record
the pointer `r` points to (`none`: the null pointer). -/
def patterns_walk (t : List (List Nat × Nat)) (c : List Nat) :
    Nat → Nat → Option Nat → Option Nat
  | 0, _, r => r
  | fuel + 1, pos, r =>
    if pos < c.length then
      match patterns_traverse t (c.take (pos + 1)) with
      | ccedar.result.NO_VALUE => patterns_walk t c fuel (pos + 1) r
      | ccedar.result.NO_PATH => r
      | ccedar.result.value n_ => patterns_walk t c fuel (pos + 1) (some n_.toNat)
    else r

/-- The `shift` of the pattern in the pruning pass: the chosen shift of a seen
pattern, `c.size ()` for a pattern the corpus never showed. -/
def cand_shift (c : candidate) : Nat :=
  if c.sfi2c ≠ [] then choose_shift c.sfi2c else c.surf.length

/-- The pair `(count, fi)` of the pattern in the pruning pass.  For a pattern the
corpus never showed, `count` stays 0 and `fi` is what lines 165-177 compute from
the dictionary and the seeds, taken here as the function `unseen`. -/
def cand_fi (unseen : List Nat → Int → Nat) (c : candidate) : Nat × Nat :=
  if c.sfi2c ≠ [] then choose_fi c.sfi2c (cand_shift c) else (0, unseen c.surf c.ti_prev)

/-- The test `if (r && shift == r->shift && fi == r->fi) continue;` of a seen
pattern, with `r` as the loop of lines 192-197 leaves it. -/
def prune_skips (unseen : List Nat → Int → Nat) (st : pruner) (c : candidate) : Prop :=
  c.sfi2c ≠ [] ∧
    match (patterns_walk st.patterns c.surf c.surf.length 0 none).bind st._pi2sf.get? with
    | some r => cand_shift c = r.shift ∧ (cand_fi unseen c).2 = r.fi
    | none => False

instance prune_skips_decidable (unseen : List Nat → Int → Nat) (st : pruner) (c : candidate) :
    Decidable (prune_skips unseen st c) := by
  unfold prune_skips
  cases (patterns_walk st.patterns c.surf c.surf.length 0 none).bind st._pi2sf.get? with
  | none => exact inferInstanceAs (Decidable (c.sfi2c ≠ [] ∧ False))
  | some r =>
    exact inferInstanceAs
      (Decidable (c.sfi2c ≠ [] ∧ (cand_shift c = r.shift ∧ (cand_fi unseen c).2 = r.fi)))

/-- The record `pat_info_t (c, p.second, count, shift, ctype, fi)` of line 207. -/
def cand_record (tbl : Nat → Nat) (unseen : List Nat → Int → Nat) (c : candidate) : pat_info_t :=
  pat_info_t.new c.surf c.ti_prev (cand_fi unseen c).1 (cand_shift c)
    (pattern_ctype tbl c.surf (cand_shift c)) (cand_fi unseen c).2

/-- One round of the loop of lines 160-206 over `pbag` (the counts `_ccnt` are
left out): the pattern is skipped, or its record is pushed on `_pi2sf` and, for a
surface-only pattern, its surface is put into `patterns`. -/
def prune_step (tbl : Nat → Nat) (unseen : List Nat → Int → Nat) (st : pruner)
    (c : candidate) : pruner :=
  if prune_skips unseen st c then st
  else
    { _pi2sf := st._pi2sf ++ [cand_record tbl unseen c],
      patterns := if c.ti_prev = -1 then (c.surf, st._pi2sf.length) :: st.patterns
                  else st.patterns }

/-- The pruning pass over the entries of `pbag`, in the order given. -/
def prune (tbl : Nat → Nat) (unseen : List Nat → Int → Nat) (cands : List candidate) : pruner :=
  cands.foldl (prune_step tbl unseen) { _pi2sf := [], patterns := [] }

/-- The invariant of the pruning pass: the keys of `patterns` are the surfaces of
the surface-only records of `_pi2sf`, each with the index of its record, and no
two surface-only records have the same surface. -/
def pruner_inv (st : pruner) : Prop :=
  (∀ kv ∈ st.patterns, ∃ r, st._pi2sf.get? kv.2 = some r ∧ r.surf = kv.1 ∧ r.ti_prev = -1) ∧
  (∀ r ∈ st._pi2sf, r.ti_prev = -1 → ∃ n, (r.surf, n) ∈ st.patterns) ∧
  (∀ r ∈ st._pi2sf, ∀ r1 ∈ st._pi2sf, r.ti_prev = -1 → r1.ti_prev = -1 → r.surf = r1.surf →
    r = r1)

/-- The longest retained surface-only pattern with a prefix of `c` as its
surface: what a longest-prefix lookup of `c` over the retained patterns finds. -/
def longest_prefix_record (recs : List pat_info_t) (c : List Nat) (r : pat_info_t) : Prop :=
  r ∈ recs ∧ r.ti_prev = -1 ∧ r.surf ≠ [] ∧ r.surf <+: c ∧
    ∀ r1 ∈ recs, r1.ti_prev = -1 → r1.surf <+: c → r1.surf.length ≤ r.surf.length

/-- Three surface-only patterns: `a` seen with the shift 1 and the feature 5,
`ab` with the shift 2 and the feature 7, `abc` with the shift 1 and the feature
5. -/
def nestedCands : List candidate :=
  [{ surf := [97], ti_prev := -1, sfi2c := [((1, 5), 3)] },
   { surf := [97, 98], ti_prev := -1, sfi2c := [((2, 7), 2)] },
   { surf := [97, 98, 99], ti_prev := -1, sfi2c := [((1, 5), 1)] }]

/-- The pattern `a`, surface-only and after the POS 0, seen with the shift 1 and
the feature 5. -/
def sameCands : List candidate :=
  [{ surf := [97], ti_prev := -1, sfi2c := [((1, 5), 3)] },
   { surf := [97], ti_prev := 0, sfi2c := [((1, 5), 2)] }]

/-- The patterns `a` and `ab`, both seen with the shift 1 and the feature 5. -/
def pruneCands : List candidate :=
  [{ surf := [97], ti_prev := -1, sfi2c := [((1, 5), 3)] },
   { surf := [97, 98], ti_prev := -1, sfi2c := [((1, 5), 2)] }]

end jagger

namespace ccedar

/-- A `c2i` table giving the letter `あ` (U+3042, the bytes `E3 81 82`) the id `1`
and `a` the id `2`; every other code point has the id `0`. -/
def hiraC2i : Nat → Nat := fun cp => if cp = 0x3042 then 1 else if cp = 97 then 2 else 0

/-- A `c2i` table that breaks `c2i[0] = 0`: `a` has the id `1` and every other
code point, `0` among them, the id `2`. -/
def openC2i : Nat → Nat := fun cp => if cp = 97 then 1 else 2

/-- A trie without edges whose empty key has the value `3`. -/
def rootTrie : da where
  child := fun _ _ => none
  value := fun n => if n = 0 then some 3 else none
  check := fun _ => 0

/-- A trie whose only edge is labelled with the id `0`: the key `[0]` has the
value `5`. -/
def zeroTrie : da where
  child := fun n k => if n = 0 ∧ k = 0 then some 1 else none
  value := fun n => if n = 1 then some 5 else none
  check := fun _ => 0

/-- A trie with the key `[1]` (value `5`) and the inner node of `[1, 2]`, whose
`check` link leads to the node `7` off the path; the node `7` has an edge
labelled `9` to the value `99`. -/
def strayTrie : da where
  child := fun n k =>
    match n, k with
    | 0, 1 => some 1
    | 1, 2 => some 2
    | 7, 9 => some 8
    | _, _ => none
  value := fun n =>
    match n with
    | 1 => some 5
    | 8 => some 99
    | _ => none
  check := fun n =>
    match n with
    | 2 => 7
    | _ => 0

end ccedar

/-! # Properties -/

/-! ## The pattern search on a window of whole characters -/

namespace ccedar

theorem unicode_append (c r : List Nat) (h : (unicode c).2 = c.length) :
    unicode (c ++ r) = unicode c := by
  have hne : c ≠ [] := by
    intro hc
    subst hc
    simp [unicode] at h
  obtain ⟨a, c', rfl⟩ := List.exists_cons_of_ne_nil hne
  simp only [unicode, List.cons_append, List.getD_cons_zero] at h ⊢
  split_ifs at h ⊢
  · match c', h with
    | [x, y], _ => simp
  · rfl
  · match c', h with
    | [x], _ => simp
  · match c', h with
    | [x, y, z], _ => simp

theorem unicode_snd_pos (p : List Nat) : 1 ≤ (unicode p).2 := by
  simp only [unicode]
  split_ifs <;> simp

theorem surfacePass_walk (t : da) (c2i : Nat → Nat) (key : List Nat) (len : Nat) (R : List Nat) :
    ∀ (cs : List (List Nat)) (fuel o b : Nat) (s : surface),
      whole cs → key.drop o = cs.flatten ++ R → o + cs.flatten.length ≤ len →
      c2i (if o + cs.flatten.length = len then 0 else (unicode R).1) = 0 →
      cs.length < fuel →
      surfacePass t c2i key len fuel o b s = some (walk t (ids c2i cs) s) := by
  intro cs
  induction cs with
  | nil =>
    intro fuel o b s _ hk _ hz hf
    obtain ⟨f, rfl⟩ : ∃ f, fuel = f + 1 := ⟨fuel - 1, by simp at hf; omega⟩
    simp only [List.flatten_nil, List.nil_append, List.length_nil, Nat.add_zero] at hk hz
    simp only [surfacePass, ids, List.map_nil, walk]
    by_cases ho : o = len
    · simp [ho] at hz ⊢
      simp [hz]
    · simp [ho, hk] at hz ⊢
      simp [hz]
  | cons c cs ih =>
    intro fuel o b s hw hk hl hz hf
    obtain ⟨f, rfl⟩ : ∃ f, fuel = f + 1 := ⟨fuel - 1, by simp at hf; omega⟩
    have hc : (unicode c).2 = c.length := hw c (List.mem_cons_self _ _)
    have hpos := unicode_snd_pos c
    have hw' : whole cs := fun x hx => hw x (List.mem_cons_of_mem _ hx)
    simp only [List.flatten_cons, List.length_append, List.append_assoc] at hk hl hz
    have ho : o ≠ len := by omega
    have hu : unicode (List.drop o key) = unicode c := by
      rw [hk]; exact unicode_append c _ hc
    have hk' : key.drop (o + (unicode c).2) = cs.flatten ++ R := by
      rw [← List.drop_drop, hk, hc]; simp
    have hl' : o + (unicode c).2 + cs.flatten.length ≤ len := by omega
    have hz' : c2i (if o + (unicode c).2 + cs.flatten.length = len then 0 else (unicode R).1) = 0 := by
      rw [hc, Nat.add_assoc]; exact hz
    have hf' : cs.length < f := by simp at hf; omega
    simp only [surfacePass, ids, List.map_cons, walk, if_neg ho, hu, da.traverse]
    by_cases hi : c2i (unicode c).1 = 0
    · simp [hi]
    · simp only [if_neg hi]
      cases hch : t.child s.frm (c2i (unicode c).1) with
      | none => simp
      | some m =>
        cases hv : t.value m with
        | none =>
          simp only [hv]
          exact ih f _ _ _ hw' hk' hl' hz' hf'
        | some v =>
          simp only [hv]
          exact ih f _ _ _ hw' hk' hl' hz' hf'

theorem node_append (t : da) : ∀ (q r : List Nat) (f : Nat),
    t.node (q ++ r) f = (t.node q f).bind (t.node r) := by
  intro q
  induction q with
  | nil => intro r f; simp [da.node]
  | cons k ks ih =>
    intro r f
    simp only [List.cons_append, da.node]
    cases t.child f k with
    | none => simp
    | some m => simpa using ih r m

theorem node_single (t : da) (k f : Nat) : t.node [k] f = t.child f k := by
  simp only [da.node]
  cases t.child f k <;> rfl

theorem find_snoc (t : da) (q : List Nat) (k : Nat) :
    t.find (q ++ [k]) = (t.node q 0).bind (t.ext k) := by
  simp only [da.find, node_append]
  cases t.node q 0 with
  | none => rfl
  | some m =>
    cases hc : t.child m k <;> simp [node_single, da.ext, hc]

theorem walk_char (t : da) (hz : ∀ n, t.child n 0 = none) :
    ∀ (l : List Nat) (s : surface), ∃ K P, P ≤ K ∧ K ≤ l.length ∧
      t.node (l.take K) s.frm = some (walk t l s).frm ∧
      (∀ j, P < j → j ≤ l.length → (t.node (l.take j) s.frm).bind t.value = none) ∧
      ((P = 0 ∧ (walk t l s).from_ = s.from_ ∧ (walk t l s).n = s.n) ∨
       (0 < P ∧ t.node (l.take P) s.frm = some (walk t l s).from_ ∧
          t.value (walk t l s).from_ = some (walk t l s).n)) := by
  intro l
  induction l with
  | nil =>
    intro s
    refine ⟨0, 0, le_refl _, le_refl _, by simp [walk, da.node], ?_, Or.inl ⟨rfl, rfl, rfl⟩⟩
    intro j h1 h2
    simp at h2
    omega
  | cons i is ih =>
    intro s
    by_cases hi : i = 0
    · subst hi
      refine ⟨0, 0, le_refl _, Nat.zero_le _, by simp [walk, da.node], ?_, Or.inl ⟨by simp [walk], by simp [walk]⟩⟩
      intro j h1 _
      obtain ⟨j', rfl⟩ : ∃ j', j = j' + 1 := ⟨j - 1, by omega⟩
      simp [da.node, hz]
    · cases hch : t.child s.frm i with
      | none =>
        refine ⟨0, 0, le_refl _, Nat.zero_le _, by simp [walk, da.node, hi, hch], ?_,
          Or.inl ⟨by simp [walk, hi, hch], by simp [walk, hi, hch]⟩⟩
        intro j h1 _
        obtain ⟨j', rfl⟩ : ∃ j', j = j' + 1 := ⟨j - 1, by omega⟩
        simp [da.node, hch]
      | some m =>
        have hnode : ∀ j, t.node ((i :: is).take (j + 1)) s.frm = t.node (is.take j) m := by
          intro j; simp [da.node, hch]
        cases hv : t.value m with
        | some v =>
          have hw : walk t (i :: is) s = walk t is { frm := m, from_ := m, n := v } := by
            simp [walk, hi, hch, hv]
          obtain ⟨K, P, hPK, hK, hfrm, hnone, hP⟩ := ih { frm := m, from_ := m, n := v }
          rw [hw]
          rcases hP with ⟨hP0, hf, hn⟩ | ⟨hP0, hf, hn⟩
          · refine ⟨K + 1, 1, by omega, by simp; omega, by rw [hnode]; exact hfrm, ?_, Or.inr ⟨by omega, ?_, ?_⟩⟩
            · intro j h1 h2
              obtain ⟨j', rfl⟩ : ∃ j', j = j' + 1 := ⟨j - 1, by omega⟩
              rw [hnode]
              exact hnone j' (by omega) (by simp at h2; omega)
            · rw [hnode]; simp [da.node, hf]
            · rw [hf, hn]; exact hv
          · refine ⟨K + 1, P + 1, by omega, by simp; omega, by rw [hnode]; exact hfrm, ?_, Or.inr ⟨by omega, ?_, hn⟩⟩
            · intro j h1 h2
              obtain ⟨j', rfl⟩ : ∃ j', j = j' + 1 := ⟨j - 1, by omega⟩
              rw [hnode]
              exact hnone j' (by omega) (by simp at h2; omega)
            · rw [hnode]; exact hf
        | none =>
          have hw : walk t (i :: is) s = walk t is { s with frm := m } := by
            simp [walk, hi, hch, hv]
          obtain ⟨K, P, hPK, hK, hfrm, hnone, hP⟩ := ih { s with frm := m }
          rw [hw]
          rcases hP with ⟨hP0, hf, hn⟩ | ⟨hP0, hf, hn⟩
          · refine ⟨K + 1, 0, by omega, by simp; omega, by rw [hnode]; exact hfrm, ?_, Or.inl ⟨rfl, hf, hn⟩⟩
            intro j h1 h2
            obtain ⟨j', rfl⟩ : ∃ j', j = j' + 1 := ⟨j - 1, by omega⟩
            rw [hnode]
            by_cases hj : j' = 0
            · subst hj; simp [da.node, hv]
            · exact hnone j' (by omega) (by simp at h2; omega)
          · refine ⟨K + 1, P + 1, by omega, by simp; omega, by rw [hnode]; exact hfrm, ?_, Or.inr ⟨by omega, ?_, hn⟩⟩
            · intro j h1 h2
              obtain ⟨j', rfl⟩ : ∃ j', j = j' + 1 := ⟨j - 1, by omega⟩
              rw [hnode]
              exact hnone j' (by omega) (by simp at h2; omega)
            · rw [hnode]; exact hf

theorem posLoop_succ (t : da) (fi from_ : Nat) (n : Int) (fuel x : Nat) :
    posLoop t fi from_ n (fuel + 1) x =
      match t.ext fi x with
      | some v => some v
      | none => if x = from_ then some n else posLoop t fi from_ n fuel (t.check x) := by
  simp only [posLoop, da.traverse, da.ext]
  cases t.child x fi with
  | none => rfl
  | some m =>
    simp only []
    cases hv : t.value m <;> simp

theorem node_take_succ (t : da) (l : List Nat) (k f x : Nat) (hk : k < l.length)
    (hx : t.node (l.take (k + 1)) f = some x) :
    ∃ y, t.node (l.take k) f = some y ∧ t.child y (l.get ⟨k, hk⟩) = some x := by
  rw [List.take_succ, node_append] at hx
  cases hy : t.node (l.take k) f with
  | none => simp [hy] at hx
  | some y =>
    refine ⟨y, rfl, ?_⟩
    simpa [hy, List.getElem?_eq_getElem hk, node_single] using hx

theorem posLoop_back (t : da) (hl : ∀ n k m, t.child n k = some m → t.check m = n)
    (fi : Nat) (l : List Nat) (P from_ : Nat) (n : Int)
    (hP : t.node (l.take P) 0 = some from_) :
    ∀ (d k x fuel : Nat), k = P + d → k ≤ l.length → t.node (l.take k) 0 = some x →
      (∀ j, P < j → j ≤ k → t.find (l.take j ++ [fi]) = none) → d < fuel →
      posLoop t fi from_ n fuel x = some ((t.find (l.take P ++ [fi])).getD n) := by
  have hext : t.find (l.take P ++ [fi]) = t.ext fi from_ := by
    rw [find_snoc, hP]; rfl
  intro d
  induction d with
  | zero =>
    intro k x fuel hk _ hx _ hf
    obtain ⟨f, rfl⟩ : ∃ f, fuel = f + 1 := ⟨fuel - 1, by omega⟩
    have hxf : x = from_ := by
      simp only [Nat.add_zero] at hk
      subst hk
      rw [hP] at hx
      exact (Option.some.inj hx).symm
    subst hxf
    rw [posLoop_succ, hext]
    cases t.ext fi x <;> simp
  | succ d ih =>
    intro k x fuel hk hkl hx hnone hf
    obtain ⟨f, rfl⟩ : ∃ f, fuel = f + 1 := ⟨fuel - 1, by omega⟩
    obtain ⟨k', rfl⟩ : ∃ k', k = k' + 1 := ⟨k - 1, by omega⟩
    have hex : t.ext fi x = none := by
      have := hnone (k' + 1) (by omega) (le_refl _)
      rw [find_snoc, hx] at this
      exact this
    rw [posLoop_succ, hex]
    by_cases hxf : x = from_
    · subst hxf
      simp [hext, hex]
    · obtain ⟨y, hy, hc⟩ := node_take_succ t l k' 0 x (by omega) hx
      have hchk : t.check x = y := hl _ _ _ hc
      simp only [if_neg hxf, hchk]
      exact ih k' y f (by omega) (by omega) hy (fun j h1 h2 => hnone j h1 (by omega)) (by omega)

theorem posLoop_some (t : da) (hl : ∀ n k m, t.child n k = some m → t.check m = n)
    (fi : Nat) (l : List Nat) (P from_ : Nat) (n : Int)
    (hP : t.node (l.take P) 0 = some from_) :
    ∀ (d k x fuel : Nat), k = P + d → k ≤ l.length → t.node (l.take k) 0 = some x →
      d < fuel → ∃ r, posLoop t fi from_ n fuel x = some r := by
  intro d
  induction d with
  | zero =>
    intro k x fuel hk _ hx hf
    obtain ⟨f, rfl⟩ : ∃ f, fuel = f + 1 := ⟨fuel - 1, by omega⟩
    have hxf : x = from_ := by
      simp only [Nat.add_zero] at hk
      subst hk
      rw [hP] at hx
      exact (Option.some.inj hx).symm
    rw [posLoop_succ]
    cases t.ext fi x <;> simp [hxf]
  | succ d ih =>
    intro k x fuel hk hkl hx hf
    obtain ⟨f, rfl⟩ : ∃ f, fuel = f + 1 := ⟨fuel - 1, by omega⟩
    obtain ⟨k', rfl⟩ : ∃ k', k = k' + 1 := ⟨k - 1, by omega⟩
    rw [posLoop_succ]
    cases t.ext fi x with
    | some v => exact ⟨v, rfl⟩
    | none =>
      by_cases hxf : x = from_
      · exact ⟨n, by simp [hxf]⟩
      · obtain ⟨y, hy, hc⟩ := node_take_succ t l k' 0 x (by omega) hx
        have hchk : t.check x = y := hl _ _ _ hc
        simp only [if_neg hxf, hchk]
        exact ih k' y f (by omega) (by omega) hy (by omega)

/-- The search ends: on a window of whole characters, in a trie whose `check`
links are the parents, both loops are left within `fuel` rounds as soon as
`fuel` exceeds the number of characters. -/
theorem search_terminates (t : da) (c2i : Nat → Nat) (cs : List (List Nat)) (tail : List Nat)
    (fi_prev fuel : Nat) (hwf : t.wf) (h0 : c2i 0 = 0) (hcs : whole cs)
    (hfuel : cs.length < fuel) :
    ∃ n, longestPatternSearch fuel t (cs.flatten ++ tail) cs.flatten.length fi_prev c2i 0
      = some n := by
  have hsp := surfacePass_walk t c2i (cs.flatten ++ tail) cs.flatten.length tail cs fuel 0 0
    { frm := 0, from_ := 0, n := 0 } hcs (by simp) (by simp) (by simp [h0]) hfuel
  obtain ⟨K, P, hPK, hK, hfrm, _, hP⟩ :=
    walk_char t hwf.zero (ids c2i cs) { frm := 0, from_ := 0, n := 0 }
  simp only at hfrm hP
  unfold longestPatternSearch
  rw [hsp]
  by_cases hfi : fi_prev = 0
  · exact ⟨(walk t (ids c2i cs) { frm := 0, from_ := 0, n := 0 }).n, by simp [hfi]⟩
  · have hPn : t.node ((ids c2i cs).take P) 0
        = some (walk t (ids c2i cs) { frm := 0, from_ := 0, n := 0 }).from_ := by
      rcases hP with ⟨hP0, hf, _⟩ | ⟨_, hf, _⟩
      · simp [hP0, hf, da.node]
      · exact hf
    simp only [if_neg hfi]
    exact posLoop_some t hwf.link fi_prev (ids c2i cs) P _ _ hPn (K - P) K _ fuel
      (by omega) hK hfrm (by simp [ids] at hK; omega)

theorem surfacePass_value (t : da) (c2i : Nat → Nat) (key : List Nat) (len : Nat) :
    ∀ (fuel o b : Nat) (s s' : surface), (s.n = 0 ∨ ∃ m, t.value m = some s.n) →
      surfacePass t c2i key len fuel o b s = some s' →
      (s'.n = 0 ∨ ∃ m, t.value m = some s'.n) := by
  intro fuel
  induction fuel with
  | zero => intro o b s s' _ h; simp [surfacePass] at h
  | succ f ih =>
    intro o b s s' hs h
    simp only [surfacePass, da.traverse] at h
    generalize (if o = len then (0, b) else unicode (List.drop o key)) = rd at h
    by_cases hi : c2i rd.1 = 0
    · rw [if_pos hi] at h
      cases h; exact hs
    · rw [if_neg hi] at h
      cases hch : t.child s.frm (c2i rd.1) with
      | none =>
        rw [hch] at h
        cases h; exact hs
      | some x =>
        rw [hch] at h
        cases hv : t.value x with
        | none =>
          simp only [hv] at h
          exact ih _ _ { frm := x, from_ := s.from_, n := s.n } _ hs h
        | some v =>
          simp only [hv] at h
          exact ih _ _ _ _ (Or.inr ⟨x, hv⟩) h

theorem posLoop_value (t : da) (fi from_ : Nat) (n : Int) :
    ∀ (fuel x : Nat) (r : Int), posLoop t fi from_ n fuel x = some r →
      r = n ∨ ∃ m, t.value m = some r := by
  intro fuel
  induction fuel with
  | zero => intro x r h; simp [posLoop] at h
  | succ f ih =>
    intro x r h
    rw [posLoop_succ] at h
    cases he : t.ext fi x with
    | some v =>
      rw [he] at h
      cases h
      right
      simp only [da.ext] at he
      cases hc : t.child x fi with
      | none => simp [hc] at he
      | some y => exact ⟨y, by simpa [hc] using he⟩
    | none =>
      rw [he] at h
      simp only at h
      split_ifs at h
      · cases h; exact Or.inl rfl
      · exact ih _ _ h

/-- The search returns the zero decision or a value stored in the trie. -/
theorem search_value (fuel : Nat) (t : da) (key : List Nat) (len fi_prev : Nat)
    (c2i : Nat → Nat) (n : Int)
    (h : longestPatternSearch fuel t key len fi_prev c2i 0 = some n) :
    n = 0 ∨ ∃ m, t.value m = some n := by
  unfold longestPatternSearch at h
  cases hs : surfacePass t c2i key len fuel 0 0 { frm := 0, from_ := 0, n := 0 } with
  | none => simp [hs] at h
  | some s =>
    have hsv := surfacePass_value t c2i key len fuel 0 0 _ s (Or.inl rfl) hs
    simp only [hs] at h
    split_ifs at h
    · cases h; exact hsv
    · rcases posLoop_value t fi_prev s.from_ s.n fuel s.frm n h with h1 | h1
      · rw [h1]; exact hsv
      · exact Or.inr h1

theorem demoTrie_wf : demoTrie.wf := by
  refine ⟨rfl, ?_, ?_⟩
  · intro n
    rcases n with _ | _ | _ | n <;> rfl
  · intro n k m h
    simp only [demoTrie] at h ⊢
    split at h <;> simp at h <;> subst h <;> rfl

theorem abTrie_wf : abTrie.wf := by
  refine ⟨rfl, ?_, ?_⟩
  · intro n
    rcases n with _ | _ | _ | n <;> rfl
  · intro n k m h
    simp only [abTrie] at h ⊢
    split at h <;> simp at h <;> subst h <;> rfl

theorem demo_whole : whole [[97], [98]] := by
  intro c hc
  simp only [List.mem_cons, List.mem_singleton, List.not_mem_nil, or_false] at hc
  rcases hc with rfl | rfl <;> decide

/-- The search on a window of whole characters, in terms of the keys of the trie:
`P` is the length of the longest valued prefix of the mapped window (`0` when
there is none) and `K` the number of characters the surface pass consumed. -/
theorem search_whole (t : da) (c2i : Nat → Nat) (cs : List (List Nat)) (tail : List Nat)
    (fi_prev fuel : Nat) (hwf : t.wf) (h0 : c2i 0 = 0) (hcs : whole cs)
    (hfuel : cs.length < fuel) :
    ∃ K P n, P ≤ K ∧ K ≤ (ids c2i cs).length ∧
      (∀ j, P < j → j ≤ (ids c2i cs).length → t.find ((ids c2i cs).take j) = none) ∧
      ((P = 0 ∧ n = 0) ∨ (0 < P ∧ t.find ((ids c2i cs).take P) = some n)) ∧
      (fi_prev = 0 →
        longestPatternSearch fuel t (cs.flatten ++ tail) cs.flatten.length fi_prev c2i 0
          = some n) ∧
      ((∀ j, P < j → j ≤ K → t.find ((ids c2i cs).take j ++ [fi_prev]) = none) →
        fi_prev ≠ 0 →
        longestPatternSearch fuel t (cs.flatten ++ tail) cs.flatten.length fi_prev c2i 0
          = some ((t.find ((ids c2i cs).take P ++ [fi_prev])).getD n)) := by
  have hsp := surfacePass_walk t c2i (cs.flatten ++ tail) cs.flatten.length tail cs fuel 0 0
    { frm := 0, from_ := 0, n := 0 } hcs (by simp) (by simp) (by simp [h0]) hfuel
  obtain ⟨K, P, hPK, hK, hfrm, hnone, hP⟩ :=
    walk_char t hwf.zero (ids c2i cs) { frm := 0, from_ := 0, n := 0 }
  simp only at hfrm hnone hP
  refine ⟨K, P, (walk t (ids c2i cs) { frm := 0, from_ := 0, n := 0 }).n, hPK, hK, hnone, ?_, ?_, ?_⟩
  · rcases hP with ⟨hP0, _, hn⟩ | ⟨hP0, hf, hn⟩
    · exact Or.inl ⟨hP0, hn⟩
    · exact Or.inr ⟨hP0, by simp [da.find, hf, hn]⟩
  · intro hfi
    unfold longestPatternSearch
    rw [hsp]
    simp [hfi]
  · intro hext hfi
    have hPn : t.node ((ids c2i cs).take P) 0
        = some (walk t (ids c2i cs) { frm := 0, from_ := 0, n := 0 }).from_ := by
      rcases hP with ⟨hP0, hf, _⟩ | ⟨_, hf, _⟩
      · simp [hP0, hf, da.node]
      · exact hf
    have := posLoop_back t hwf.link fi_prev (ids c2i cs) P _
      (walk t (ids c2i cs) { frm := 0, from_ := 0, n := 0 }).n hPn (K - P) K _ fuel
      (by omega) hK hfrm hext (by simp [ids] at hK; omega)
    unfold longestPatternSearch
    rw [hsp]
    simp only [if_neg hfi]
    exact this

end ccedar

/-! ## Claims on `longestPatternSearch` -/

namespace ccedar

/-- C2, amended: for a trie that keeps the invariants `da.wf`, a table with
`c2i[0] = 0` and a window made of whole characters (whatever bytes follow it),
when `fi_prev` is `0` or no prefix of the mapped window followed by `fi_prev` is
a valued key, the search returns the value stored for the longest prefix of the
mapped window that is a valued key, and the zero decision when no prefix is a
valued key. -/
theorem longestPatternSearch_longest_prefix (t : da) (c2i : Nat → Nat) (cs : List (List Nat))
    (tail : List Nat) (fi_prev fuel : Nat) (hwf : t.wf) (h0 : c2i 0 = 0) (hcs : whole cs)
    (hfuel : cs.length < fuel)
    (hfi : fi_prev = 0 ∨ ∀ p, p <+: ids c2i cs → t.find (p ++ [fi_prev]) = none) :
    ∃ r, longestPatternSearch fuel t (cs.flatten ++ tail) cs.flatten.length fi_prev c2i 0 = some r ∧
      ((∃ p, p <+: ids c2i cs ∧ t.find p = some r ∧
          ∀ q, q <+: ids c2i cs → t.find q ≠ none → q.length ≤ p.length) ∨
       ((∀ q, q <+: ids c2i cs → t.find q = none) ∧ r = 0)) := by
  obtain ⟨K, P, n, hPK, hK, hnone, hP, hzero, hpos⟩ :=
    search_whole t c2i cs tail fi_prev fuel hwf h0 hcs hfuel
  refine ⟨n, ?_, ?_⟩
  · by_cases h : fi_prev = 0
    · exact hzero h
    · have hall : ∀ p, p <+: ids c2i cs → t.find (p ++ [fi_prev]) = none := by
        rcases hfi with h' | h'
        · exact absurd h' h
        · exact h'
      rw [hpos (fun j _ _ => hall _ (List.take_prefix _ _)) h,
        hall _ (List.take_prefix _ _)]
      rfl
  · rcases hP with ⟨hP0, hn⟩ | ⟨hP0, hn⟩
    · right
      refine ⟨?_, hn⟩
      intro q hq
      have hqt := List.prefix_iff_eq_take.1 hq
      by_cases hl : q.length = 0
      · have : q = [] := List.length_eq_zero.1 hl
        subst this
        simpa [da.find, da.node] using hwf.root
      · rw [hqt]
        exact hnone _ (by omega) hq.length_le
    · left
      refine ⟨_, List.take_prefix _ _, hn, ?_⟩
      intro q hq hv
      have hqt := List.prefix_iff_eq_take.1 hq
      rw [List.length_take]
      by_contra hlt
      apply hv
      rw [hqt]
      exact hnone _ (by omega) hq.length_le

/-- C2 amended, at a concrete input: the window `ab` in `demoTrie` with
`fi_prev = 0`. -/
theorem longestPatternSearch_longest_prefix_witness :
    ∃ r, longestPatternSearch 3 demoTrie ([[97], [98]].flatten ++ []) [[97], [98]].flatten.length
        0 demoC2i 0 = some r ∧
      ((∃ p, p <+: ids demoC2i [[97], [98]] ∧ demoTrie.find p = some r ∧
          ∀ q, q <+: ids demoC2i [[97], [98]] → demoTrie.find q ≠ none → q.length ≤ p.length) ∨
       ((∀ q, q <+: ids demoC2i [[97], [98]] → demoTrie.find q = none) ∧ r = 0)) :=
  longestPatternSearch_longest_prefix demoTrie demoC2i [[97], [98]] [] 0 3 demoTrie_wf rfl
    demo_whole (by decide) (Or.inl rfl)

/-- C3, refuted as stated: in `demoTrie` the longest surface-only match of the
window `ab` is the key `[1]`, the key `[1, 9]` has the value `20`, and the search
with `fi_prev = 9` returns `30`, the value of the deeper key `[1, 2, 9]`. -/
theorem longestPatternSearch_pos_counterexample :
    demoTrie.find [1] = some 10 ∧ demoTrie.find [1, 2] = none ∧
      ids demoC2i [[97], [98]] = [1, 2] ∧ demoTrie.find ([1] ++ [9]) = some 20 ∧
      longestPatternSearch 3 demoTrie [97, 98] 2 9 demoC2i 0 = some 30 ∧
      longestPatternSearch 3 demoTrie [97, 98] 2 9 demoC2i 0 ≠ demoTrie.find ([1] ++ [9]) := by
  decide

/-- C3, amended: for a trie that keeps the invariants `da.wf`, a table with
`c2i[0] = 0`, a window made of whole characters and `fi_prev ≠ 0`, if the longest
valued prefix `p` of the mapped window (the empty key when there is none)
followed by `fi_prev` has a value, and no longer prefix of the mapped window
followed by `fi_prev` has one, the search returns the value of `p` followed by
`fi_prev`. -/
theorem longestPatternSearch_pos_refined (t : da) (c2i : Nat → Nat) (cs : List (List Nat))
    (tail : List Nat) (fi_prev fuel : Nat) (v : Int) (p : List Nat)
    (hwf : t.wf) (h0 : c2i 0 = 0) (hcs : whole cs) (hfuel : cs.length < fuel)
    (hfi : fi_prev ≠ 0) (hp : p <+: ids c2i cs) (hpv : p = [] ∨ t.find p ≠ none)
    (hmax : ∀ q, q <+: ids c2i cs → t.find q ≠ none → q.length ≤ p.length)
    (hv : t.find (p ++ [fi_prev]) = some v)
    (hdeep : ∀ q, q <+: ids c2i cs → p.length < q.length → t.find (q ++ [fi_prev]) = none) :
    longestPatternSearch fuel t (cs.flatten ++ tail) cs.flatten.length fi_prev c2i 0 = some v := by
  obtain ⟨K, P, n, hPK, hK, hnone, hP, _, hpos⟩ :=
    search_whole t c2i cs tail fi_prev fuel hwf h0 hcs hfuel
  have hpt := List.prefix_iff_eq_take.1 hp
  have hlen : p.length = P := by
    rcases hP with ⟨hP0, _⟩ | ⟨hP0, hn⟩
    · rcases hpv with rfl | hne
      · simp [hP0]
      · by_contra hnot
        apply hne
        rw [hpt]
        exact hnone _ (by omega) hp.length_le
    · have h1 := hmax _ (List.take_prefix P _) (by rw [hn]; simp)
      rw [List.length_take] at h1
      by_contra hnot
      have hne : t.find p ≠ none := by
        rcases hpv with rfl | hne
        · exfalso
          simp only [List.length_nil] at h1
          omega
        · exact hne
      apply hne
      rw [hpt]
      exact hnone _ (by omega) hp.length_le
  have hpP : (ids c2i cs).take P = p := by rw [← hlen]; exact hpt.symm
  rw [hpos ?_ hfi, hpP, hv]
  · rfl
  · intro j h1 _
    by_cases hj : j ≤ (ids c2i cs).length
    · apply hdeep _ (List.take_prefix _ _)
      rw [List.length_take]
      omega
    · omega

/-- C3 amended, at a concrete input: the window `a` in `demoTrie` with
`fi_prev = 9` gives the value `20` of the key `[1, 9]`. -/
theorem longestPatternSearch_pos_refined_witness :
    longestPatternSearch 2 demoTrie ([[97]].flatten ++ []) [[97]].flatten.length 9 demoC2i 0
      = some 20 :=
  longestPatternSearch_pos_refined demoTrie demoC2i [[97]] [] 9 2 20 [1] demoTrie_wf rfl
    (by intro c hc; simp at hc; subst hc; decide) (by decide) (by decide) (by decide)
    (Or.inr (by decide))
    (by
      intro q hq _
      have := hq.length_le
      simpa [ids] using this)
    (by decide)
    (by
      intro q hq hlt
      have := hq.length_le
      simp [ids] at this
      simp at hlt
      omega)

/-- C8, refuted as stated: `x` has the id `0`, and in `abTrie` the window `axb`
gives the value `5` of the key `[1]` while the window `ab` gives the value `7`
of the key `[1, 2]`. -/
theorem longestPatternSearch_zero_id_counterexample :
    demoC2i (unicode [120]).1 = 0 ∧
      longestPatternSearch 4 abTrie [97, 120, 98] 3 0 demoC2i 0 = some 5 ∧
      longestPatternSearch 4 abTrie [97, 98] 2 0 demoC2i 0 = some 7 ∧
      longestPatternSearch 4 abTrie [97, 120, 98] 3 0 demoC2i 0
        ≠ longestPatternSearch 4 abTrie [97, 98] 2 0 demoC2i 0 := by
  decide

/-- C8, amended: a character `x` whose `c2i` id is `0` ends the surface pass.  On
the window `u·x·v` the surface pass stops in the state it reaches at the end of
`u`, and the search returns what it returns on the window `u` alone. -/
theorem longestPatternSearch_zero_id_stops (t : da) (c2i : Nat → Nat) (u : List (List Nat))
    (x v tail tail' : List Nat) (fi_prev fuel : Nat) (h0 : c2i 0 = 0) (hu : whole u)
    (hx : (unicode x).2 = x.length) (hxi : c2i (unicode x).1 = 0) (hfuel : u.length < fuel) :
    (∃ s, surfacePass t c2i (u.flatten ++ x ++ v ++ tail) (u.flatten ++ x ++ v).length fuel 0 0
            { frm := 0, from_ := 0, n := 0 } = some s ∧
          surfacePass t c2i (u.flatten ++ tail') u.flatten.length fuel 0 0
            { frm := 0, from_ := 0, n := 0 } = some s) ∧
      longestPatternSearch fuel t (u.flatten ++ x ++ v ++ tail) (u.flatten ++ x ++ v).length
          fi_prev c2i 0
        = longestPatternSearch fuel t (u.flatten ++ tail') u.flatten.length fi_prev c2i 0 := by
  have hxpos := unicode_snd_pos x
  have h1 := surfacePass_walk t c2i (u.flatten ++ x ++ v ++ tail) (u.flatten ++ x ++ v).length
    (x ++ (v ++ tail)) u fuel 0 0 { frm := 0, from_ := 0, n := 0 } hu (by simp)
    (by simp)
    (by
      have hne : ¬ (0 + u.flatten.length = (u.flatten ++ x ++ v).length) := by
        simp only [List.length_append]; omega
      rw [if_neg hne, unicode_append x _ hx]
      exact hxi)
    hfuel
  have h2 := surfacePass_walk t c2i (u.flatten ++ tail') u.flatten.length tail' u fuel 0 0
    { frm := 0, from_ := 0, n := 0 } hu (by simp) (by simp) (by simp [h0]) hfuel
  refine ⟨⟨_, h1, h2⟩, ?_⟩
  unfold longestPatternSearch
  rw [h1, h2]

/-- C8 amended, at a concrete input: the windows `axb` and `a` in `abTrie`. -/
theorem longestPatternSearch_zero_id_stops_witness :
    longestPatternSearch 4 abTrie ([[97]].flatten ++ [120] ++ [98] ++ [])
        ([[97]].flatten ++ [120] ++ [98]).length 0 demoC2i 0
      = longestPatternSearch 4 abTrie ([[97]].flatten ++ []) [[97]].flatten.length 0 demoC2i 0 :=
  (longestPatternSearch_zero_id_stops abTrie demoC2i [[97]] [120] [98] [] [] 0 4 rfl
    (by intro c hc; simp at hc; subst hc; decide) (by decide) (by decide) (by decide)).2

/-- C9, refuted as stated: `c2i[0] = 0`, yet on the empty window the search with
`fi_prev = 5` traverses `posTrie` from the root and returns the value `42` of
the POS-only key `[5]`. -/
theorem longestPatternSearch_empty_counterexample :
    demoC2i 0 = 0 ∧ longestPatternSearch 1 posTrie [] 0 5 demoC2i 0 = some 42 ∧
      longestPatternSearch 1 posTrie [] 0 5 demoC2i 0 ≠ some 0 := by
  decide

/-- C9, amended: on an empty window, with `c2i[0] = 0`, the surface pass leaves
its loop at the first test without any traversal; the search returns the zero
decision when `fi_prev` is `0`, and otherwise makes one traversal, from the
root by `fi_prev`, and returns the value found there, or the zero decision when
there is none. -/
theorem longestPatternSearch_empty (t : da) (c2i : Nat → Nat) (key : List Nat)
    (fi_prev fuel : Nat) (h0 : c2i 0 = 0) :
    surfacePass t c2i key 0 (fuel + 1) 0 0 { frm := 0, from_ := 0, n := 0 }
        = some { frm := 0, from_ := 0, n := 0 } ∧
      longestPatternSearch (fuel + 1) t key 0 fi_prev c2i 0
        = some (if fi_prev = 0 then 0 else (t.ext fi_prev 0).getD 0) := by
  have hs : surfacePass t c2i key 0 (fuel + 1) 0 0 { frm := 0, from_ := 0, n := 0 }
      = some { frm := 0, from_ := 0, n := 0 } := by
    simp [surfacePass, h0]
  refine ⟨hs, ?_⟩
  unfold longestPatternSearch
  rw [hs]
  by_cases hfi : fi_prev = 0
  · simp [hfi]
  · simp only [if_neg hfi, posLoop_succ]
    cases t.ext fi_prev 0 <;> simp

/-- C9 amended, at a concrete input: the empty window in `posTrie`. -/
theorem longestPatternSearch_empty_witness :
    longestPatternSearch (0 + 1) posTrie [] 0 5 demoC2i 0
      = some (if 5 = 0 then 0 else (posTrie.ext 5 0).getD 0) :=
  (longestPatternSearch_empty posTrie demoC2i [] 5 0 rfl).2

end ccedar

/-! ## A round of the loop of `run` -/

namespace jagger

theorem u8_len_eq (p : List Nat) :
    u8_len p = [1, 1, 1, 1, 1, 1, 1, 1, 1, 1, 1, 1, 2, 2, 3, 4].getD (p.getD 0 0 % 256 / 16) 0 := by
  have h : p.getD 0 0 &&& 0xff = p.getD 0 0 % 256 :=
    Nat.and_pow_two_sub_one_eq_mod (p.getD 0 0) 8
  simp only [u8_len, h, Nat.shiftRight_eq_div_pow]

theorem u8_len_pos (p : List Nat) : 1 ≤ u8_len p := by
  rw [u8_len_eq]
  have h : p.getD 0 0 % 256 / 16 < 16 := by omega
  generalize p.getD 0 0 % 256 / 16 = i at h
  interval_cases i <;> simp

theorem u8_len_le (p : List Nat) : u8_len p ≤ 4 := by
  rw [u8_len_eq]
  have h : p.getD 0 0 % 256 / 16 < 16 := by omega
  generalize p.getD 0 0 % 256 / 16 = i at h
  interval_cases i <;> simp

theorem current_shift (n : Int) (ptr : List Nat) :
    (current n ptr).shift = if (unpack n).shift = 0 then u8_len ptr else (unpack n).shift := by
  unfold current
  split_ifs <;> rfl

theorem current_ctype (n : Int) (ptr : List Nat) : (current n ptr).ctype = (unpack n).ctype := by
  unfold current
  split_ifs <;> rfl

theorem current_id (n : Int) (ptr : List Nat) : (current n ptr).id = (unpack n).id := by
  unfold current
  split_ifs <;> rfl

theorem current_shift_pos (n : Int) (ptr : List Nat) : 1 ≤ (current n ptr).shift := by
  rw [current_shift]
  split_ifs with h
  · exact u8_len_pos ptr
  · omega

theorem concatenates_iff (s_prev s : pattern) :
    concatenates s_prev s = true ↔
      s_prev.ctype = s.ctype ∧ s.ctype ≠ OTHER ∧ (s.ctype ≠ KANA ∨ s_prev.shift + s.shift < 18) := by
  simp only [concatenates, Bool.and_eq_true, Bool.or_eq_true, decide_eq_true_eq]
  constructor
  · rintro ⟨⟨h1, h2⟩, h3⟩
    exact ⟨h1, h1 ▸ h2, h1 ▸ h3⟩
  · rintro ⟨h1, h2, h3⟩
    exact ⟨⟨h1, h1 ▸ h2⟩, h1 ▸ h3⟩

/-- The writes of a round that is not at a newline and finds a pending morpheme. -/
theorem step_pending (TAGGING : Bool) (fuel : Nat) (m : tagger) (st : state) (ptr : List Nat)
    (n : Int) (hnl : ptr.getD 0 0 ≠ 10) (hpend : st.s_prev.r ≠ 0)
    (hn : ccedar.longestPatternSearch fuel m._da ptr ptr.length st.finfo.ti m._c2i 0 = some n) :
    step TAGGING fuel m st ptr =
      some ({ s_prev := { current n ptr with concat := concatenates st.s_prev (current n ptr) },
              finfo := m._p2f (current n ptr).id },
            (if concatenates st.s_prev (current n ptr) = true then []
              else [if TAGGING = true then write.feature st.s_prev.concat st.finfo
                    else write.space]) ++
              [write.surface (ptr.take (current n ptr).shift)],
            (current n ptr).shift) := by
  simp only [step, if_neg hnl, hn, if_pos hpend]
  cases h : concatenates st.s_prev (current n ptr) <;> simp [hpend]

/-- C4: in a round that is not at a newline and has a pending morpheme, the match
is fused into the pending morpheme (the round writes its surface and nothing
before it) exactly when `prev.ctype == current.ctype`, that ctype is not `OTHER`,
and the ctype is not `KANA` or `prev.shift + current.shift < 18`; otherwise the
pending morpheme is committed first (its feature in tagging mode, a space in
segmentation mode).  The current shift is the shift of the match, a zero shift
replaced by `u8_len` of the current byte, and it is this shift alone that the next
round finds as `prev.shift`. -/
theorem step_fuses_iff (TAGGING : Bool) (fuel : Nat) (m : tagger) (st : state) (ptr : List Nat)
    (n : Int) (hnl : ptr.getD 0 0 ≠ 10) (hpend : st.s_prev.r ≠ 0)
    (hn : ccedar.longestPatternSearch fuel m._da ptr ptr.length st.finfo.ti m._c2i 0 = some n) :
    ∃ (st' : state) (out : List write) (cur : pattern),
      step TAGGING fuel m st ptr = some (st', out, cur.shift) ∧
      cur.shift = (if (unpack n).shift = 0 then u8_len ptr else (unpack n).shift) ∧
      cur.ctype = (unpack n).ctype ∧
      st'.s_prev.shift = cur.shift ∧ st'.s_prev.ctype = cur.ctype ∧
      ((st.s_prev.ctype = cur.ctype ∧ cur.ctype ≠ OTHER ∧
          (cur.ctype ≠ KANA ∨ st.s_prev.shift + cur.shift < 18)) →
        out = [write.surface (ptr.take cur.shift)]) ∧
      (¬ (st.s_prev.ctype = cur.ctype ∧ cur.ctype ≠ OTHER ∧
          (cur.ctype ≠ KANA ∨ st.s_prev.shift + cur.shift < 18)) →
        out = [if TAGGING = true then write.feature st.s_prev.concat st.finfo else write.space,
               write.surface (ptr.take cur.shift)]) := by
  refine ⟨_, _, current n ptr, step_pending TAGGING fuel m st ptr n hnl hpend hn,
    current_shift n ptr, current_ctype n ptr, rfl, rfl, ?_, ?_⟩
  · intro h
    rw [if_pos ((concatenates_iff _ _).2 h)]
    rfl
  · intro h
    rw [if_neg (fun hc => h ((concatenates_iff _ _).1 hc))]
    rfl

/-- C4, at a concrete input: the second digit of `11` in `numModel`. -/
theorem step_fuses_iff_witness :
    ∃ (st' : state) (out : List write) (cur : pattern),
      step false 5 numModel numPending [49, 10] = some (st', out, cur.shift) ∧
      cur.shift = (if (unpack 129).shift = 0 then u8_len [49, 10] else (unpack 129).shift) ∧
      cur.ctype = (unpack 129).ctype ∧
      st'.s_prev.shift = cur.shift ∧ st'.s_prev.ctype = cur.ctype ∧
      ((numPending.s_prev.ctype = cur.ctype ∧ cur.ctype ≠ OTHER ∧
          (cur.ctype ≠ KANA ∨ numPending.s_prev.shift + cur.shift < 18)) →
        out = [write.surface ([49, 10].take cur.shift)]) ∧
      (¬ (numPending.s_prev.ctype = cur.ctype ∧ cur.ctype ≠ OTHER ∧
          (cur.ctype ≠ KANA ∨ numPending.s_prev.shift + cur.shift < 18)) →
        out = [if false = true then write.feature numPending.s_prev.concat numPending.finfo
               else write.space,
               write.surface ([49, 10].take cur.shift)]) :=
  step_fuses_iff false 5 numModel numPending [49, 10] 129 (by decide) (by decide) (by decide)

/-- C5, refuted as stated: `kanaModel` types its katakana match as `KANA`, the
line `kanaLine` is one katakana run of 21 bytes, and `run` writes its seven
surfaces without any commit between them: one morpheme of 21 bytes. -/
theorem run_kana_counterexample :
    (unpack 515).ctype = KANA ∧ 18 < kanaLine.length - 1 ∧
      run false 30 kanaModel kanaLine =
        some [write.surface [0xE3, 0x82, 0xA2], write.surface [0xE3, 0x82, 0xA2],
              write.surface [0xE3, 0x82, 0xA2], write.surface [0xE3, 0x82, 0xA2],
              write.surface [0xE3, 0x82, 0xA2], write.surface [0xE3, 0x82, 0xA2],
              write.surface [0xE3, 0x82, 0xA2], write.eos false] ∧
      output false kanaModel
          [write.surface [0xE3, 0x82, 0xA2], write.surface [0xE3, 0x82, 0xA2],
           write.surface [0xE3, 0x82, 0xA2], write.surface [0xE3, 0x82, 0xA2],
           write.surface [0xE3, 0x82, 0xA2], write.surface [0xE3, 0x82, 0xA2],
           write.surface [0xE3, 0x82, 0xA2], write.eos false] = kanaLine := by
  decide

/-- C5, amended: a `KANA` match that follows a `KANA` match is fused into the
pending morpheme exactly when the shift of the immediately preceding match plus
its own shift is below 18; when the two shifts sum to 18 or more the pending
morpheme is committed first.  The length accumulated in the pending morpheme
plays no part. -/
theorem step_kana_fuses_iff (TAGGING : Bool) (fuel : Nat) (m : tagger) (st : state)
    (ptr : List Nat) (n : Int) (hnl : ptr.getD 0 0 ≠ 10) (hpend : st.s_prev.r ≠ 0)
    (hn : ccedar.longestPatternSearch fuel m._da ptr ptr.length st.finfo.ti m._c2i 0 = some n)
    (hprev : st.s_prev.ctype = KANA) (hcur : (unpack n).ctype = KANA) :
    ∃ (st' : state) (out : List write) (shift : Nat),
      step TAGGING fuel m st ptr = some (st', out, shift) ∧
      shift = (if (unpack n).shift = 0 then u8_len ptr else (unpack n).shift) ∧
      (st.s_prev.shift + shift < 18 → out = [write.surface (ptr.take shift)]) ∧
      (18 ≤ st.s_prev.shift + shift →
        out = [if TAGGING = true then write.feature st.s_prev.concat st.finfo else write.space,
               write.surface (ptr.take shift)]) := by
  have hk : KANA ≠ OTHER := by decide
  have hc : (current n ptr).ctype = KANA := by rw [current_ctype]; exact hcur
  refine ⟨_, _, (current n ptr).shift, step_pending TAGGING fuel m st ptr n hnl hpend hn,
    current_shift n ptr, ?_, ?_⟩
  · intro h
    rw [if_pos ((concatenates_iff _ _).2 ⟨by rw [hprev, hc], by rw [hc]; exact hk, Or.inr h⟩)]
    rfl
  · intro h
    have hnot : ¬ concatenates st.s_prev (current n ptr) = true := by
      intro hcc
      rcases ((concatenates_iff _ _).1 hcc).2.2 with h' | h'
      · exact h' hc
      · omega
    rw [if_neg hnot]
    rfl

/-- C5 amended, at a concrete input: the second letter of `アア` in `kanaModel`. -/
theorem step_kana_fuses_iff_witness :
    ∃ (st' : state) (out : List write) (shift : Nat),
      step false 5 kanaModel kanaPending [0xE3, 0x82, 0xA2, 10] = some (st', out, shift) ∧
      shift = (if (unpack 515).shift = 0 then u8_len [0xE3, 0x82, 0xA2, 10]
        else (unpack 515).shift) ∧
      (kanaPending.s_prev.shift + shift < 18 →
        out = [write.surface ([0xE3, 0x82, 0xA2, 10].take shift)]) ∧
      (18 ≤ kanaPending.s_prev.shift + shift →
        out = [if false = true then write.feature kanaPending.s_prev.concat kanaPending.finfo
               else write.space,
               write.surface ([0xE3, 0x82, 0xA2, 10].take shift)]) :=
  step_kana_fuses_iff false 5 kanaModel kanaPending [0xE3, 0x82, 0xA2, 10] 515 (by decide)
    (by decide) (by decide) (by decide) (by decide)

/-- C6, refuted as stated: in `numModel` the two matches of `11` have the ctype
`NUM`, and `run` writes the second surface right after the first, without a
commit: the two are fused. -/
theorem run_num_counterexample :
    (unpack 129).ctype = NUM ∧ NUM ≠ ALPHA ∧ NUM ≠ KANA ∧
      step false 5 numModel numPending [49, 10]
        = some ({ s_prev := { shift := 1, ctype := 1, id := 0, concat := true },
                  finfo := zeroP2f 0 }, [write.surface [49]], 1) ∧
      run false 5 numModel [49, 49, 10]
        = some [write.surface [49], write.surface [49], write.eos false] := by
  decide

/-- C6, amended: two adjacent matches are fused only if they have the same ctype
and that ctype is not `OTHER`; matches of different ctypes, or of ctype `OTHER`,
are never fused.  Two adjacent matches of a common ctype other than `OTHER` and
`KANA` (`NUM` and `ALPHA` among them) are always fused. -/
theorem step_fuses_only_same_class (TAGGING : Bool) (fuel : Nat) (m : tagger) (st : state)
    (ptr : List Nat) (n : Int) (hnl : ptr.getD 0 0 ≠ 10) (hpend : st.s_prev.r ≠ 0)
    (hn : ccedar.longestPatternSearch fuel m._da ptr ptr.length st.finfo.ti m._c2i 0 = some n) :
    ∃ (st' : state) (out : List write) (shift : Nat),
      step TAGGING fuel m st ptr = some (st', out, shift) ∧
      (out = [write.surface (ptr.take shift)] →
        st.s_prev.ctype = (unpack n).ctype ∧ (unpack n).ctype ≠ OTHER) ∧
      (st.s_prev.ctype ≠ (unpack n).ctype ∨ (unpack n).ctype = OTHER →
        out = [if TAGGING = true then write.feature st.s_prev.concat st.finfo else write.space,
               write.surface (ptr.take shift)]) ∧
      (st.s_prev.ctype = (unpack n).ctype → (unpack n).ctype ≠ OTHER →
        (unpack n).ctype ≠ KANA → out = [write.surface (ptr.take shift)]) := by
  refine ⟨_, _, (current n ptr).shift, step_pending TAGGING fuel m st ptr n hnl hpend hn,
    ?_, ?_, ?_⟩
  · intro h
    by_cases hc : concatenates st.s_prev (current n ptr) = true
    · have := (concatenates_iff _ _).1 hc
      rw [current_ctype] at this
      exact ⟨this.1, this.2.1⟩
    · rw [if_neg hc] at h
      simp at h
  · intro h
    have hnot : ¬ concatenates st.s_prev (current n ptr) = true := by
      intro hcc
      have := (concatenates_iff _ _).1 hcc
      rw [current_ctype] at this
      rcases h with h | h
      · exact h this.1
      · exact this.2.1 h
    rw [if_neg hnot]
    rfl
  · intro h1 h2 h3
    rw [if_pos ((concatenates_iff _ _).2
      ⟨by rw [current_ctype]; exact h1, by rw [current_ctype]; exact h2,
       Or.inl (by rw [current_ctype]; exact h3)⟩)]
    rfl

/-- C6 amended, at a concrete input: the second digit of `11` in `numModel`. -/
theorem step_fuses_only_same_class_witness :
    ∃ (st' : state) (out : List write) (shift : Nat),
      step false 5 numModel numPending [49, 10] = some (st', out, shift) ∧
      (out = [write.surface ([49, 10].take shift)] →
        numPending.s_prev.ctype = (unpack 129).ctype ∧ (unpack 129).ctype ≠ OTHER) ∧
      (numPending.s_prev.ctype ≠ (unpack 129).ctype ∨ (unpack 129).ctype = OTHER →
        out = [if false = true then write.feature numPending.s_prev.concat numPending.finfo
               else write.space,
               write.surface ([49, 10].take shift)]) ∧
      (numPending.s_prev.ctype = (unpack 129).ctype → (unpack 129).ctype ≠ OTHER →
        (unpack 129).ctype ≠ KANA → out = [write.surface ([49, 10].take shift)]) :=
  step_fuses_only_same_class false 5 numModel numPending [49, 10] 129 (by decide) (by decide)
    (by decide)

/-- The writes of a round that is not at a newline: at most one commit, then
the surface of `shift` bytes; the state keeps the decision of this match. -/
theorem step_match (TAGGING : Bool) (fuel : Nat) (m : tagger) (st : state) (ptr : List Nat)
    (n : Int) (hnl : ptr.getD 0 0 ≠ 10)
    (hn : ccedar.longestPatternSearch fuel m._da ptr ptr.length st.finfo.ti m._c2i 0 = some n) :
    ∃ (st' : state) (pre : List write),
      step TAGGING fuel m st ptr
        = some (st', pre ++ [write.surface (ptr.take (current n ptr).shift)],
            (current n ptr).shift) ∧
      (pre = [] ∨
        pre = [if TAGGING = true then write.feature st.s_prev.concat st.finfo
               else write.space]) ∧
      st'.s_prev.shift = (current n ptr).shift ∧ st'.s_prev.ctype = (current n ptr).ctype ∧
      st'.s_prev.id = (current n ptr).id ∧ st'.finfo = m._p2f (current n ptr).id ∧
      st'.s_prev.r ≠ 0 := by
  have hpos := current_shift_pos n ptr
  by_cases hpend : st.s_prev.r ≠ 0
  · refine ⟨_, _, step_pending TAGGING fuel m st ptr n hnl hpend hn, ?_, rfl, rfl, rfl, rfl, ?_⟩
    · split_ifs <;> simp
    · simp only [pattern.r]
      omega
  · refine ⟨{ s_prev := current n ptr, finfo := m._p2f (current n ptr).id }, [], ?_,
      Or.inl rfl, rfl, rfl, rfl, rfl, ?_⟩
    · have hp : st.s_prev.r = 0 := not_not.mp hpend
      simp only [step, if_neg hnl, hn]
      simp [hp]
    · simp only [pattern.r]
      omega

theorem u8_len_below_C0 (p : List Nat) (h : p.getD 0 0 < 0xC0) : u8_len p = 1 := by
  rw [u8_len_eq]
  have h1 : p.getD 0 0 % 256 / 16 < 12 := by omega
  generalize p.getD 0 0 % 256 / 16 = i at h1
  interval_cases i <;> rfl

theorem u8_len_lead2 (p : List Nat) (h1 : 0xC0 ≤ p.getD 0 0) (h2 : p.getD 0 0 < 0xE0) :
    u8_len p = 2 := by
  rw [u8_len_eq]
  have h3 : 12 ≤ p.getD 0 0 % 256 / 16 := by omega
  have h4 : p.getD 0 0 % 256 / 16 < 14 := by omega
  generalize p.getD 0 0 % 256 / 16 = i at h3 h4
  interval_cases i <;> rfl

theorem u8_len_lead3 (p : List Nat) (h1 : 0xE0 ≤ p.getD 0 0) (h2 : p.getD 0 0 < 0xF0) :
    u8_len p = 3 := by
  rw [u8_len_eq]
  have h3 : p.getD 0 0 % 256 / 16 = 14 := by omega
  rw [h3]
  rfl

theorem u8_len_lead4 (p : List Nat) (h1 : 0xF0 ≤ p.getD 0 0) (h2 : p.getD 0 0 < 0x100) :
    u8_len p = 4 := by
  rw [u8_len_eq]
  have h3 : p.getD 0 0 % 256 / 16 = 15 := by omega
  rw [h3]
  rfl

/-- C10: in `emptyModel` no pattern matches and the search returns the zero
decision.  On the input made of the lead byte `0xE3` alone the round gives
`reader.advance` the shift `u8_len = 3`, two bytes past the end of the one-byte
input, and `run` does not come to an end on the input: with the reader of the
batch mode the `read` after the round finds `_p` behind `_q` and calls `memmove`
with the size `_q - _p = -2`.  Inside an input, at the lead byte `0xE3` followed
by `a` and a newline, which are not its continuation bytes, the round advances
the cursor by three bytes and writes all three as one surface. -/
theorem run_lead_overruns (TAGGING : Bool) :
    ccedar.longestPatternSearch 5 emptyModel._da [0xE3] 1
        (state.init emptyModel).finfo.ti emptyModel._c2i 0 = some 0 ∧
      (unpack 0).shift = 0 ∧ u8_len [0xE3] = 3 ∧
      (step TAGGING 5 emptyModel (state.init emptyModel) [0xE3]).map (fun x => x.2.2) = some 3 ∧
      [0xE3].length < 3 ∧
      run TAGGING 5 emptyModel [0xE3] = none ∧
      simple_reader.new [[0xE3]] = some (simple_reader.mk [0xE3] 0 1 []) ∧
      (step_at TAGGING 5 emptyModel (state.init emptyModel) [0xE3] 1).map (fun x => x.2.2)
        = some 3 ∧
      ((simple_reader.mk [0xE3] 0 1 []).advance 3)._q
        < ((simple_reader.mk [0xE3] 0 1 []).advance 3)._p ∧
      (simple_reader.mk [0xE3] 0 1 []).next 3 = none ∧
      run_batch TAGGING 5 emptyModel [[0xE3]] = none ∧
      ccedar.longestPatternSearch 5 emptyModel._da [0xE3, 0x61, 10] 3
        (state.init emptyModel).finfo.ti emptyModel._c2i 0 = some 0 ∧
      step TAGGING 5 emptyModel (state.init emptyModel) [0xE3, 0x61, 10]
        = some (state.mk (pattern.mk 3 0 0 false) (zeroP2f 0),
            [write.surface [0xE3, 0x61, 10]], 3) := by
  cases TAGGING <;> decide

/-- The round of an unknown word inside the input: when the cursor is at a byte
other than a newline, the search returns a decision with zero shift and `u8_len`
of the byte is at most the number of unread bytes, the round advances the cursor
by `u8_len` of that byte and writes these bytes as the surface of a morpheme
whose feature is the `p2f` entry of the returned id.  For a stray continuation
byte `0x80-0xBF` (as for an ASCII byte) this is exactly one byte, the byte under
the cursor; for a lead byte `0xC0-0xDF`, `0xE0-0xEF` or `0xF0-0xFF` the advance
is 2, 3 or 4 bytes, whatever the bytes that follow the lead byte are. -/
theorem step_unknown_advances (TAGGING : Bool) (fuel : Nat) (m : tagger) (st : state)
    (ptr : List Nat) (n : Int) (hne : ptr ≠ []) (hnl : ptr.getD 0 0 ≠ 10)
    (hbyte : ptr.getD 0 0 < 0x100) (_hin : u8_len ptr ≤ ptr.length)
    (hn : ccedar.longestPatternSearch fuel m._da ptr ptr.length st.finfo.ti m._c2i 0 = some n)
    (hz : (unpack n).shift = 0) :
    ∃ (st' : state) (pre : List write),
      step TAGGING fuel m st ptr
        = some (st', pre ++ [write.surface (ptr.take (u8_len ptr))], u8_len ptr) ∧
      (∀ w ∈ pre, ∀ bs, w ≠ write.surface bs) ∧
      st'.finfo = m._p2f (unpack n).id ∧
      (ptr.getD 0 0 < 0xC0 →
        u8_len ptr = 1 ∧ ptr.take (u8_len ptr) = [ptr.getD 0 0] ∧ u8_len ptr ≤ ptr.length) ∧
      (0xC0 ≤ ptr.getD 0 0 → ptr.getD 0 0 < 0xE0 → u8_len ptr = 2) ∧
      (0xE0 ≤ ptr.getD 0 0 → ptr.getD 0 0 < 0xF0 → u8_len ptr = 3) ∧
      (0xF0 ≤ ptr.getD 0 0 → u8_len ptr = 4) := by
  obtain ⟨st', pre, hstep, hpre, _, _, _, hfinfo, _⟩ := step_match TAGGING fuel m st ptr n hnl hn
  have hs : (current n ptr).shift = u8_len ptr := by rw [current_shift, if_pos hz]
  rw [hs] at hstep
  refine ⟨st', pre, hstep, ?_, by rw [hfinfo, current_id], ?_, u8_len_lead2 ptr,
    u8_len_lead3 ptr, fun h => u8_len_lead4 ptr h hbyte⟩
  · intro w hw bs
    rcases hpre with h | h
    · simp [h] at hw
    · rw [h] at hw
      simp only [List.mem_singleton] at hw
      subst hw
      split_ifs <;> simp
  · intro h
    have h1 := u8_len_below_C0 ptr h
    obtain ⟨a, rest, rfl⟩ := List.exists_cons_of_ne_nil hne
    refine ⟨h1, ?_, ?_⟩
    · rw [h1]; rfl
    · rw [h1]; simp

/-- The round of an unknown word, at a concrete input: the stray continuation
byte `0x80` followed by `a` in `emptyModel`. -/
theorem step_unknown_advances_witness :
    ∃ (st' : state) (pre : List write),
      step false 5 emptyModel (state.init emptyModel) [0x80, 0x61]
        = some (st', pre ++ [write.surface ([0x80, 0x61].take (u8_len [0x80, 0x61]))],
            u8_len [0x80, 0x61]) ∧
      (∀ w ∈ pre, ∀ bs, w ≠ write.surface bs) ∧
      st'.finfo = emptyModel._p2f (unpack 0).id ∧
      ([0x80, 0x61].getD 0 0 < 0xC0 →
        u8_len [0x80, 0x61] = 1 ∧ [0x80, 0x61].take (u8_len [0x80, 0x61]) = [[0x80, 0x61].getD 0 0] ∧
          u8_len [0x80, 0x61] ≤ [0x80, 0x61].length) ∧
      (0xC0 ≤ [0x80, 0x61].getD 0 0 → [0x80, 0x61].getD 0 0 < 0xE0 → u8_len [0x80, 0x61] = 2) ∧
      (0xE0 ≤ [0x80, 0x61].getD 0 0 → [0x80, 0x61].getD 0 0 < 0xF0 → u8_len [0x80, 0x61] = 3) ∧
      (0xF0 ≤ [0x80, 0x61].getD 0 0 → u8_len [0x80, 0x61] = 4) :=
  step_unknown_advances false 5 emptyModel (state.init emptyModel) [0x80, 0x61] 0 (by decide)
    (by decide) (by decide) (by decide) (by decide) (by decide)

end jagger

/-! ## Tagging mode and segmentation mode -/

namespace jagger

theorem toSegmentation_surface (bs : List Nat) (ws : List write) :
    toSegmentation (write.surface bs :: ws) = write.surface bs :: toSegmentation ws := by
  simp [toSegmentation]

theorem toSegmentation_eos (tg : Bool) (ws : List write) :
    toSegmentation (write.eos tg :: ws) = write.eos false :: toSegmentation ws := by
  simp [toSegmentation]

theorem toSegmentation_feature_surface (c : Bool) (f : feat_info_t) (bs : List Nat)
    (ws : List write) :
    toSegmentation (write.feature c f :: write.surface bs :: ws)
      = write.space :: write.surface bs :: toSegmentation ws := by
  simp [toSegmentation]

theorem toSegmentation_feature_eos (c : Bool) (f : feat_info_t) (tg : Bool) (ws : List write) :
    toSegmentation (write.feature c f :: write.eos tg :: ws)
      = write.eos false :: toSegmentation ws := by
  simp [toSegmentation]

/-- A round of the loop in segmentation mode reaches the state of the round in
tagging mode, with the same advance; its writes are the rewriting of the
tagging-mode writes, which does not depend on what is written next. -/
theorem step_modes (fuel : Nat) (m : tagger) (st : state) (ptr : List Nat) :
    (step true fuel m st ptr = none → step false fuel m st ptr = none) ∧
    (∀ st' out sh, step true fuel m st ptr = some (st', out, sh) →
      step false fuel m st ptr = some (st', toSegmentation out, sh) ∧
      ∀ ws, toSegmentation (out ++ ws) = toSegmentation out ++ toSegmentation ws) := by
  by_cases hnl : ptr.getD 0 0 = 10
  · simp only [step, if_pos hnl]
    refine ⟨by simp, ?_⟩
    intro st' out sh h
    simp only [Option.some.injEq, Prod.mk.injEq] at h
    obtain ⟨rfl, rfl, rfl⟩ := h
    by_cases hp : st.s_prev.r ≠ 0
    · simp [hp, toSegmentation]
    · simp [hp, toSegmentation]
  · cases hn : ccedar.longestPatternSearch fuel m._da ptr ptr.length st.finfo.ti m._c2i 0 with
    | none =>
      simp only [step, if_neg hnl, hn]
      simp
    | some n =>
      simp only [step, if_neg hnl, hn]
      refine ⟨by simp, ?_⟩
      intro st' out sh h
      simp only [Option.some.injEq, Prod.mk.injEq] at h
      obtain ⟨rfl, rfl, rfl⟩ := h
      by_cases hp : st.s_prev.r ≠ 0
      · by_cases hc : concatenates st.s_prev (current n ptr) = true
        · simp [hp, hc, toSegmentation]
        · simp [hp, hc, toSegmentation]
      · simp [hp, toSegmentation]

theorem loop_modes (fuel : Nat) (m : tagger) :
    ∀ (k : Nat) (st : state) (ptr : List Nat),
      (loop true fuel m k st ptr = none → loop false fuel m k st ptr = none) ∧
      (∀ st' out, loop true fuel m k st ptr = some (st', out) →
        loop false fuel m k st ptr = some (st', toSegmentation out) ∧
        ∀ ws, toSegmentation (out ++ ws) = toSegmentation out ++ toSegmentation ws) := by
  intro k
  induction k with
  | zero => intro st ptr; simp [loop]
  | succ k ih =>
    intro st ptr
    by_cases hp : ptr = []
    · simp only [loop, if_pos hp]
      refine ⟨by simp, ?_⟩
      intro st' out h
      simp only [Option.some.injEq, Prod.mk.injEq] at h
      obtain ⟨rfl, rfl⟩ := h
      simp [toSegmentation]
    · obtain ⟨hnone, hsome⟩ := step_modes fuel m st ptr
      cases hs : step true fuel m st ptr with
      | none => simp [loop, hp, hs, hnone hs]
      | some res =>
        obtain ⟨st1, out1, sh⟩ := res
        obtain ⟨hf, hclosed⟩ := hsome st1 out1 sh hs
        simp only [loop, if_neg hp, hs, hf]
        by_cases hlen : ptr.length < sh
        · simp [hlen]
        · simp only [if_neg hlen]
          obtain ⟨ihnone, ihsome⟩ := ih st1 (ptr.drop sh)
          cases hl : loop true fuel m k st1 (ptr.drop sh) with
          | none => simp [ihnone hl]
          | some res2 =>
            obtain ⟨st2, out2⟩ := res2
            obtain ⟨hf2, hclosed2⟩ := ihsome st2 out2 hl
            simp only [hf2]
            refine ⟨by simp, ?_⟩
            intro st' out h
            simp only [Option.some.injEq, Prod.mk.injEq] at h
            obtain ⟨rfl, rfl⟩ := h
            refine ⟨by rw [hclosed], ?_⟩
            intro ws
            rw [List.append_assoc, hclosed, hclosed2, hclosed, List.append_assoc]

/-- C7: tagging mode and segmentation mode commit morphemes at the same
offsets.  Replacing in the tagging-mode writes every feature write followed by a
surface by a single space, deleting every feature write before an
end-of-sentence marker and turning every `"EOS\n"` into `"\n"` gives the
segmentation-mode writes; either mode ends exactly when the other does. -/
theorem run_modes_agree (fuel : Nat) (m : tagger) (input : List Nat) :
    run false fuel m input = (run true fuel m input).map toSegmentation := by
  obtain ⟨hnone, hsome⟩ := loop_modes fuel m fuel (state.init m) input
  cases hl : loop true fuel m fuel (state.init m) input with
  | none => simp [run, hl, hnone hl]
  | some res =>
    obtain ⟨st, out⟩ := res
    obtain ⟨hf, hclosed⟩ := hsome st out hl
    simp only [run, hl, hf, Option.map_some', hclosed]
    by_cases hp : st.s_prev.r ≠ 0
    · simp [finish, hp, toSegmentation]
    · simp [finish, hp, toSegmentation]

end jagger

/-! ## Valid UTF-8 input -/

namespace jagger

set_option maxRecDepth 100000 in
theorem byte_masks :
    ∀ b < 256, ((b &&& 0xff) &&& 0xf0 = 0xe0 ↔ 0xE0 ≤ b ∧ b < 0xF0) ∧
      ((b &&& 0xff) < 0x80 ↔ b < 0x80) ∧
      ((b &&& 0xff) &&& 0xe0 = 0xc0 ↔ 0xC0 ≤ b ∧ b < 0xE0) := by
  decide

theorem unicode_snd (p : List Nat) (h : p.getD 0 0 < 256) :
    (unicode p).2 =
      if 0xE0 ≤ p.getD 0 0 ∧ p.getD 0 0 < 0xF0 then 3
      else if p.getD 0 0 < 0x80 then 1
      else if 0xC0 ≤ p.getD 0 0 ∧ p.getD 0 0 < 0xE0 then 2
      else 4 := by
  obtain ⟨h1, h2, h3⟩ := byte_masks _ h
  unfold unicode
  simp only [h1, h2, h3]
  split_ifs <;> rfl

/-- The first byte of a well-formed character fixes its length: the byte count
of `unicode` and `u8_len` both give it; a character that starts with a newline
is the newline. -/
theorem utf8Char_len (c : List Nat) (h : utf8Char c = true) :
    c ≠ [] ∧ c.getD 0 0 < 256 ∧ u8_len c = c.length ∧ (unicode c).2 = c.length ∧
      (c.getD 0 0 = 10 → c = [10]) := by
  match c, h with
  | [b0], h =>
    simp only [utf8Char, decide_eq_true_eq] at h
    have hb : [b0].getD 0 0 = b0 := rfl
    refine ⟨by simp, by rw [hb]; omega, ?_, ?_, ?_⟩
    · rw [u8_len_below_C0 _ (by rw [hb]; omega)]; rfl
    · rw [unicode_snd _ (by rw [hb]; omega), hb]
      rw [if_neg (by omega), if_pos (by omega)]; rfl
    · intro h10; rw [hb] at h10; rw [h10]
  | [b0, b1], h =>
    simp only [utf8Char, Bool.and_eq_true, decide_eq_true_eq] at h
    have hb : [b0, b1].getD 0 0 = b0 := rfl
    refine ⟨by simp, by rw [hb]; omega, ?_, ?_, ?_⟩
    · rw [u8_len_lead2 _ (by rw [hb]; omega) (by rw [hb]; omega)]; rfl
    · rw [unicode_snd _ (by rw [hb]; omega), hb]
      rw [if_neg (by omega), if_neg (by omega), if_pos (by omega)]; rfl
    · intro h10; rw [hb] at h10; omega
  | [b0, b1, b2], h =>
    simp only [utf8Char, Bool.and_eq_true, Bool.or_eq_true, decide_eq_true_eq] at h
    have hb : [b0, b1, b2].getD 0 0 = b0 := rfl
    have hr : 0xE0 ≤ b0 ∧ b0 < 0xF0 := by omega
    refine ⟨by simp, by rw [hb]; omega, ?_, ?_, ?_⟩
    · rw [u8_len_lead3 _ (by rw [hb]; omega) (by rw [hb]; omega)]; rfl
    · rw [unicode_snd _ (by rw [hb]; omega), hb]
      rw [if_pos hr]; rfl
    · intro h10; rw [hb] at h10; omega
  | [b0, b1, b2, b3], h =>
    simp only [utf8Char, Bool.and_eq_true, Bool.or_eq_true, decide_eq_true_eq] at h
    have hb : [b0, b1, b2, b3].getD 0 0 = b0 := rfl
    have hr : 0xF0 ≤ b0 ∧ b0 < 0xF5 := by omega
    refine ⟨by simp, by rw [hb]; omega, ?_, ?_, ?_⟩
    · rw [u8_len_lead4 _ (by rw [hb]; omega) (by rw [hb]; omega)]; rfl
    · rw [unicode_snd _ (by rw [hb]; omega), hb]
      rw [if_neg (by omega), if_neg (by omega), if_neg (by omega)]; rfl
    · intro h10; rw [hb] at h10; omega

theorem getD_zero_append (c r : List Nat) (h : c ≠ []) : (c ++ r).getD 0 0 = c.getD 0 0 := by
  obtain ⟨a, c', rfl⟩ := List.exists_cons_of_ne_nil h
  rfl

theorem u8_len_append (c r : List Nat) (h : c ≠ []) : u8_len (c ++ r) = u8_len c := by
  simp only [u8_len, getD_zero_append c r h]

theorem utf8_whole (cs : List (List Nat)) (h : ∀ c ∈ cs, utf8Char c = true) :
    ccedar.whole cs :=
  fun c hc => (utf8Char_len c (h c hc)).2.2.2.1

theorem utf8_length_le (cs : List (List Nat)) (h : ∀ c ∈ cs, utf8Char c = true) :
    cs.length ≤ cs.flatten.length := by
  induction cs with
  | nil => simp
  | cons c cs ih =>
    have hc := (utf8Char_len c (h c (List.mem_cons_self _ _))).1
    have hpos : 1 ≤ c.length := List.length_pos.2 hc
    have := ih (fun x hx => h x (List.mem_cons_of_mem _ hx))
    simp only [List.flatten_cons, List.length_cons, List.length_append]
    omega

theorem validUtf8_nil : validUtf8 [] := ⟨[], by simp, rfl⟩

theorem validUtf8_char (c : List Nat) (h : utf8Char c = true) : validUtf8 c :=
  ⟨[c], by simpa using h, by simp⟩

/-- A valid sequence that is not empty starts with a well-formed character and
goes on with a valid sequence. -/
theorem validUtf8_uncons (w : List Nat) (hv : validUtf8 w) (hne : w ≠ []) :
    ∃ c tl, utf8Char c = true ∧ w = c ++ tl ∧ validUtf8 tl ∧
      ∃ cs : List (List Nat), (∀ x ∈ cs, utf8Char x = true) ∧ cs.flatten = w := by
  obtain ⟨cs, hcs, rfl⟩ := hv
  match cs, hcs, hne with
  | [], _, hne => simp at hne
  | c :: cs', hcs, _ =>
    exact ⟨c, cs'.flatten, hcs c (List.mem_cons_self _ _), by simp,
      ⟨cs', fun x hx => hcs x (List.mem_cons_of_mem _ hx), rfl⟩, c :: cs', hcs, rfl⟩

/-- Cutting a valid prefix off a valid sequence leaves a valid sequence: the
characters of a valid sequence are delimited in one way only. -/
theorem validUtf8_drop (ps : List (List Nat)) :
    ∀ (w : List Nat), validUtf8 w → (∀ c ∈ ps, utf8Char c = true) → ps.flatten <+: w →
      validUtf8 (w.drop ps.flatten.length) := by
  induction ps with
  | nil => intro w hw _ _; simpa using hw
  | cons c ps ih =>
    intro w hw hps hpre
    have hc := hps c (List.mem_cons_self _ _)
    obtain ⟨hcne, _, hclen, _, _⟩ := utf8Char_len c hc
    have hwne : w ≠ [] := by
      intro h
      subst h
      simp only [List.flatten_cons, List.prefix_nil, List.append_eq_nil] at hpre
      exact hcne hpre.1
    obtain ⟨d, tl, hd, rfl, htl, _⟩ := validUtf8_uncons w hw hwne
    obtain ⟨hdne, _, hdlen, _, _⟩ := utf8Char_len d hd
    obtain ⟨t, ht⟩ := hpre
    simp only [List.flatten_cons, List.append_assoc] at ht
    have hlen : c.length = d.length := by
      rw [← hclen, ← hdlen, ← u8_len_append c (ps.flatten ++ t) hcne, ht,
        u8_len_append d tl hdne]
    obtain ⟨hcd, hrest⟩ := List.append_inj ht hlen
    subst hcd
    have := ih tl htl (fun x hx => hps x (List.mem_cons_of_mem _ hx)) ⟨t, hrest⟩
    simpa [List.flatten_cons, List.length_append, List.drop_append] using this

theorem restore_append (a b : List write) : restore (a ++ b) = restore a ++ restore b := by
  induction a with
  | nil => rfl
  | cons w ws ih => cases w <;> simp [restore, ih]

theorem restore_count (ws : List write) :
    (restore ws).count 10 = markers ws + (surfaces ws).count 10 := by
  induction ws with
  | nil => rfl
  | cons w ws ih =>
    cases w <;> simp [restore, markers, surfaces, ih, List.count_append, List.count_cons] <;> omega

theorem restore_commit (pre ws : List write) (f : write)
    (hf : f = write.space ∨ ∃ c i, f = write.feature c i) (h : pre = [] ∨ pre = [f]) :
    restore (pre ++ ws) = restore ws := by
  rcases h with rfl | rfl
  · rfl
  · rcases hf with rfl | ⟨c, i, rfl⟩ <;> rfl

/-- The loop of `run` on valid UTF-8, for a model whose shifts are `0` or the
length of a valid prefix of the window: it ends, and its writes carry the unread
data byte for byte. -/
theorem loop_restores (TAGGING : Bool) (fuel : Nat) (m : tagger) (input : List Nat)
    (hwf : m._da.wf) (h0 : m._c2i 0 = 0) (hfuel : input.length < fuel)
    (hshift : ∀ (w : List Nat) (fi : Nat) (n : Int), w ≠ [] → w <:+ input → validUtf8 w →
      ccedar.longestPatternSearch fuel m._da w w.length fi m._c2i 0 = some n →
      (unpack n).shift = 0 ∨ ∃ p, p <+: w ∧ validUtf8 p ∧ (unpack n).shift = p.length) :
    ∀ (k : Nat) (st : state) (rest : List Nat), validUtf8 rest → rest <:+ input →
      rest.length < k →
      ∃ st' out, loop TAGGING fuel m k st rest = some (st', out) ∧ restore out = rest := by
  intro k
  induction k with
  | zero => intro st rest _ _ hk; omega
  | succ k ih =>
    intro st rest hv hsuf hk
    by_cases hne : rest = []
    · exact ⟨st, [], by simp [loop, hne], by simp [restore, hne]⟩
    · obtain ⟨c, tl, hc, hrest, htl, cs, hcs, hflat⟩ := validUtf8_uncons rest hv hne
      obtain ⟨hcne, _, hclen, _, hc10⟩ := utf8Char_len c hc
      have hfirst : rest.getD 0 0 = c.getD 0 0 := by rw [hrest]; exact getD_zero_append c tl hcne
      by_cases hnl : rest.getD 0 0 = 10
      · -- a newline
        have hc' : c = [10] := hc10 (hfirst ▸ hnl)
        subst hc'
        have htlsuf : tl <:+ input := by
          refine List.IsSuffix.trans ?_ hsuf
          rw [hrest]
          exact List.suffix_append _ _
        obtain ⟨st', out, hl, hr⟩ := ih
          { s_prev := { shift := 0, ctype := 0, id := 0, concat := false },
            finfo := { st.finfo with ti := m._c2i (CP_MAX + 1) % 2 ^ MAX_KEY_BITS } }
          tl htl htlsuf (by rw [hrest] at hk; simp at hk; omega)
        have hdrop : rest.drop 1 = tl := by rw [hrest]; rfl
        have hlen : ¬ rest.length < 1 := by
          rw [hrest]; simp
        refine ⟨st', ((if st.s_prev.r ≠ 0 ∧ TAGGING = true then
            [write.feature st.s_prev.concat st.finfo] else []) ++ [write.eos TAGGING]) ++ out,
          ?_, ?_⟩
        · simp only [loop, if_neg hne, step, if_pos hnl, if_neg hlen, hdrop, hl]
        · rw [restore_append, hr, hrest]
          by_cases hp : st.s_prev.r ≠ 0 ∧ TAGGING = true
          · simp [hp, restore]
          · simp only [if_neg hp]
            rfl
      · -- a match
        have hle : rest.length ≤ input.length := hsuf.length_le
        have hcslen := utf8_length_le cs hcs
        obtain ⟨n, hn⟩ := ccedar.search_terminates m._da m._c2i cs [] st.finfo.ti fuel hwf h0
          (utf8_whole cs hcs) (by rw [hflat] at hcslen; omega)
        rw [List.append_nil, hflat] at hn
        obtain ⟨st1, pre, hstep, hpre, _, _, _, _, _⟩ := step_match TAGGING fuel m st rest n hnl hn
        have hspos := current_shift_pos n rest
        obtain ⟨p, hp, hpv, hplen⟩ : ∃ p, p <+: rest ∧ validUtf8 p ∧
            (current n rest).shift = p.length := by
          rw [current_shift]
          by_cases hz : (unpack n).shift = 0
          · rw [if_pos hz]
            refine ⟨c, ⟨tl, hrest.symm⟩, validUtf8_char c hc, ?_⟩
            rw [hrest, u8_len_append c tl hcne, hclen]
          · rw [if_neg hz]
            rcases hshift rest st.finfo.ti n hne hsuf hv hn with h | h
            · exact absurd h hz
            · exact h
        obtain ⟨ps, hps, hpflat⟩ := hpv
        have hdropv : validUtf8 (rest.drop (current n rest).shift) := by
          rw [hplen, ← hpflat]
          exact validUtf8_drop ps rest hv hps (hpflat ▸ hp)
        have hsle : (current n rest).shift ≤ rest.length := by
          rw [hplen]; exact hp.length_le
        obtain ⟨st', out, hl, hr⟩ := ih st1 (rest.drop (current n rest).shift) hdropv
          ((List.drop_suffix _ _).trans hsuf) (by rw [List.length_drop]; omega)
        refine ⟨st', (pre ++ [write.surface (rest.take (current n rest).shift)]) ++ out,
          ?_, ?_⟩
        · simp only [loop, if_neg hne, hstep, if_neg (Nat.not_lt.2 hsle), hl]
        · rw [List.append_assoc, restore_commit pre _ _ ?_ hpre]
          · show rest.take (current n rest).shift ++ restore out = rest
            rw [hr, List.take_append_drop]
          · cases TAGGING
            · left; rfl
            · right; exact ⟨_, _, rfl⟩

/-- The run on an input that the first `read` delivers whole.  On every valid
UTF-8 input, for every model whose decisions carry a shift that is `0` or the
byte length of a whole-character (valid) prefix of the window searched, the loop
of `tagger::run` ends and the bytes of its surfaces, taken in order with one
newline for every end-of-sentence marker, are the input byte for byte: nothing is
dropped, duplicated or reordered, and every input newline outside the surfaces
is carried by exactly one marker.  After the loop `run` only commits the pending
morpheme: no surface, and at most one more marker.  An input that `::read`
delivers in pieces is not covered: `loop_batch` has the reader. -/
theorem run_restores_input (TAGGING : Bool) (fuel : Nat) (m : tagger) (input : List Nat)
    (hwf : m._da.wf) (h0 : m._c2i 0 = 0) (hvalid : validUtf8 input)
    (hfuel : input.length < fuel)
    (hshift : ∀ (w : List Nat) (fi : Nat) (n : Int), w ≠ [] → w <:+ input → validUtf8 w →
      ccedar.longestPatternSearch fuel m._da w w.length fi m._c2i 0 = some n →
      (unpack n).shift = 0 ∨ ∃ p, p <+: w ∧ validUtf8 p ∧ (unpack n).shift = p.length) :
    ∃ st out, loop TAGGING fuel m fuel (state.init m) input = some (st, out) ∧
      run TAGGING fuel m input = some (out ++ finish TAGGING st) ∧
      restore out = input ∧
      markers out + (surfaces out).count 10 = input.count 10 ∧
      surfaces (finish TAGGING st) = [] ∧ markers (finish TAGGING st) ≤ 1 := by
  obtain ⟨st, out, hl, hr⟩ := loop_restores TAGGING fuel m input hwf h0 hfuel hshift fuel
    (state.init m) input hvalid (List.suffix_refl _) hfuel
  refine ⟨st, out, hl, by simp [run, hl], hr, ?_, ?_, ?_⟩
  · rw [← restore_count, hr]
  · unfold finish
    cases TAGGING <;> split_ifs <;> simp [surfaces]
  · unfold finish
    cases TAGGING <;> split_ifs <;> simp [markers]

theorem oneKeyTrie_wf (r : Int) : (oneKeyTrie r).wf := by
  refine ⟨rfl, ?_, ?_⟩
  · intro n
    rcases n with _ | n <;> rfl
  · intro n k m h
    simp only [oneKeyTrie] at h ⊢
    split at h
    · rfl
    · cases h

/-- The run on a whole input, at a concrete input: `11` and a newline in
`numModel`, tagging mode. -/
theorem run_restores_input_witness :
    ∃ st out, loop true 5 numModel 5 (state.init numModel) [49, 49, 10] = some (st, out) ∧
      run true 5 numModel [49, 49, 10] = some (out ++ finish true st) ∧
      restore out = [49, 49, 10] ∧
      markers out + (surfaces out).count 10 = [49, 49, 10].count 10 ∧
      surfaces (finish true st) = [] ∧ markers (finish true st) ≤ 1 :=
  run_restores_input true 5 numModel [49, 49, 10] (oneKeyTrie_wf 129) rfl
    ⟨[[49], [49], [10]], by decide, rfl⟩ (by decide)
    (by
      intro w fi n hne hsuf _ hn
      rcases ccedar.search_value 5 _ w w.length fi _ n hn with h | ⟨x, hx⟩
      · left; rw [h]; decide
      · right
        have hn129 : n = 129 := by
          simp only [numModel, oneKeyTrie] at hx
          split at hx
          · exact (Option.some.inj hx).symm
          · cases hx
        subst hn129
        have hmem := (List.mem_tails w [49, 49, 10]).2 hsuf
        simp only [List.tails, List.mem_cons, List.mem_singleton, List.not_mem_nil,
          or_false] at hmem
        rcases hmem with rfl | rfl | rfl | rfl
        · exact ⟨[49], ⟨[49, 10], rfl⟩, validUtf8_char _ (by decide), by decide⟩
        · exact ⟨[49], ⟨[10], rfl⟩, validUtf8_char _ (by decide), by decide⟩
        · exact ⟨[10], ⟨[], rfl⟩, validUtf8_char _ (by decide), by decide⟩
        · exact absurd rfl hne)

end jagger

namespace jagger

/-- The loop of `run` on newlines only: one end-of-sentence marker per newline and
nothing else, and no morpheme is left pending. -/
theorem loop_newlines (TAGGING : Bool) (fuel : Nat) (m : tagger) :
    ∀ (n k : Nat) (st : state), st.s_prev.r = 0 → n < k →
      ∃ st', loop TAGGING fuel m k st (List.replicate n 10)
          = some (st', List.replicate n (write.eos TAGGING)) ∧ st'.s_prev.r = 0 := by
  intro n
  induction n with
  | zero =>
    intro k st hst hk
    obtain ⟨k', rfl⟩ : ∃ k', k = k' + 1 := ⟨k - 1, by omega⟩
    exact ⟨st, by simp [loop], hst⟩
  | succ n ih =>
    intro k st hst hk
    obtain ⟨k', rfl⟩ : ∃ k', k = k' + 1 := ⟨k - 1, by omega⟩
    obtain ⟨st', hl, hr⟩ := ih k'
      { s_prev := { shift := 0, ctype := 0, id := 0, concat := false },
        finfo := { st.finfo with ti := m._c2i (CP_MAX + 1) % 2 ^ MAX_KEY_BITS } }
      rfl (by omega)
    refine ⟨st', ?_, hr⟩
    have hne : List.replicate (n + 1) 10 ≠ [] := by simp [List.replicate_succ]
    have hnl : (List.replicate (n + 1) 10).getD 0 0 = 10 := rfl
    have hlen : ¬ (List.replicate (n + 1) 10).length < 1 := by simp
    have hdrop : (List.replicate (n + 1) 10).drop 1 = List.replicate n 10 := rfl
    have hpend : ¬ (st.s_prev.r ≠ 0 ∧ TAGGING = true) := fun h => h.1 hst
    simp only [loop, if_neg hne, step, if_pos hnl, if_neg hlen, hdrop, hl, if_neg hpend]
    rfl

theorem output_eos (compact : Bool) (m : tagger) (TAGGING : Bool) (n : Nat) :
    output compact m (List.replicate n (write.eos TAGGING))
      = (List.replicate n (if TAGGING = true then [69, 79, 83, 10] else [10])).flatten := by
  induction n with
  | zero => rfl
  | succ n ih =>
    simp only [output] at ih
    cases TAGGING <;>
      simp [output, List.replicate_succ, write.bytes, ih]

/-- C11: on an input of exactly `n` newline bytes `run` makes `n` writes of the
end-of-sentence marker and no other write, whatever the model: the output is
`n` copies of `"EOS\n"` in tagging mode and `n` copies of `"\n"` in segmentation
mode.  The empty input (`n = 0`) gives the empty output. -/
theorem run_newlines (TAGGING compact : Bool) (fuel : Nat) (m : tagger) (n : Nat)
    (hfuel : n < fuel) :
    run TAGGING fuel m (List.replicate n 10) = some (List.replicate n (write.eos TAGGING)) ∧
      (run TAGGING fuel m (List.replicate n 10)).map (output compact m)
        = some (List.replicate n (if TAGGING = true then [69, 79, 83, 10] else [10])).flatten := by
  obtain ⟨st', hl, hr⟩ := loop_newlines TAGGING fuel m n fuel (state.init m) rfl hfuel
  have hrun : run TAGGING fuel m (List.replicate n 10)
      = some (List.replicate n (write.eos TAGGING)) := by
    simp [run, hl, finish, hr]
  refine ⟨hrun, ?_⟩
  rw [hrun, Option.map_some', output_eos]

/-- C11, at concrete inputs: the input `"\n"` gives `"EOS\n"` in tagging mode. -/
theorem run_newlines_witness :
    run true 2 kanaModel (List.replicate 1 10) = some (List.replicate 1 (write.eos true)) ∧
      (run true 2 kanaModel (List.replicate 1 10)).map (output false kanaModel)
        = some (List.replicate 1 (if true = true then [69, 79, 83, 10] else [10])).flatten :=
  run_newlines true false 2 kanaModel 1 (by decide)

end jagger

namespace jagger

/-- The bytes of `slice fs offset len` are the bytes `fs[offset .. offset + len)`
when the range lies inside `fs`. -/
theorem slice_spec (fs : List Nat) (offset len : Nat) (h : offset + len ≤ fs.length) :
    (slice fs offset len).length = len ∧
      ∀ i, i < len → (slice fs offset len).getD i 0 = fs.getD (offset + i) 0 := by
  refine ⟨by simp [slice]; omega, ?_⟩
  intro i hi
  simp only [slice, List.getD_eq_getElem?_getD, List.getElem?_take, if_pos hi,
    List.getElem?_drop]

/-- C13: in the non-compact build `write_feature` writes exactly the bytes
`fs[feat_offset .. feat_offset + feat_len)` when `concat` is false, and exactly the
bytes `fs[feat_offset .. feat_offset + core_feat_len)` followed by the 7 bytes
`",*,*,*\n"` when `concat` is true. -/
theorem write_feature_not_compact (m : tagger) (f : feat_info_t) :
    write_feature false m false f = slice m._fs f.feat_offset f.feat_len ∧
      write_feature false m true f
        = slice m._fs f.feat_offset f.core_feat_len ++ [44, 42, 44, 42, 44, 42, 10] ∧
      (f.feat_offset + f.feat_len ≤ m._fs.length →
        (write_feature false m false f).length = f.feat_len ∧
        ∀ i, i < f.feat_len →
          (write_feature false m false f).getD i 0 = m._fs.getD (f.feat_offset + i) 0) ∧
      (f.feat_offset + f.core_feat_len ≤ m._fs.length →
        (write_feature false m true f).length = f.core_feat_len + 7 ∧
        (∀ i, i < f.core_feat_len →
          (write_feature false m true f).getD i 0 = m._fs.getD (f.feat_offset + i) 0) ∧
        (write_feature false m true f).drop f.core_feat_len = [44, 42, 44, 42, 44, 42, 10]) := by
  have h1 : write_feature false m false f = slice m._fs f.feat_offset f.feat_len := by
    simp [write_feature]
  have h2 : write_feature false m true f
      = slice m._fs f.feat_offset f.core_feat_len ++ [44, 42, 44, 42, 44, 42, 10] := by
    simp [write_feature]
  refine ⟨h1, h2, ?_, ?_⟩
  · intro h
    rw [h1]
    exact slice_spec _ _ _ h
  · intro h
    obtain ⟨hl, hg⟩ := slice_spec _ _ _ h
    rw [h2]
    refine ⟨by simp [hl], ?_, ?_⟩
    · intro i hi
      rw [← hg i hi, List.getD_eq_getElem?_getD, List.getD_eq_getElem?_getD,
        List.getElem?_append_left (by omega)]
    · rw [List.drop_append_of_le_length (by omega), List.drop_of_length_le (by omega)]
      rfl

/-- C13, at a concrete input: the blob `ABC` and the record `featInfo`. -/
theorem write_feature_not_compact_witness :
    write_feature false featModel false featInfo = [66, 67] ∧
      write_feature false featModel true featInfo = [66, 44, 42, 44, 42, 44, 42, 10] := by
  have h := write_feature_not_compact featModel featInfo
  exact ⟨h.1.trans (by decide), h.2.1.trans (by decide)⟩

/-- C14, refuted as stated: in the compact build, with `concat` false,
`write_feature` writes the core bytes `fs[core_feat_offset .. + core_feat_len)`
before the bytes `fs[feat_offset .. + feat_len)`: for the blob `ABC` it writes `ABC`
where the range `feat_offset .. + feat_len` alone is `BC`. -/
theorem write_feature_compact_counterexample :
    write_feature true featModel false featInfo = [65, 66, 67] ∧
      slice featModel._fs featInfo.feat_offset featInfo.feat_len = [66, 67] ∧
      write_feature true featModel false featInfo
        ≠ slice featModel._fs featInfo.feat_offset featInfo.feat_len := by
  decide

/-- C14, amended: in the compact build, with `concat` false, `write_feature` writes
the core bytes `fs[core_feat_offset .. core_feat_offset + core_feat_len)` followed by
the bytes `fs[feat_offset .. feat_offset + feat_len)`, and nothing else; it writes
the second range alone exactly when the first is empty. -/
theorem write_feature_compact (m : tagger) (f : feat_info_t) :
    write_feature true m false f
        = slice m._fs f.core_feat_offset f.core_feat_len ++ slice m._fs f.feat_offset f.feat_len ∧
      (write_feature true m false f = slice m._fs f.feat_offset f.feat_len ↔
        slice m._fs f.core_feat_offset f.core_feat_len = []) := by
  have h : write_feature true m false f
      = slice m._fs f.core_feat_offset f.core_feat_len ++ slice m._fs f.feat_offset f.feat_len := by
    simp [write_feature]
  refine ⟨h, ?_⟩
  rw [h]
  constructor
  · intro he
    exact List.append_left_eq_self.1 he
  · intro he
    rw [he, List.nil_append]

end jagger

namespace jagger

theorem getD_set_self (l : List Nat) (i v : Nat) (h : i < l.length) :
    (l.set i v).getD i 0 = v := by
  simp [List.getD_eq_getElem?_getD, List.getElem?_set, h]

theorem getD_set_other (l : List Nat) (i j v : Nat) (h : i ≠ j) :
    (l.set i v).getD j 0 = l.getD j 0 := by
  simp [List.getD_eq_getElem?_getD, List.getElem?_set_ne h]

theorem shift_total_cons (jt : observation) (l : List observation) (s : Nat) :
    shift_total (jt :: l) s = (if jt.1.1 = s then jt.2 else 0) + shift_total l s := by
  simp only [shift_total, List.filter_cons]
  by_cases h : jt.1.1 = s <;> simp [h]

theorem s2c_fold (l : List observation) :
    ∀ (acc : List Nat), (∀ jt ∈ l, jt.1.1 < acc.length) →
      (l.foldl s2c_add acc).length = acc.length ∧
      ∀ s, (l.foldl s2c_add acc).getD s 0 = acc.getD s 0 + shift_total l s := by
  induction l with
  | nil => intro acc _; simp [shift_total]
  | cons jt l ih =>
    intro acc h
    have hjt : jt.1.1 < acc.length := h jt (List.mem_cons_self _ _)
    have hlen : (s2c_add acc jt).length = acc.length := by simp [s2c_add]
    obtain ⟨h1, h2⟩ := ih (s2c_add acc jt)
      (fun x hx => by rw [hlen]; exact h x (List.mem_cons_of_mem _ hx))
    refine ⟨by rw [List.foldl_cons, h1, hlen], ?_⟩
    intro s
    rw [List.foldl_cons, h2 s, shift_total_cons]
    by_cases hs : jt.1.1 = s
    · subst hs
      rw [if_pos rfl]
      simp only [s2c_add]
      rw [getD_set_self _ _ _ hjt]
      omega
    · rw [if_neg hs]
      simp only [s2c_add]
      rw [getD_set_other _ _ _ _ hs]
      omega

/-- The vector `s2c` holds at every index `s` the total of the counts observed
with the shift `s`. -/
theorem s2c_of_spec (sfi2c : List observation) (h : ∀ jt ∈ sfi2c, jt.1.1 ≤ max_plen) :
    (s2c_of sfi2c).length = max_plen + 1 ∧
      ∀ s, s ≤ max_plen → (s2c_of sfi2c).getD s 0 = shift_total sfi2c s := by
  obtain ⟨h1, h2⟩ := s2c_fold sfi2c (List.replicate (max_plen + 1) 0)
    (fun jt hjt => by have := h jt hjt; simp; omega)
  refine ⟨by simpa [s2c_of] using h1, ?_⟩
  intro s hs
  have h0 : (List.replicate (max_plen + 1) 0).getD s 0 = 0 := by
    simp only [List.getD_eq_getElem?_getD, List.getElem?_replicate]
    split_ifs <;> rfl
  simp only [s2c_of]
  rw [h2 s, h0, Nat.zero_add]

theorem max_element_loop_spec (rest : List Nat) :
    ∀ (pre : List Nat) (lv li : Nat), li < pre.length → pre.getD li 0 = lv →
      (∀ j, j < pre.length → pre.getD j 0 ≤ lv) → (∀ j, j < li → pre.getD j 0 < lv) →
      max_element_loop rest lv li pre.length < (pre ++ rest).length ∧
      (∀ j, j < (pre ++ rest).length →
        (pre ++ rest).getD j 0
          ≤ (pre ++ rest).getD (max_element_loop rest lv li pre.length) 0) ∧
      (∀ j, j < max_element_loop rest lv li pre.length →
        (pre ++ rest).getD j 0
          < (pre ++ rest).getD (max_element_loop rest lv li pre.length) 0) := by
  induction rest with
  | nil =>
    intro pre lv li hli hlv hmax hfirst
    simp only [max_element_loop, List.append_nil]
    refine ⟨hli, ?_, ?_⟩
    · intro j hj; rw [hlv]; exact hmax j hj
    · intro j hj; rw [hlv]; exact hfirst j hj
  | cons x xs ih =>
    intro pre lv li hli hlv hmax hfirst
    have hpre : ∀ j, j < pre.length → (pre ++ [x]).getD j 0 = pre.getD j 0 := by
      intro j hj
      simp [List.getD_eq_getElem?_getD, List.getElem?_append_left hj]
    have hx : (pre ++ [x]).getD pre.length 0 = x := by
      simp [List.getD_eq_getElem?_getD]
    have happ : pre ++ x :: xs = (pre ++ [x]) ++ xs := by simp
    have hlen : (pre ++ [x]).length = pre.length + 1 := by simp
    simp only [max_element_loop]
    by_cases hlt : lv < x
    · rw [if_pos hlt, happ, ← hlen]
      apply ih (pre ++ [x]) x pre.length (by omega) hx
      · intro j hj
        by_cases hj' : j < pre.length
        · rw [hpre j hj']; have := hmax j hj'; omega
        · have : j = pre.length := by omega
          rw [this, hx]
      · intro j hj
        rw [hpre j hj]; have := hmax j hj; omega
    · rw [if_neg hlt, happ, ← hlen]
      apply ih (pre ++ [x]) lv li (by omega) (by rw [hpre li hli]; exact hlv)
      · intro j hj
        by_cases hj' : j < pre.length
        · rw [hpre j hj']; exact hmax j hj'
        · have : j = pre.length := by omega
          rw [this, hx]; omega
      · intro j hj
        rw [hpre j (by omega)]; exact hfirst j hj

/-- The index `std::max_element` returns: an element no other exceeds, and the
first such. -/
theorem max_element_spec (l : List Nat) (hne : l ≠ []) :
    max_element l < l.length ∧
      (∀ j, j < l.length → l.getD j 0 ≤ l.getD (max_element l) 0) ∧
      (∀ j, j < max_element l → l.getD j 0 < l.getD (max_element l) 0) := by
  obtain ⟨x, xs, rfl⟩ := List.exists_cons_of_ne_nil hne
  have h := max_element_loop_spec xs [x] x 0 (by simp) rfl
    (by intro j hj; simp at hj; subst hj; exact le_refl _) (by intro j hj; omega)
  simpa [max_element] using h

end jagger

namespace jagger

theorem getD_reverse (l : List Nat) (i : Nat) (h : i < l.length) :
    l.reverse.getD i 0 = l.getD (l.length - 1 - i) 0 := by
  simp only [List.getD_eq_getElem?_getD, List.getElem?_reverse h]

theorem shift_total_pos (l : List observation) (s : Nat) (h : 0 < shift_total l s) :
    ∃ jt ∈ l, jt.1.1 = s := by
  induction l with
  | nil => simp [shift_total] at h
  | cons jt l ih =>
    rw [shift_total_cons] at h
    by_cases hs : jt.1.1 = s
    · exact ⟨jt, List.mem_cons_self _ _, hs⟩
    · rw [if_neg hs, Nat.zero_add] at h
      obtain ⟨x, hx, hxs⟩ := ih h
      exact ⟨x, List.mem_cons_of_mem _ hx, hxs⟩

theorem shift_total_ge (l : List observation) (jt : observation) (h : jt ∈ l) :
    jt.2 ≤ shift_total l jt.1.1 := by
  induction l with
  | nil => simp at h
  | cons x l ih =>
    rw [shift_total_cons]
    rcases List.mem_cons.1 h with rfl | h'
    · rw [if_pos rfl]; omega
    · have := ih h'; omega

/-- C20: the shift chosen for an observed pattern maximises the sum, over all
feature ids, of the counts observed with that shift, and it is the largest shift
that does; when some count is positive it is the shift of an observation. -/
theorem choose_shift_spec (sfi2c : List observation)
    (h : ∀ jt ∈ sfi2c, jt.1.1 ≤ max_plen) :
    choose_shift sfi2c ≤ max_plen ∧
      (∀ s, s ≤ max_plen → shift_total sfi2c s ≤ shift_total sfi2c (choose_shift sfi2c)) ∧
      (∀ s, s ≤ max_plen → shift_total sfi2c s = shift_total sfi2c (choose_shift sfi2c) →
        s ≤ choose_shift sfi2c) ∧
      ((∃ jt ∈ sfi2c, 0 < jt.2) → ∃ jt ∈ sfi2c, jt.1.1 = choose_shift sfi2c) := by
  obtain ⟨hlen, hget⟩ := s2c_of_spec sfi2c h
  have hne : (s2c_of sfi2c).reverse ≠ [] := by
    intro he
    have := congrArg List.length he
    simp [hlen] at this
  obtain ⟨hk, hmax, hfirst⟩ := max_element_spec _ hne
  rw [List.length_reverse, hlen] at hk hmax
  have hcs : choose_shift sfi2c = max_plen - max_element (s2c_of sfi2c).reverse := by
    simp only [choose_shift, hlen]; omega
  have hle : choose_shift sfi2c ≤ max_plen := by rw [hcs]; omega
  have hrev : ∀ j, j ≤ max_plen →
      (s2c_of sfi2c).reverse.getD j 0 = shift_total sfi2c (max_plen - j) := by
    intro j hj
    rw [getD_reverse _ _ (by rw [hlen]; omega), hlen, ← hget _ (by omega)]
    congr 1
  have hbest : (s2c_of sfi2c).reverse.getD (max_element (s2c_of sfi2c).reverse) 0
      = shift_total sfi2c (choose_shift sfi2c) := by
    rw [hrev _ (by omega), hcs]
  have hall : ∀ s, s ≤ max_plen →
      shift_total sfi2c s ≤ shift_total sfi2c (choose_shift sfi2c) := by
    intro s hs
    have := hmax (max_plen - s) (by omega)
    rw [hrev _ (by omega), hbest] at this
    have he : max_plen - (max_plen - s) = s := by omega
    rwa [he] at this
  refine ⟨hle, hall, ?_, ?_⟩
  · intro s hs heq
    by_contra hnot
    have := hfirst (max_plen - s) (by omega)
    rw [hrev _ (by omega), hbest] at this
    have he : max_plen - (max_plen - s) = s := by omega
    rw [he] at this
    omega
  · rintro ⟨jt, hjt, hpos⟩
    apply shift_total_pos
    have h1 := shift_total_ge sfi2c jt hjt
    have h2 := hall jt.1.1 (h jt hjt)
    omega

set_option maxRecDepth 100000 in
/-- C20, at a concrete input: in `demoTable` the shifts 1 and 2 both total 3 and
the shift 2 is chosen. -/
theorem choose_shift_spec_witness :
    shift_total demoTable 1 = 3 ∧ shift_total demoTable 2 = 3 ∧ choose_shift demoTable = 2 ∧
      (∀ s, s ≤ max_plen → shift_total demoTable s = shift_total demoTable (choose_shift demoTable) →
        s ≤ choose_shift demoTable) :=
  ⟨by decide, by decide, by decide, (choose_shift_spec demoTable (by decide)).2.2.1⟩

end jagger

namespace jagger

theorem assign_c2i_length : ∀ (es : List (Nat × Nat)) (i : Nat) (c : List Nat),
    (assign_c2i es i c).length = c.length := by
  intro es
  induction es with
  | nil => intro i c; rfl
  | cons e es ih =>
    intro i c
    simp only [assign_c2i]
    split_ifs
    · rfl
    · rw [ih]; simp

/-- The entries of `c2i` that the loop does not name keep their value. -/
theorem assign_c2i_other : ∀ (es : List (Nat × Nat)) (i : Nat) (c : List Nat) (x : Nat),
    x ∉ (es.takeWhile (fun e => decide (e.1 ≠ 0))).map Prod.snd →
    (assign_c2i es i c).getD x 0 = c.getD x 0 := by
  intro es
  induction es with
  | nil => intro i c x _; rfl
  | cons e es ih =>
    intro i c x hx
    simp only [assign_c2i]
    by_cases he : e.1 = 0
    · rw [if_pos he]
    · rw [if_neg he]
      have htw : (e :: es).takeWhile (fun e => decide (e.1 ≠ 0))
          = e :: es.takeWhile (fun e => decide (e.1 ≠ 0)) := by
        simp [List.takeWhile_cons, he]
      rw [htw, List.map_cons, List.mem_cons, not_or] at hx
      rw [ih _ _ _ hx.2, getD_set_other _ _ _ _ (Ne.symm hx.1)]

/-- The entry of `c2i` named by the `p`-th element of positive count gets the
16-bit value of its position. -/
theorem assign_c2i_at : ∀ (es : List (Nat × Nat)) (i : Nat) (c : List Nat) (p : Nat),
    ((es.takeWhile (fun e => decide (e.1 ≠ 0))).map Prod.snd).Nodup →
    (∀ e ∈ es.takeWhile (fun e => decide (e.1 ≠ 0)), e.2 < c.length) →
    p < (es.takeWhile (fun e => decide (e.1 ≠ 0))).length →
    (assign_c2i es i c).getD ((es.takeWhile (fun e => decide (e.1 ≠ 0))).getD p (0, 0)).2 0
      = (i + p) % 65536 := by
  intro es
  induction es with
  | nil => intro i c p _ _ hp; simp at hp
  | cons e es ih =>
    intro i c p hnd hlt hp
    by_cases he : e.1 = 0
    · simp [List.takeWhile_cons, he] at hp
    · have htw : (e :: es).takeWhile (fun e => decide (e.1 ≠ 0))
          = e :: es.takeWhile (fun e => decide (e.1 ≠ 0)) := by
        simp [List.takeWhile_cons, he]
      rw [htw] at hnd hlt hp ⊢
      rw [List.map_cons, List.nodup_cons] at hnd
      simp only [assign_c2i, if_neg he]
      cases p with
      | zero =>
        show (assign_c2i es (i + 1) (c.set e.2 (i % 65536))).getD e.2 0 = (i + 0) % 65536
        rw [assign_c2i_other _ _ _ _ hnd.1,
          getD_set_self _ _ _ (hlt e (List.mem_cons_self _ _))]
        rfl
      | succ p =>
        show (assign_c2i es (i + 1) (c.set e.2 (i % 65536))).getD
            ((es.takeWhile (fun e => decide (e.1 ≠ 0))).getD p (0, 0)).2 0 = (i + (p + 1)) % 65536
        rw [ih (i + 1) _ p hnd.2
          (fun x hx => by rw [List.length_set]; exact hlt x (List.mem_cons_of_mem _ hx))
          (by simpa using hp)]
        congr 1
        omega

end jagger

namespace jagger

theorem pair_ge_total (a b : Nat × Nat) : pair_ge a b ∨ pair_ge b a := by
  unfold pair_ge; omega

theorem pair_ge_trans (a b c : Nat × Nat) (h1 : pair_ge a b) (h2 : pair_ge b c) :
    pair_ge a c := by
  unfold pair_ge at *; omega

theorem takeWhile_eq_filter_of_pairwise {α : Type} (p : α → Bool) :
    ∀ (l : List α), l.Pairwise (fun a b => p b = true → p a = true) →
      l.takeWhile p = l.filter p := by
  intro l
  induction l with
  | nil => intro _; rfl
  | cons a l ih =>
    intro h
    rw [List.pairwise_cons] at h
    by_cases hp : p a = true
    · rw [List.takeWhile_cons, List.filter_cons, if_pos hp, if_pos hp, ih h.2]
    · have hnone : l.filter p = [] := by
        rw [List.filter_eq_nil_iff]
        intro b hb hpb
        exact hp (h.1 b hb hpb)
      rw [List.takeWhile_cons, List.filter_cons, if_neg hp, if_neg hp, hnone]

/-- The elements of a usage-count table behind the element 0: each is the entry
of the table at its own index, an index from 1 on. -/
theorem ccnt_tail_mem (T : List (Nat × Nat)) (hidx : T.map Prod.snd = List.range T.length)
    (e : Nat × Nat) :
    e ∈ T.drop 1 ↔ (1 ≤ e.2 ∧ e.2 < T.length ∧ T.getD e.2 (0, 0) = e) := by
  have hget : ∀ j, j < T.length → (T.getD j (0, 0)).2 = j := by
    intro j hj
    have h1 : (T.map Prod.snd)[j]? = some j := by
      rw [hidx]; simp [List.getElem?_range hj]
    rw [List.getElem?_map] at h1
    rw [List.getD_eq_getElem?_getD]
    cases hT : T[j]? with
    | none => rw [hT] at h1; simp at h1
    | some v => rw [hT] at h1; simpa using h1
  constructor
  · intro he
    obtain ⟨i, hi, hie⟩ := List.mem_iff_getElem.1 he
    rw [List.length_drop] at hi
    rw [List.getElem_drop] at hie
    have hj := hget (1 + i) (by omega)
    have hTe : T.getD (1 + i) (0, 0) = e := by
      rw [List.getD_eq_getElem?_getD, List.getElem?_eq_getElem (by omega)]
      exact hie
    rw [hTe] at hj
    rw [hj]
    exact ⟨by omega, by omega, hTe⟩
  · rintro ⟨h1, h2, h3⟩
    rw [List.mem_iff_getElem]
    refine ⟨e.2 - 1, by rw [List.length_drop]; omega, ?_⟩
    rw [List.getElem_drop]
    have hb : 1 + (e.2 - 1) < T.length := by omega
    have : T.getD e.2 (0, 0) = T[1 + (e.2 - 1)] := by
      rw [List.getD_eq_getElem?_getD, List.getElem?_eq_getElem h2]
      simp only [Option.getD_some]
      congr 1
      omega
    rw [← this, h3]

end jagger

namespace jagger

theorem sorted_tail_sorted (tl : List (Nat × Nat)) :
    (tl.insertionSort pair_ge).Pairwise pair_ge :=
  @List.sorted_insertionSort _ pair_ge _ ⟨pair_ge_total⟩ ⟨pair_ge_trans⟩ tl

/-- The elements of positive count of a sorted usage-count table, in the order
of the table: the list whose `p`-th element gives its index the id `p + 1`,
taken in 16 bits. -/
theorem c2i_of_char (T : List (Nat × Nat)) (hidx : T.map Prod.snd = List.range T.length) :
    ∃ L : List (Nat × Nat),
      L.length = ((T.drop 1).filter (fun e => decide (e.1 ≠ 0))).length ∧
      L.Pairwise pair_ge ∧ (L.map Prod.snd).Nodup ∧
      (∀ e, e ∈ L ↔ (e.1 ≠ 0 ∧ 1 ≤ e.2 ∧ e.2 < T.length ∧ T.getD e.2 (0, 0) = e)) ∧
      (∀ x, x ∉ L.map Prod.snd → (c2i_of T).getD x 0 = 0) ∧
      (∀ p, p < L.length → (c2i_of T).getD (L.getD p (0, 0)).2 0 = (p + 1) % 65536) := by
  match T, hidx with
  | [], _ =>
    refine ⟨[], rfl, List.Pairwise.nil, List.nodup_nil, ?_, ?_, ?_⟩
    · intro e; simp
    · intro x _; rfl
    · intro p hp; simp at hp
  | x0 :: tl, hidx =>
    have hdrop : (x0 :: tl).drop 1 = tl := rfl
    have hsort : sort_ccnt (x0 :: tl) = x0 :: tl.insertionSort pair_ge := rfl
    have hperm : List.Perm (tl.insertionSort pair_ge) tl := List.perm_insertionSort pair_ge tl
    have hsorted := sorted_tail_sorted tl
    have htw : (tl.insertionSort pair_ge).takeWhile (fun e => decide (e.1 ≠ 0))
        = (tl.insertionSort pair_ge).filter (fun e => decide (e.1 ≠ 0)) := by
      apply takeWhile_eq_filter_of_pairwise
      refine hsorted.imp ?_
      intro a b hab hb
      simp only [decide_eq_true_eq] at hb ⊢
      unfold pair_ge at hab
      omega
    have hlen : (sort_ccnt (x0 :: tl)).length = (x0 :: tl).length := by
      rw [hsort, List.length_cons, List.length_cons, hperm.length_eq]
    have hmemtl := ccnt_tail_mem (x0 :: tl) hidx
    rw [hdrop] at hmemtl
    have hndtl : (tl.map Prod.snd).Nodup := by
      have h1 : ((x0 :: tl).map Prod.snd).Nodup := by rw [hidx]; exact List.nodup_range _
      rw [List.map_cons, List.nodup_cons] at h1
      exact h1.2
    have hnd : (((tl.insertionSort pair_ge).filter (fun e => decide (e.1 ≠ 0))).map
        Prod.snd).Nodup := by
      have h1 : ((tl.insertionSort pair_ge).map Prod.snd).Nodup :=
        ((hperm.map Prod.snd).nodup_iff).2 hndtl
      exact h1.sublist ((List.filter_sublist _).map Prod.snd)
    have hmem : ∀ e, e ∈ (tl.insertionSort pair_ge).filter (fun e => decide (e.1 ≠ 0)) ↔
        (e.1 ≠ 0 ∧ 1 ≤ e.2 ∧ e.2 < (x0 :: tl).length ∧ (x0 :: tl).getD e.2 (0, 0) = e) := by
      intro e
      rw [List.mem_filter, hperm.mem_iff, hmemtl e]
      simp only [decide_eq_true_eq]
      tauto
    refine ⟨(tl.insertionSort pair_ge).filter (fun e => decide (e.1 ≠ 0)), ?_, ?_, hnd, hmem,
      ?_, ?_⟩
    · rw [hdrop]
      exact (hperm.filter _).length_eq
    · exact hsorted.sublist (List.filter_sublist _)
    · intro x hx
      simp only [c2i_of, hsort, List.drop_succ_cons, List.drop_zero]
      rw [assign_c2i_other _ _ _ _ (by rw [htw]; exact hx)]
      simp only [List.getD_eq_getElem?_getD, List.getElem?_replicate]
      split_ifs <;> rfl
    · intro p hp
      simp only [c2i_of, hsort, List.drop_succ_cons, List.drop_zero]
      have := assign_c2i_at (tl.insertionSort pair_ge) 1
        (List.replicate (x0 :: tl.insertionSort pair_ge).length 0) p
        (by rw [htw]; exact hnd)
        (by
          rw [htw]
          intro e he
          have := ((hmem e).1 he).2.2.1
          rw [List.length_replicate, ← hsort, hlen]
          exact this)
        (by rw [htw]; exact hp)
      rw [htw] at this
      rw [this, Nat.add_comm]

end jagger

namespace jagger

theorem ccnt_getD_snd (T : List (Nat × Nat)) (hidx : T.map Prod.snd = List.range T.length)
    (j : Nat) (hj : j < T.length) : (T.getD j (0, 0)).2 = j := by
  have h1 : (T.map Prod.snd)[j]? = some j := by
    rw [hidx]; simp [List.getElem?_range hj]
  rw [List.getElem?_map] at h1
  rw [List.getD_eq_getElem?_getD]
  cases hT : T[j]? with
  | none => rw [hT] at h1; simp at h1
  | some v => rw [hT] at h1; simpa using h1

theorem getD_position (L : List (Nat × Nat)) (e : Nat × Nat) (h : e ∈ L) :
    ∃ p, p < L.length ∧ L.getD p (0, 0) = e := by
  obtain ⟨p, hp, hpe⟩ := List.mem_iff_getElem.1 h
  exact ⟨p, hp, by rw [List.getD_eq_getElem _ _ hp]; exact hpe⟩

theorem getD_mem (L : List (Nat × Nat)) (p : Nat) (hp : p < L.length) :
    L.getD p (0, 0) ∈ L := by
  rw [List.getD_eq_getElem _ _ hp]
  exact List.getElem_mem hp

theorem pairwise_getD (L : List (Nat × Nat)) (h : L.Pairwise pair_ge) (p q : Nat)
    (hpq : p < q) (hq : q < L.length) : pair_ge (L.getD p (0, 0)) (L.getD q (0, 0)) := by
  rw [List.getD_eq_getElem _ _ hq, List.getD_eq_getElem _ _ (by omega)]
  exact List.pairwise_iff_getElem.1 h p q (by omega) hq hpq

theorem nodup_getD_inj (L : List (Nat × Nat)) (h : (L.map Prod.snd).Nodup) (p q : Nat)
    (hp : p < L.length) (hq : q < L.length)
    (he : (L.getD p (0, 0)).2 = (L.getD q (0, 0)).2) : p = q := by
  rw [List.getD_eq_getElem _ _ hp, List.getD_eq_getElem _ _ hq] at he
  have hp1 : p < (L.map Prod.snd).length := by simpa using hp
  have hq1 : q < (L.map Prod.snd).length := by simpa using hq
  have h1 : (L.map Prod.snd)[p] = (L.map Prod.snd)[q] := by
    simpa using he
  exact (List.Nodup.getElem_inj_iff h).1 h1

end jagger

namespace jagger

/-- C15, amended: for every usage-count table (every pair carries its index) in
which fewer than 65536 entries of index >= 1 have a positive count, the computed
`c2i` satisfies: `c2i[0] = 0`; every entry with count 0 gets the id 0; the `N`
entries of index >= 1 with positive count get pairwise distinct ids that are
exactly `1..N`; and an entry with a strictly larger count gets a strictly smaller
id. -/
theorem c2i_of_spec (T : List (Nat × Nat)) (hidx : T.map Prod.snd = List.range T.length)
    (hN : ((T.drop 1).filter (fun e => decide (e.1 ≠ 0))).length < 65536) :
    (c2i_of T).getD 0 0 = 0 ∧
      (∀ j, (T.getD j (0, 0)).1 = 0 → (c2i_of T).getD j 0 = 0) ∧
      (∀ j, 1 ≤ j → j < T.length → (T.getD j (0, 0)).1 ≠ 0 →
        1 ≤ (c2i_of T).getD j 0 ∧
        (c2i_of T).getD j 0 ≤ ((T.drop 1).filter (fun e => decide (e.1 ≠ 0))).length) ∧
      (∀ j j', 1 ≤ j → j < T.length → (T.getD j (0, 0)).1 ≠ 0 →
        1 ≤ j' → j' < T.length → (T.getD j' (0, 0)).1 ≠ 0 →
        (c2i_of T).getD j 0 = (c2i_of T).getD j' 0 → j = j') ∧
      (∀ k, 1 ≤ k → k ≤ ((T.drop 1).filter (fun e => decide (e.1 ≠ 0))).length →
        ∃ j, 1 ≤ j ∧ j < T.length ∧ (T.getD j (0, 0)).1 ≠ 0 ∧ (c2i_of T).getD j 0 = k) ∧
      (∀ j j', 1 ≤ j → j < T.length → (T.getD j (0, 0)).1 ≠ 0 →
        1 ≤ j' → j' < T.length → (T.getD j' (0, 0)).1 ≠ 0 →
        (T.getD j' (0, 0)).1 < (T.getD j (0, 0)).1 →
        (c2i_of T).getD j 0 < (c2i_of T).getD j' 0) := by
  obtain ⟨L, hlen, hsorted, hnd, hmem, hother, hat⟩ := c2i_of_char T hidx
  rw [← hlen] at hN ⊢
  -- the position of a positive entry in `L`, and its id
  have hpos : ∀ j, 1 ≤ j → j < T.length → (T.getD j (0, 0)).1 ≠ 0 →
      ∃ p, p < L.length ∧ L.getD p (0, 0) = T.getD j (0, 0) ∧
        (c2i_of T).getD j 0 = p + 1 := by
    intro j h1 h2 h3
    have hs := ccnt_getD_snd T hidx j h2
    have hin : T.getD j (0, 0) ∈ L :=
      (hmem _).2 ⟨h3, by rw [hs]; exact h1, by rw [hs]; exact h2, by rw [hs]⟩
    obtain ⟨p, hp, hpe⟩ := getD_position L _ hin
    refine ⟨p, hp, hpe, ?_⟩
    have := hat p hp
    rw [hpe, hs] at this
    rw [this, Nat.mod_eq_of_lt (by omega)]
  refine ⟨?_, ?_, ?_, ?_, ?_, ?_⟩
  · apply hother
    intro h0
    obtain ⟨e, he, he0⟩ := List.mem_map.1 h0
    have := ((hmem e).1 he).2.1
    omega
  · intro j hj
    apply hother
    intro hin
    obtain ⟨e, he, hej⟩ := List.mem_map.1 hin
    obtain ⟨h1, _, _, h4⟩ := (hmem e).1 he
    rw [hej] at h4
    rw [h4] at hj
    exact h1 hj
  · intro j h1 h2 h3
    obtain ⟨p, hp, _, hid⟩ := hpos j h1 h2 h3
    rw [hid]
    omega
  · intro j j' h1 h2 h3 h1' h2' h3' heq
    obtain ⟨p, hp, hpe, hid⟩ := hpos j h1 h2 h3
    obtain ⟨q, hq, hqe, hid'⟩ := hpos j' h1' h2' h3'
    have hpq : p = q := by omega
    subst hpq
    have := ccnt_getD_snd T hidx j h2
    have := ccnt_getD_snd T hidx j' h2'
    have he : T.getD j (0, 0) = T.getD j' (0, 0) := by rw [← hpe, ← hqe]
    have : (T.getD j (0, 0)).2 = (T.getD j' (0, 0)).2 := by rw [he]
    omega
  · intro k hk1 hk2
    have hp : k - 1 < L.length := by omega
    have hin := getD_mem L (k - 1) hp
    obtain ⟨h1, h2, h3, h4⟩ := (hmem _).1 hin
    refine ⟨(L.getD (k - 1) (0, 0)).2, h2, h3, by rw [h4]; exact h1, ?_⟩
    rw [hat (k - 1) hp, Nat.mod_eq_of_lt (by omega)]
    omega
  · intro j j' h1 h2 h3 h1' h2' h3' hlt
    obtain ⟨p, hp, hpe, hid⟩ := hpos j h1 h2 h3
    obtain ⟨q, hq, hqe, hid'⟩ := hpos j' h1' h2' h3'
    rw [hid, hid']
    by_contra hnot
    have hqp : q ≤ p := by omega
    rcases Nat.lt_or_eq_of_le hqp with hlt' | heq
    · have := pairwise_getD L hsorted q p hlt' hp
      rw [hpe, hqe] at this
      unfold pair_ge at this
      omega
    · subst heq
      rw [hpe] at hqe
      rw [hqe] at hlt
      omega

/-- C15 amended, at a concrete input: the table `demoCcnt`, whose entries 3, 4
and 1 get the ids 1, 2 and 3. -/
theorem c2i_of_spec_witness :
    c2i_of demoCcnt = [0, 3, 0, 1, 2] ∧ (c2i_of demoCcnt).getD 0 0 = 0 ∧
      (∀ j, (demoCcnt.getD j (0, 0)).1 = 0 → (c2i_of demoCcnt).getD j 0 = 0) :=
  ⟨by decide, (c2i_of_spec demoCcnt (by decide) (by decide)).1,
    (c2i_of_spec demoCcnt (by decide) (by decide)).2.1⟩

end jagger

namespace jagger

theorem bigCcnt_tail_sorted :
    ((List.range 65536).map (fun i => (65536 - i, i + 1))).Pairwise pair_ge := by
  rw [List.pairwise_map]
  have h := List.Pairwise.and_mem.1 (List.pairwise_lt_range 65536)
  refine h.imp ?_
  intro a b hab
  obtain ⟨ha, hb, hlt⟩ := hab
  rw [List.mem_range] at ha hb
  left
  show 65536 - b < 65536 - a
  omega

/-- The id of the entry at position `p` behind the entry 0, in a table whose
entries behind the entry 0 are in descending order already and all positive. -/
theorem c2i_of_sorted_at (x : Nat × Nat) (tl : List (Nat × Nat)) (p : Nat)
    (hs : tl.Pairwise pair_ge) (hall : ∀ e ∈ tl, decide (e.1 ≠ 0) = true)
    (hnd : (tl.map Prod.snd).Nodup) (hlt : ∀ e ∈ tl, e.2 < tl.length + 1)
    (hp : p < tl.length) :
    (c2i_of (x :: tl)).getD (tl.getD p (0, 0)).2 0 = (1 + p) % 65536 := by
  have htw : tl.takeWhile (fun e => decide (e.1 ≠ 0)) = tl :=
    List.takeWhile_eq_self_iff.2 hall
  have h := assign_c2i_at tl 1 (List.replicate (tl.length + 1) 0) p
  rw [htw] at h
  have hc : c2i_of (x :: tl) = assign_c2i tl 1 (List.replicate (tl.length + 1) 0) := by
    simp only [c2i_of, sort_ccnt, List.Sorted.insertionSort_eq hs, List.drop_succ_cons,
      List.drop_zero, List.length_cons]
  rw [hc]
  refine h hnd ?_ hp
  intro e he
  rw [List.length_replicate]
  exact hlt e he

/-- C15, counterexample: in the table `bigCcnt` the 65536 entries of index >= 1
all have a positive count; the entry of index 65536 has the count 1 and gets
the id 0, which is not one of `1..65536`. -/
theorem c2i_of_counterexample :
    bigCcnt.getD 65536 (0, 0) = (1, 65536) ∧
      ((bigCcnt.drop 1).filter (fun e => decide (e.1 ≠ 0))).length = 65536 ∧
      (c2i_of bigCcnt).getD 65536 0 = 0 := by
  have hall : ∀ x ∈ (List.range 65536).map (fun i => (65536 - i, i + 1)),
      decide (x.1 ≠ 0) = true := by
    intro x hx
    obtain ⟨i, hi, rfl⟩ := List.mem_map.1 hx
    rw [List.mem_range] at hi
    simp only [ne_eq, decide_eq_true_eq]
    omega
  have hget : ((List.range 65536).map (fun i => (65536 - i, i + 1))).getD 65535 (0, 0)
      = (1, 65536) := by
    rw [List.getD_eq_getElem?_getD, List.getElem?_map, List.getElem?_range (by omega)]
    rfl
  have hlen : ((List.range 65536).map (fun i => (65536 - i, i + 1))).length = 65536 := by
    rw [List.length_map, List.length_range]
  unfold bigCcnt
  refine ⟨?_, ?_, ?_⟩
  · rw [show (65536 : Nat) = 65535 + 1 from rfl, List.getD_cons_succ]
    exact hget
  · rw [List.drop_succ_cons, List.drop_zero, List.filter_eq_self.2 hall, hlen]
  · have h := c2i_of_sorted_at (0, 0) _ 65535 bigCcnt_tail_sorted hall ?_ ?_ ?_
    · rw [hget] at h
      exact h
    · rw [List.map_map]
      refine List.Nodup.map ?_ (List.nodup_range 65536)
      intro a b hab
      simp only [Function.comp] at hab
      omega
    · intro e he
      obtain ⟨i, hi, rfl⟩ := List.mem_map.1 he
      rw [List.mem_range] at hi
      rw [hlen]
      show i + 1 < 65536 + 1
      omega
    · rw [hlen]
      omega

end jagger

namespace jagger

/-! ## The pattern compiler -/

theorem to_i_grows {T : Type} [DecidableEq T] (b : List T) (f : T) :
    b <+: (bag_t.to_i b f).2 := by
  unfold bag_t.to_i
  split_ifs
  · exact List.prefix_refl b
  · exact List.prefix_append b [f]

theorem to_i_get {T : Type} [DecidableEq T] (b : List T) (f : T) :
    (bag_t.to_i b f).2.get? (bag_t.to_i b f).1 = some f := by
  unfold bag_t.to_i
  split_ifs with h
  · simp only []
    rw [List.get?_eq_getElem?]
    have hlt : List.indexOf f b < b.length := List.indexOf_lt_length.2 h
    rw [List.getElem?_eq_getElem hlt]
    simp
  · simp

theorem to_i_lt {T : Type} [DecidableEq T] (b : List T) (f : T) :
    (bag_t.to_i b f).1 < (bag_t.to_i b f).2.length := by
  have h := to_i_get b f
  rw [List.get?_eq_getElem?] at h
  by_contra hn
  rw [List.getElem?_eq_none (by omega)] at h
  cases h

theorem to_i_mem {T : Type} [DecidableEq T] (b : List T) (f : T) :
    ∀ x ∈ (bag_t.to_i b f).2, x ∈ b ∨ x = f := by
  intro x hx
  unfold bag_t.to_i at hx
  split_ifs at hx
  · exact Or.inl hx
  · simp only [List.mem_append, List.mem_singleton] at hx
    exact hx

theorem to_i_length_le {T : Type} [DecidableEq T] (b : List T) (f : T) :
    b.length ≤ (bag_t.to_i b f).2.length :=
  (to_i_grows b f).length_le

theorem get?_of_grown {T : Type} {a b : List T} (h : a <+: b) (i : Nat) (x : T)
    (hx : a.get? i = some x) : b.get? i = some x := by
  obtain ⟨t, rfl⟩ := h
  rw [List.get?_eq_getElem?] at hx ⊢
  have hlt : i < a.length := by
    by_contra hn
    rw [List.getElem?_eq_none (by omega)] at hx
    cases hx
  rw [List.getElem?_append_left hlt]
  exact hx

theorem serialize_length : ∀ (ks : List (List Nat)) (size : Nat),
    (bag_t.serialize ks size).offsets.length = ks.length := by
  intro ks
  induction ks with
  | nil => intro size; rfl
  | cons k ks ih =>
    intro size
    simp only [bag_t.serialize, List.length_cons, ih]

theorem serialize_size : ∀ (ks : List (List Nat)) (size : Nat),
    (bag_t.serialize ks size).size = size + (bag_t.serialize ks size).bytes.length := by
  intro ks
  induction ks with
  | nil => intro size; rfl
  | cons k ks ih =>
    intro size
    simp only [bag_t.serialize, List.length_append, ih]
    omega

theorem slice_append_left (a b : List Nat) : slice (a ++ b) 0 a.length = a := by
  simp [slice]

theorem slice_append_right (a b : List Nat) (o n : Nat) :
    slice (a ++ b) (a.length + o) n = slice b o n := by
  simp [slice, List.drop_append]

/-- Every key of a serialised bag lies in the bytes written, at its offset. -/
theorem serialize_get : ∀ (ks : List (List Nat)) (size i : Nat) (k : List Nat),
    ks.get? i = some k →
    ∃ off, (bag_t.serialize ks size).offsets.get? i = some off ∧ size ≤ off ∧
      off - size + k.length ≤ (bag_t.serialize ks size).bytes.length ∧
      slice (bag_t.serialize ks size).bytes (off - size) k.length = k := by
  intro ks
  induction ks with
  | nil => intro size i k h; simp at h
  | cons k0 ks ih =>
    intro size i k h
    cases i with
    | zero =>
      simp only [List.get?_cons_zero, Option.some.injEq] at h
      subst h
      refine ⟨size, by simp [bag_t.serialize], le_refl _, ?_, ?_⟩
      · simp [bag_t.serialize]
      · simp only [bag_t.serialize, Nat.sub_self]
        exact slice_append_left _ _
    | succ j =>
      simp only [List.get?_cons_succ] at h
      obtain ⟨off, h1, h2, h3, h4⟩ := ih (size + k0.length) j k h
      refine ⟨off, by simpa [bag_t.serialize] using h1, by omega, ?_, ?_⟩
      · simp only [bag_t.serialize, List.length_append]
        omega
      · simp only [bag_t.serialize]
        have : off - size = k0.length + (off - (size + k0.length)) := by omega
        rw [this, slice_append_right]
        exact h4

end jagger

namespace jagger

theorem unpack_pack (sh ct i : Nat) :
    unpack ((pattern.r (pattern.mk (sh % 128) (ct % 16) (i % 1048576) false) : Nat) : Int) =
      pattern.mk (sh % 128) (ct % 16) (i % 1048576) false := by
  have hw : ((((sh % 128 + 128 * (ct % 16) + 2048 * (i % 1048576) + 0 : Nat) : Int))
      % 4294967296).toNat = sh % 128 + 128 * (ct % 16) + 2048 * (i % 1048576) := by
    omega
  simp only [unpack, pattern.r, Bool.false_eq_true, if_false, hw]
  congr 1
  · omega
  · omega
  · omega
  · simp only [decide_eq_false_iff_not]
    omega

/-- One round of the pattern loop returns, keeps the invariant of the bags and
only appends to them. -/
theorem compile_pattern_some (compact : Bool) (_fbag : List (List Nat)) (c2i : List Nat)
    (st : compile_state) (it : pat_info_t) (fs : List Nat) (pos : Nat)
    (hfs : _fbag.get? it.fi = some fs) (hpos : _strchr_n fs 44 NUM_POS_FIELD 0 = some pos)
    (hinv : compile_inv compact st) :
    ∃ st1, compile_pattern compact _fbag c2i st it = some st1 ∧ compile_inv compact st1 ∧
      st._tbag <+: st1._tbag ∧ st.fbag <+: st1.fbag ∧ st.fsbag <+: st1.fsbag ∧
      ∃ kv, st1.da = st.da ++ [kv] ∧ (unpack (kv.2 : Int)).shift = it.shift % 128 := by
  have hto : bag_t.to_s _fbag it.fi = some fs := hfs
  simp only [compile_pattern, hto, hpos]
  refine ⟨_, rfl, ⟨?_, ?_⟩, to_i_grows _ _, to_i_grows _ _, to_i_grows _ _, _, rfl, ?_⟩
  · intro p hp
    rcases to_i_mem _ _ p hp with hold | hnew
    · obtain ⟨fkey, tkey, h1, h2, h3⟩ := hinv.1 p hold
      exact ⟨fkey, tkey, get?_of_grown (to_i_grows _ _) _ _ h1,
        get?_of_grown (to_i_grows _ _) _ _ h2, h3⟩
    · subst hnew
      refine ⟨_, _, to_i_get _ _, to_i_get _ _, ?_⟩
      intro hc
      subst hc
      simp only [Bool.false_eq_true, if_false, List.drop_zero, List.length_take]
      omega
  · intro kv hkv
    rcases List.mem_append.1 hkv with hold | hnew
    · exact lt_of_lt_of_le (hinv.2 kv hold) (to_i_length_le _ _)
    · rw [List.mem_singleton] at hnew
      subst hnew
      simp only [unpack_pack]
      exact lt_of_le_of_lt (Nat.mod_le _ _) (to_i_lt _ _)
  · simp only [unpack_pack]

/-- The pattern loop returns for every list of patterns that name feature strings
with `NUM_POS_FIELD` commas, keeps the invariant and only appends to the bags. -/
theorem compile_patterns_some (compact : Bool) (_fbag : List (List Nat)) (c2i : List Nat) :
    ∀ (its : List pat_info_t) (st : compile_state),
    (∀ it ∈ its, ∃ fs pos, _fbag.get? it.fi = some fs ∧
      _strchr_n fs 44 NUM_POS_FIELD 0 = some pos) →
    compile_inv compact st →
    ∃ st1, compile_patterns compact _fbag c2i its st = some st1 ∧ compile_inv compact st1 ∧
      st._tbag <+: st1._tbag ∧ st.fbag <+: st1.fbag ∧ st.fsbag <+: st1.fsbag := by
  intro its
  induction its with
  | nil =>
    intro st _ hinv
    exact ⟨st, rfl, hinv, List.prefix_refl _, List.prefix_refl _, List.prefix_refl _⟩
  | cons it its ih =>
    intro st hall hinv
    obtain ⟨fs, pos, hfs, hpos⟩ := hall it (List.mem_cons_self _ _)
    obtain ⟨st1, h1, hinv1, ht1, hf1, hp1, _⟩ :=
      compile_pattern_some compact _fbag c2i st it fs pos hfs hpos hinv
    obtain ⟨st2, h2, hinv2, ht2, hf2, hp2⟩ :=
      ih st1 (fun x hx => hall x (List.mem_cons_of_mem _ hx)) hinv1
    refine ⟨st2, ?_, hinv2, ht1.trans ht2, hf1.trans hf2, hp1.trans hp2⟩
    simp only [compile_patterns, h1, h2]

end jagger

namespace jagger

theorem serialize_head (k : List Nat) (ks : List (List Nat)) (size : Nat) :
    (bag_t.serialize (k :: ks) size).offsets.get? 0 = some size := by
  simp [bag_t.serialize]

/-- The record written for a pair of `fsbag`, in a state that satisfies the
invariant of the bags. -/
theorem p2f_entry_spec (compact : Bool) (c2i : List Nat) (st : compile_state)
    (hinv : compile_inv compact st) (p : Nat × Nat) (hp : p ∈ st.fsbag) :
    ∃ e fkey tkey off,
      p2f_entry compact c2i st (bag_t.serialize st._tbag 0) (bag_t.serialize st.fbag 0) p
        = some e ∧
      st.fbag.get? p.1 = some fkey ∧ st._tbag.get? p.2 = some tkey ∧
      (bag_t.serialize st.fbag 0).offsets.get? p.1 = some off ∧
      e.feat_len = fkey.length % 512 ∧ e.core_feat_len = tkey.length % 512 ∧
      e.feat_offset
        = ((if compact then (bag_t.serialize st._tbag 0).bytes.length else 0) + off) % 2 ^ 28 ∧
      off + fkey.length ≤ (bag_t.serialize st.fbag 0).bytes.length ∧
      slice (bag_t.serialize st.fbag 0).bytes off fkey.length = fkey ∧
      (compact = false → tkey.length ≤ fkey.length) ∧
      (compact = true →
        e.core_feat_offset + tkey.length ≤ (bag_t.serialize st._tbag 0).bytes.length) := by
  obtain ⟨fkey, tkey, hf, ht, hle⟩ := hinv.1 p hp
  obtain ⟨off, ho1, _, ho3, ho4⟩ := serialize_get st.fbag 0 p.1 fkey hf
  obtain ⟨off_, hq1, _, hq3, _⟩ := serialize_get st._tbag 0 p.2 tkey ht
  have hsz := serialize_size st._tbag 0
  simp only [Nat.sub_zero] at ho3 ho4 hq3
  have hts : bag_t.to_s st._tbag p.2 = some tkey := ht
  have hfs : bag_t.to_s st.fbag p.1 = some fkey := hf
  cases compact with
  | false =>
    have hent : p2f_entry false c2i st (bag_t.serialize st._tbag 0)
        (bag_t.serialize st.fbag 0) p
        = some (feat_info_t.mk (c2i.getD (CP_MAX + 1 + p.2) 0 % 2 ^ MAX_KEY_BITS)
            (tkey.length % 2 ^ MAX_FEATURE_BITS) (fkey.length % 2 ^ MAX_FEATURE_BITS) 0
            (off % 2 ^ 28)) := by
      simp only [p2f_entry, hts, hfs, ho1, Bool.false_eq_true, if_false]
    refine ⟨_, fkey, tkey, off, hent, hf, ht, ho1, rfl, rfl, ?_, ho3, ho4, hle, ?_⟩
    · simp
    · intro h; cases h
  | true =>
    have hent : p2f_entry true c2i st (bag_t.serialize st._tbag 0)
        (bag_t.serialize st.fbag 0) p
        = some (feat_info_t.mk (c2i.getD (CP_MAX + 1 + p.2) 0 % 2 ^ MAX_KEY_BITS)
            (tkey.length % 2 ^ MAX_FEATURE_BITS) (fkey.length % 2 ^ MAX_FEATURE_BITS)
            (off_ % 2 ^ 18) (((bag_t.serialize st._tbag 0).size + off) % 2 ^ 28)) := by
      simp only [p2f_entry, hts, hfs, ho1, hq1, if_true]
    refine ⟨_, fkey, tkey, off, hent, hf, ht, ho1, rfl, rfl, ?_, ho3, ho4, hle, ?_⟩
    · simp only [if_true, hsz, Nat.zero_add]
    · intro _
      have : off_ % 2 ^ 18 ≤ off_ := Nat.mod_le _ _
      show off_ % 2 ^ 18 + tkey.length ≤ _
      omega

theorem p2f_of_get (compact : Bool) (c2i : List Nat) (st : compile_state)
    (tser fser : serialized) :
    ∀ (ps : List (Nat × Nat)),
    (∀ p ∈ ps, ∃ e, p2f_entry compact c2i st tser fser p = some e) →
    ∃ es, p2f_of compact c2i st tser fser ps = some es ∧ es.length = ps.length ∧
      ∀ pi p, ps.get? pi = some p →
        ∃ e, es.get? pi = some e ∧ p2f_entry compact c2i st tser fser p = some e := by
  intro ps
  induction ps with
  | nil =>
    intro _
    exact ⟨[], rfl, rfl, by intro pi p h; simp at h⟩
  | cons p ps ih =>
    intro hall
    obtain ⟨e, he⟩ := hall p (List.mem_cons_self _ _)
    obtain ⟨es, hes, hlen, hget⟩ := ih (fun x hx => hall x (List.mem_cons_of_mem _ hx))
    refine ⟨e :: es, by simp only [p2f_of, he, hes], by simp [hlen], ?_⟩
    intro pi q hq
    cases pi with
    | zero =>
      simp only [List.get?_cons_zero, Option.some.injEq] at hq
      subst hq
      exact ⟨e, rfl, he⟩
    | succ j =>
      simp only [List.get?_cons_succ] at hq ⊢
      exact hget j q hq

/-- The function `write_patterns` returns for every pattern set `extract_patterns`
hands over; its records are the ones of the pairs of `fsbag`. -/
theorem write_patterns_char (compact : Bool) (b : pattern_builder) (hb : compilable b) :
    ∃ st out,
      compile_patterns compact b._fbag (c2i_of b._ccnt) (sort_pi2sf b._pi2sf)
        (compile_init compact b) = some st ∧
      write_patterns compact b = some out ∧
      compile_inv compact st ∧
      b._tbag <+: st._tbag ∧ (compile_init compact b).fbag <+: st.fbag ∧
      (compile_init compact b).fsbag <+: st.fsbag ∧
      out.da = st.da ∧
      out.fs = (if compact then (bag_t.serialize st._tbag 0).bytes else []) ++
        (bag_t.serialize st.fbag 0).bytes ∧
      out.p2f.length = st.fsbag.length ∧
      ∀ pi p, st.fsbag.get? pi = some p →
        ∃ e, out.p2f.get? pi = some e ∧
          p2f_entry compact (c2i_of b._ccnt) st (bag_t.serialize st._tbag 0)
            (bag_t.serialize st.fbag 0) p = some e := by
  obtain ⟨hseed, hfi⟩ := hb
  have hinit : compile_inv compact (compile_init compact b) := by
    refine ⟨?_, ?_⟩
    · intro p hp
      have hp1 : p = (0, 1) := by
        simpa [compile_init, bag_t.to_i] using hp
      subst hp1
      have ht : b._tbag.get? 1 = some FEAT_UNK :=
        get?_of_grown hseed 1 FEAT_UNK rfl
      refine ⟨if compact then FEAT_REST else FEAT_UNK ++ FEAT_REST, FEAT_UNK, ?_, ht, ?_⟩
      · simp [compile_init, bag_t.to_i]
      · intro hc
        subst hc
        decide
    · intro kv hkv
      simp [compile_init] at hkv
  have hsorted : ∀ it ∈ sort_pi2sf b._pi2sf, ∃ fs pos, b._fbag.get? it.fi = some fs ∧
      _strchr_n fs 44 NUM_POS_FIELD 0 = some pos := by
    intro it hit
    have h := hfi it ((List.perm_insertionSort _ _).mem_iff.1 hit)
    unfold bag_t.to_s at h
    cases hq : b._fbag.get? it.fi with
    | none => rw [hq] at h; cases h
    | some fs =>
      rw [hq] at h
      cases hpos : _strchr_n fs 44 NUM_POS_FIELD 0 with
      | none => simp [hpos] at h
      | some pos => exact ⟨fs, pos, rfl, hpos⟩
  obtain ⟨st, hst, hinv, ht, hf, hp⟩ :=
    compile_patterns_some compact b._fbag (c2i_of b._ccnt) (sort_pi2sf b._pi2sf)
      (compile_init compact b) hsorted hinit
  obtain ⟨es, hes, hlen, hget⟩ :=
    p2f_of_get compact (c2i_of b._ccnt) st (bag_t.serialize st._tbag 0)
      (bag_t.serialize st.fbag 0) st.fsbag
      (fun p hp => by
        obtain ⟨e, _, _, _, he, _⟩ := p2f_entry_spec compact (c2i_of b._ccnt) st hinv p hp
        exact ⟨e, he⟩)
  refine ⟨st, model_files.mk ((c2i_of b._ccnt).take (CP_MAX + 2)) st.da
    ((if compact then (bag_t.serialize st._tbag 0).bytes else []) ++
      (bag_t.serialize st.fbag 0).bytes) es, hst, ?_, hinv, ht, hf, hp, rfl, rfl, hlen, hget⟩
  simp only [write_patterns, hst, write_files, hes]

end jagger

namespace jagger

/-- C16, counterexample: in the compact build the pattern set without patterns
gives the blob of 71 bytes and the one record with `feat_offset = 64` and
`core_feat_len = 24`, so `feat_offset + core_feat_len = 88` is past the blob. -/
theorem write_patterns_compact_counterexample :
    compilable seedBuilder ∧
    (write_patterns true seedBuilder).map
      (fun o => (o.fs.length, o.p2f.map (fun f => (f.feat_offset, f.core_feat_len))))
      = some (71, [(64, 24)]) := by
  constructor
  · decide
  · decide

/-- C16, amended: for every pattern set handed over by `extract_patterns`,
`write_patterns` returns, and every record of `p2f` satisfies
`feat_offset + feat_len <= |fs|`; in the non-compact build also
`feat_offset + core_feat_len <= |fs|`, and in the compact build
`core_feat_offset + core_feat_len <= |fs|`. -/
theorem write_patterns_offsets (compact : Bool) (b : pattern_builder) (hb : compilable b) :
    ∃ out, write_patterns compact b = some out ∧ ∀ f ∈ out.p2f,
      f.feat_offset + f.feat_len ≤ out.fs.length ∧
      (compact = false → f.feat_offset + f.core_feat_len ≤ out.fs.length) ∧
      (compact = true → f.core_feat_offset + f.core_feat_len ≤ out.fs.length) := by
  obtain ⟨st, out, _, hout, hinv, _, _, _, _, hfs, hlen, hget⟩ :=
    write_patterns_char compact b hb
  refine ⟨out, hout, ?_⟩
  intro f hf
  obtain ⟨pi, hpi, hpf⟩ := List.getElem_of_mem hf
  have hpi2 : pi < st.fsbag.length := by omega
  obtain ⟨e, he, hent⟩ := hget pi (st.fsbag[pi]) (by
    rw [List.get?_eq_getElem?, List.getElem?_eq_getElem hpi2])
  rw [List.get?_eq_getElem?, List.getElem?_eq_getElem hpi, hpf] at he
  simp only [Option.some.injEq] at he
  subst he
  obtain ⟨e, fkey, tkey, off, hent2, _, _, _, h1, h2, h3, h4, _, h6, h7⟩ :=
    p2f_entry_spec compact (c2i_of b._ccnt) st hinv (st.fsbag[pi]) (List.getElem_mem _)
  rw [hent] at hent2
  simp only [Option.some.injEq] at hent2
  subst hent2
  have hm1 : fkey.length % 512 ≤ fkey.length := Nat.mod_le _ _
  have hm2 : tkey.length % 512 ≤ tkey.length := Nat.mod_le _ _
  cases compact with
  | false =>
    have h := h6 rfl
    simp only [Bool.false_eq_true, if_false, List.nil_append, Nat.zero_add] at h3 hfs
    have hm3 := Nat.mod_le off (2 ^ 28)
    rw [hfs, h1, h2, h3]
    exact ⟨by omega, fun _ => by omega, fun hc => by cases hc⟩
  | true =>
    have h := h7 rfl
    simp only [if_true] at h3 hfs
    have hm3 := Nat.mod_le ((bag_t.serialize st._tbag 0).bytes.length + off) (2 ^ 28)
    rw [hfs, h1, h2, h3, List.length_append]
    exact ⟨by omega, fun hc => Bool.noConfusion hc, fun _ => by omega⟩

/-- C16 amended, at a concrete input: the pattern set `demoBuilder` in the
non-compact build. -/
theorem write_patterns_offsets_witness :
    compilable demoBuilder ∧
    ∃ out, write_patterns false demoBuilder = some out ∧ ∀ f ∈ out.p2f,
      f.feat_offset + f.feat_len ≤ out.fs.length ∧
      (false = false → f.feat_offset + f.core_feat_len ≤ out.fs.length) ∧
      (false = true → f.core_feat_offset + f.core_feat_len ≤ out.fs.length) :=
  ⟨by decide, write_patterns_offsets false demoBuilder (by decide)⟩

end jagger

namespace jagger

/-- C17: for every pattern set handed over by `extract_patterns`, `write_patterns`
returns; the 20-bit id packed into every value assigned in the trie is smaller
than the number of records of `p2f`; and in the non-compact build the record 0 of
`p2f` is the one of the unknown word: its feature string in the blob is
`FEAT_UNK` followed by `,*,*,*\n`, its core feature `FEAT_UNK`. -/
theorem write_patterns_ids (compact : Bool) (b : pattern_builder) (hb : compilable b) :
    ∃ out, write_patterns compact b = some out ∧
      (∀ kv ∈ out.da, (unpack (kv.2 : Int)).id < out.p2f.length) ∧
      (compact = false → ∃ f0, out.p2f.get? 0 = some f0 ∧
        slice out.fs f0.feat_offset f0.feat_len = FEAT_UNK ++ FEAT_REST ∧
        slice out.fs f0.feat_offset f0.core_feat_len = FEAT_UNK) := by
  obtain ⟨st, out, _, hout, hinv, htb, hfb, hpb, hda, hfs, hlen, hget⟩ :=
    write_patterns_char compact b hb
  refine ⟨out, hout, ?_, ?_⟩
  · intro kv hkv
    rw [hda] at hkv
    rw [hlen]
    exact hinv.2 kv hkv
  · intro hc
    subst hc
    have hp0 : st.fsbag.get? 0 = some (0, 1) := get?_of_grown hpb 0 (0, 1) rfl
    have hf0 : st.fbag.get? 0 = some (FEAT_UNK ++ FEAT_REST) :=
      get?_of_grown hfb 0 _ rfl
    have ht1 : st._tbag.get? 1 = some FEAT_UNK :=
      get?_of_grown (hb.1.trans htb) 1 FEAT_UNK rfl
    obtain ⟨e, he, hent⟩ := hget 0 (0, 1) hp0
    have hmem : ((0 : Nat), (1 : Nat)) ∈ st.fsbag := List.mem_of_mem_head? (by
      rw [List.head?_eq_getElem?, ← List.get?_eq_getElem?]; exact hp0)
    obtain ⟨e1, fkey, tkey, off, hent1, h1, h2, h3, h4, h5, h6, _, h8, _, _⟩ :=
      p2f_entry_spec false (c2i_of b._ccnt) st hinv (0, 1) hmem
    rw [hent] at hent1
    simp only [Option.some.injEq] at hent1
    subst hent1
    rw [hf0] at h1
    rw [ht1] at h2
    simp only [Option.some.injEq] at h1 h2
    subst h1
    subst h2
    have hoff : off = 0 := by
      cases hfb2 : st.fbag with
      | nil => rw [hfb2] at hf0; simp at hf0
      | cons k ks =>
        rw [hfb2, serialize_head] at h3
        simp only [Option.some.injEq] at h3
        exact h3.symm
    subst hoff
    simp only [Bool.false_eq_true, if_false, List.nil_append, Nat.zero_add] at h6 hfs
    have h6b : e.feat_offset = 0 := h6
    have h4b : e.feat_len = 31 := h4
    have h5b : e.core_feat_len = 24 := h5
    have h8b : slice (bag_t.serialize st.fbag 0).bytes 0 31 = FEAT_UNK ++ FEAT_REST := h8
    refine ⟨e, he, ?_, ?_⟩
    · rw [hfs, h6b, h4b]
      exact h8b
    · rw [hfs, h6b, h5b]
      have h24 : slice (bag_t.serialize st.fbag 0).bytes 0 24
          = (slice (bag_t.serialize st.fbag 0).bytes 0 31).take 24 := by
        simp [slice, List.take_take]
      rw [h24, h8b]
      rfl

/-- C17, at a concrete input: the pattern set `demoBuilder`. -/
theorem write_patterns_ids_witness :
    compilable demoBuilder ∧
    ∃ out, write_patterns false demoBuilder = some out ∧
      (∀ kv ∈ out.da, (unpack (kv.2 : Int)).id < out.p2f.length) ∧
      (false = false → ∃ f0, out.p2f.get? 0 = some f0 ∧
        slice out.fs f0.feat_offset f0.feat_len = FEAT_UNK ++ FEAT_REST ∧
        slice out.fs f0.feat_offset f0.core_feat_len = FEAT_UNK) :=
  ⟨by decide, write_patterns_ids false demoBuilder (by decide)⟩

set_option maxRecDepth 100000 in
/-- C19, counterexample: the pattern set `longBuilder` has a feature string of 512
bytes; `write_patterns` returns all the same and stores the `feat_len` 0 in the
record of that string. -/
theorem write_patterns_long_counterexample :
    compilable longBuilder ∧ longFeat.length = 512 ∧
    (write_patterns false longBuilder).map
      (fun o => o.p2f.map (fun f => (f.feat_offset, f.feat_len))) = some [(0, 31), (31, 0)] := by
  refine ⟨by decide, by decide, by decide⟩

/-- C19, amended: `write_patterns` makes no check of the length of a string: for
every pattern set handed over by `extract_patterns` it returns, and the record of
every pair of `fsbag` holds as `feat_len` and `core_feat_len` the byte lengths of
its feature string and of its core feature string modulo `2 ^ MAX_FEATURE_BITS`;
each is the true length exactly when the string has at most 511 bytes. -/
theorem write_patterns_lengths (compact : Bool) (b : pattern_builder) (hb : compilable b) :
    ∃ st out,
      compile_patterns compact b._fbag (c2i_of b._ccnt) (sort_pi2sf b._pi2sf)
        (compile_init compact b) = some st ∧
      write_patterns compact b = some out ∧ out.p2f.length = st.fsbag.length ∧
      ∀ pi p, st.fsbag.get? pi = some p →
        ∃ e fkey tkey, out.p2f.get? pi = some e ∧
          st.fbag.get? p.1 = some fkey ∧ st._tbag.get? p.2 = some tkey ∧
          e.feat_len = fkey.length % 2 ^ MAX_FEATURE_BITS ∧
          e.core_feat_len = tkey.length % 2 ^ MAX_FEATURE_BITS ∧
          (e.feat_len = fkey.length ↔ fkey.length ≤ 511) ∧
          (e.core_feat_len = tkey.length ↔ tkey.length ≤ 511) := by
  obtain ⟨st, out, hst, hout, hinv, _, _, _, _, _, hlen, hget⟩ :=
    write_patterns_char compact b hb
  refine ⟨st, out, hst, hout, hlen, ?_⟩
  intro pi p hp
  obtain ⟨e, he, hent⟩ := hget pi p hp
  have hmem : p ∈ st.fsbag := List.get?_mem hp
  obtain ⟨e1, fkey, tkey, off, hent1, h1, h2, _, h4, h5, _⟩ :=
    p2f_entry_spec compact (c2i_of b._ccnt) st hinv p hmem
  rw [hent] at hent1
  simp only [Option.some.injEq] at hent1
  subst hent1
  refine ⟨e, fkey, tkey, he, h1, h2, h4, h5, ?_, ?_⟩
  · rw [h4]; omega
  · rw [h5]; omega

/-- C19 amended, at a concrete input: the pattern set `demoBuilder`. -/
theorem write_patterns_lengths_witness :
    compilable demoBuilder ∧
    ∃ st out,
      compile_patterns false demoBuilder._fbag (c2i_of demoBuilder._ccnt)
        (sort_pi2sf demoBuilder._pi2sf) (compile_init false demoBuilder) = some st ∧
      write_patterns false demoBuilder = some out ∧ out.p2f.length = st.fsbag.length ∧
      ∀ pi p, st.fsbag.get? pi = some p →
        ∃ e fkey tkey, out.p2f.get? pi = some e ∧
          st.fbag.get? p.1 = some fkey ∧ st._tbag.get? p.2 = some tkey ∧
          e.feat_len = fkey.length % 2 ^ MAX_FEATURE_BITS ∧
          e.core_feat_len = tkey.length % 2 ^ MAX_FEATURE_BITS ∧
          (e.feat_len = fkey.length ↔ fkey.length ≤ 511) ∧
          (e.core_feat_len = tkey.length ↔ tkey.length ≤ 511) :=
  ⟨by decide, write_patterns_lengths false demoBuilder (by decide)⟩

end jagger

namespace jagger

set_option maxRecDepth 100000 in
/-- C18: the dictionary row of a surface of 128 bytes passes the check of the
dictionary path, although a corpus token of 128 bytes stops the trainer; the
pattern, unseen in the corpus, gets the shift 128, and `write_patterns` packs the
shift 0 into the 7-bit field of the value it assigns in the trie. -/
theorem dictionary_shift_truncated :
    longSurf.length = 128 ∧
    dict_surface longRow = some (checked.value longSurf) ∧
    corpus_shift 128 = checked.fatal ∧
    (unseen_pattern longSurf (-1) 0 0).shift = 128 ∧
    compilable longSurfBuilder ∧
    (write_patterns false longSurfBuilder).map
      (fun o => o.da.map (fun kv => (unpack (kv.2 : Int)).shift)) = some [0] := by
  refine ⟨by decide, by decide, by decide, by decide, by decide, by decide⟩

end jagger

namespace jagger

/-! ## The batch-mode reader -/

theorem loop_batch_succ (T : Bool) (fuel : Nat) (m : tagger) (k : Nat) (st st' : state)
    (r r' : simple_reader) (out : List write) (shift : Nat) (hne : r._p ≠ r._q)
    (hstep : step_at T fuel m st (r._buf.drop r._p) (r._q - r._p) = some (st', out, shift))
    (hnext : r.next shift = some r') :
    loop_batch T fuel m (k + 1) st r =
      match loop_batch T fuel m k st' r' with
      | none => none
      | some (st'', out') => some (st'', out ++ out') := by
  simp only [loop_batch, simple_reader.eob, hne, decide_False, Bool.false_eq_true, if_false,
    hstep, hnext]

theorem step_at_newline (T : Bool) (fuel : Nat) (m : tagger) (st : state) (mem : List Nat)
    (len : Nat) (h : mem.getD 0 0 = 10) :
    step_at T fuel m st mem len =
      some ({ s_prev := { shift := 0, ctype := 0, id := 0, concat := false },
              finfo := { st.finfo with ti := m._c2i (CP_MAX + 1) % 2 ^ MAX_KEY_BITS } },
            (if st.s_prev.r ≠ 0 ∧ T = true then [write.feature st.s_prev.concat st.finfo]
              else []) ++ [write.eos T],
            1) := by
  simp only [step_at, if_pos h]

theorem next_exhausted (r : simple_reader) (shift n : Nat) (w : List Nat)
    (hs : r.stdin = []) (hq : r._q = r._p + shift + n)
    (hw : (r._buf.drop (r._p + shift)).take n = w) (hlen : w.length = n) :
    ∃ r', r.next shift = some r' ∧ r'.stdin = [] ∧ r'._q = r'._p + n ∧
      (r'._buf.drop r'._p).take n = w := by
  unfold simple_reader.next
  by_cases hr : (r.advance shift).readable (1 <<< MAX_PATTERN_BITS) = true
  · rw [if_pos hr]
    refine ⟨_, rfl, hs, ?_, hw⟩
    show r._q = r._p + shift + n
    exact hq
  · rw [if_neg hr]
    have hnlt : ¬ (r._q < r._p + shift) := by omega
    have hn : r._q - (r._p + shift) = n := by omega
    simp only [simple_reader.read, simple_reader.advance, if_neg hnlt, hs, hn, hw]
    refine ⟨_, rfl, rfl, by simp, ?_⟩
    simp only [List.drop_zero]
    rw [List.take_append_of_le_length (by omega)]
    rw [List.take_of_length_le (by omega)]

theorem loop_batch_newlines (T : Bool) (fuel : Nat) (m : tagger) :
    ∀ (n k : Nat) (st : state) (r : simple_reader),
    st.s_prev.r = 0 → r.stdin = [] → r._q = r._p + n →
    (r._buf.drop r._p).take n = List.replicate n 10 → n < k →
    ∃ st', loop_batch T fuel m k st r = some (st', List.replicate n (write.eos T)) ∧
      st'.s_prev.r = 0 := by
  intro n
  induction n with
  | zero =>
    intro k st r h0 _ hq _ hk
    obtain ⟨k, rfl⟩ : ∃ k', k = k' + 1 := ⟨k - 1, by omega⟩
    refine ⟨st, ?_, h0⟩
    have : r._p = r._q := by omega
    simp [loop_batch, simple_reader.eob, this]
  | succ n ih =>
    intro k st r h0 hs hq hw hk
    obtain ⟨k, rfl⟩ : ∃ k', k = k' + 1 := ⟨k - 1, by omega⟩
    have hne : r._p ≠ r._q := by omega
    cases hl : r._buf.drop r._p with
    | nil => rw [hl] at hw; simp [List.replicate_succ] at hw
    | cons x xs =>
      rw [hl, List.replicate_succ, List.take_succ_cons] at hw
      simp only [List.cons.injEq] at hw
      obtain ⟨hx, hxs⟩ := hw
      subst hx
      have hdrop : r._buf.drop (r._p + 1) = xs := by
        rw [← List.drop_drop, hl]
        rfl
      have hstep := step_at_newline T fuel m st (r._buf.drop r._p) (r._q - r._p)
        (by rw [hl]; rfl)
      have hc : ¬ (st.s_prev.r ≠ 0 ∧ T = true) := fun h => h.1 h0
      rw [if_neg hc, List.nil_append] at hstep
      obtain ⟨r', hnext, hs', hq', hw'⟩ := next_exhausted r 1 n (List.replicate n 10) hs
        (by omega) (by rw [hdrop]; exact hxs) (by simp)
      obtain ⟨st', hloop, h0'⟩ := ih k
        { s_prev := { shift := 0, ctype := 0, id := 0, concat := false },
          finfo := { st.finfo with ti := m._c2i (CP_MAX + 1) % 2 ^ MAX_KEY_BITS } }
        r' rfl hs' hq' hw' (by omega)
      refine ⟨st', ?_, h0'⟩
      rw [loop_batch_succ T fuel m k st _ r r' _ 1 hne hstep hnext, hloop]
      rfl


theorem new_chunk (c : List Nat) (cs : List (List Nat)) (h : c.length ≤ BUF_SIZE) :
    simple_reader.new (c :: cs) = some { _buf := c, _p := 0, _q := c.length, stdin := cs } := by
  have hd : c.drop BUF_SIZE = [] := List.drop_of_length_le h
  have ht : c.take BUF_SIZE = c := List.take_of_length_le h
  simp [simple_reader.new, simple_reader.read, hd, ht]

theorem unicode_ascii (b : Nat) (t : List Nat) (h : b < 128) : unicode (b :: t) = (b, 1) := by
  obtain ⟨h1, h2, _⟩ := byte_masks b (by omega)
  have hb : b &&& 0xff = b := by
    have := Nat.and_pow_two_sub_one_eq_mod b 8
    simp only [Nat.reducePow, Nat.add_one_sub_one] at this
    omega
  unfold unicode
  simp only [List.getD_cons_zero]
  rw [if_neg (by rw [h1]; omega), if_pos (by rw [h2]; exact h), hb]

theorem step_at_pair_ab (T : Bool) (fuel : Nat) (t : List Nat) (len : Nat) (hf : 3 ≤ fuel)
    (hlen : 3 ≤ len) :
    step_at T fuel pairModel (state.init pairModel) (97 :: 98 :: 10 :: t) len =
      some ({ s_prev := { shift := 2, ctype := 0, id := 1, concat := false },
              finfo := pairWord }, [write.surface [97, 98]], 2) := by
  obtain ⟨f, rfl⟩ : ∃ f, fuel = f + 3 := ⟨fuel - 3, by omega⟩
  have h0 : ¬ (0 = len) := by omega
  have h1 : ¬ (1 = len) := by omega
  have h2 : ¬ (2 = len) := by omega
  simp [step_at, ccedar.longestPatternSearch, ccedar.surfacePass, unicode_ascii,
    ccedar.da.traverse,
    pairModel, pairTrie, ccedar.demoC2i, current, unpack, state.init, pattern.r, h0, h1, h2,
    CP_MAX, MAX_KEY_BITS]


theorem step_at_pair_a (T : Bool) (fuel : Nat) (hf : 2 ≤ fuel) :
    step_at T fuel pairModel (state.init pairModel) [97] 1 =
      some ({ s_prev := { shift := 1, ctype := 0, id := 0, concat := false },
              finfo := pairUnk }, [write.surface [97]], 1) := by
  obtain ⟨f, rfl⟩ : ∃ f, fuel = f + 2 := ⟨fuel - 2, by omega⟩
  have hu : u8_len [97] = 1 := by decide
  simp [step_at, ccedar.longestPatternSearch, ccedar.surfacePass, unicode_ascii,
    ccedar.da.traverse, pairModel, pairTrie, ccedar.demoC2i, current, unpack, state.init,
    pattern.r, CP_MAX, MAX_KEY_BITS, hu]

theorem step_at_pair_b (T : Bool) (fuel : Nat) (t : List Nat) (len : Nat) (hf : 1 ≤ fuel)
    (hlen : 1 ≤ len) :
    step_at T fuel pairModel
      { s_prev := { shift := 1, ctype := 0, id := 0, concat := false }, finfo := pairUnk }
      (98 :: t) len =
      some ({ s_prev := { shift := 1, ctype := 0, id := 0, concat := false },
              finfo := pairUnk },
            [if T = true then write.feature false pairUnk else write.space,
              write.surface [98]], 1) := by
  obtain ⟨f, rfl⟩ : ∃ f, fuel = f + 1 := ⟨fuel - 1, by omega⟩
  have h0 : ¬ (0 = len) := by omega
  have hu : u8_len (98 :: t) = 1 := u8_len_below_C0 _ (by simp)
  simp [step_at, ccedar.longestPatternSearch, ccedar.surfacePass, unicode_ascii,
    ccedar.da.traverse, pairModel, pairTrie, ccedar.demoC2i, current, unpack,
    pattern.r, hu, h0, pairUnk, concatenates, OTHER]

theorem loop_batch_commit_newlines (T : Bool) (fuel : Nat) (m : tagger) (n k : Nat)
    (st : state) (r : simple_reader) (hs : r.stdin = []) (hq : r._q = r._p + (n + 1))
    (hw : (r._buf.drop r._p).take (n + 1) = List.replicate (n + 1) 10) (hk : n + 1 < k) :
    ∃ st', loop_batch T fuel m k st r =
        some (st', (if st.s_prev.r ≠ 0 ∧ T = true then [write.feature st.s_prev.concat st.finfo]
          else []) ++ List.replicate (n + 1) (write.eos T)) ∧
      st'.s_prev.r = 0 := by
  obtain ⟨k, rfl⟩ : ∃ k', k = k' + 1 := ⟨k - 1, by omega⟩
  have hne : r._p ≠ r._q := by omega
  cases hl : r._buf.drop r._p with
  | nil => rw [hl] at hw; simp [List.replicate_succ] at hw
  | cons x xs =>
    rw [hl, List.replicate_succ, List.take_succ_cons] at hw
    simp only [List.cons.injEq] at hw
    obtain ⟨hx, hxs⟩ := hw
    subst hx
    have hdrop : r._buf.drop (r._p + 1) = xs := by
      rw [← List.drop_drop, hl]
      rfl
    have hstep := step_at_newline T fuel m st (r._buf.drop r._p) (r._q - r._p)
      (by rw [hl]; rfl)
    obtain ⟨r', hnext, hs', hq', hw'⟩ := next_exhausted r 1 n (List.replicate n 10) hs
      (by omega) (by rw [hdrop]; exact hxs) (by simp)
    obtain ⟨st', hloop, h0'⟩ := loop_batch_newlines T fuel m n k
      { s_prev := { shift := 0, ctype := 0, id := 0, concat := false },
        finfo := { st.finfo with ti := m._c2i (CP_MAX + 1) % 2 ^ MAX_KEY_BITS } }
      r' rfl hs' hq' hw' (by omega)
    refine ⟨st', ?_, h0'⟩
    rw [loop_batch_succ T fuel m k st _ r r' _ 1 hne hstep hnext, hloop]
    simp [List.replicate_succ]

theorem finish_nil (T : Bool) (st : state) (h : st.s_prev.r = 0) : finish T st = [] := by
  simp [finish, h]

theorem run_batch_of_loop (T : Bool) (fuel : Nat) (m : tagger) (stdin : List (List Nat))
    (r : simple_reader) (st : state) (out : List write)
    (hnew : simple_reader.new stdin = some r)
    (hloop : loop_batch T fuel m fuel (state.init m) r = some (st, out)) :
    run_batch T fuel m stdin = some (out ++ finish T st) := by
  simp only [run_batch, hnew, hloop]

theorem run_batch_of_none (T : Bool) (fuel : Nat) (m : tagger) (stdin : List (List Nat))
    (r : simple_reader) (hnew : simple_reader.new stdin = some r)
    (hloop : loop_batch T fuel m fuel (state.init m) r = none) :
    run_batch T fuel m stdin = none := by
  simp only [run_batch, hnew, hloop]

/-- The word `ab` and `N + 1` newlines, delivered by the first `read`. -/
theorem run_batch_pair_whole (T : Bool) (fuel N : Nat) (hf : N + 3 ≤ fuel)
    (hN : N + 3 ≤ BUF_SIZE) :
    run_batch T fuel pairModel [97 :: 98 :: 10 :: List.replicate N 10] =
      some ([write.surface [97, 98]] ++
        (if T = true then [write.feature false pairWord] else []) ++
        List.replicate (N + 1) (write.eos T)) := by
  obtain ⟨k, rfl⟩ : ∃ k, fuel = k + 1 := ⟨fuel - 1, by omega⟩
  have hnew := new_chunk (97 :: 98 :: 10 :: List.replicate N 10) [] (by simp; omega)
  have hstep := step_at_pair_ab T (k + 1) (List.replicate N 10) (N + 3) (by omega) (by omega)
  obtain ⟨r', hnext, hs', hq', hw'⟩ := next_exhausted
    { _buf := 97 :: 98 :: 10 :: List.replicate N 10, _p := 0,
      _q := (97 :: 98 :: 10 :: List.replicate N 10).length, stdin := [] }
    2 (N + 1) (List.replicate (N + 1) 10) rfl (by simp; omega) (by simp [List.replicate_succ]) (by simp)
  obtain ⟨st', hloop, h0'⟩ := loop_batch_commit_newlines T (k + 1) pairModel N k
    { s_prev := { shift := 2, ctype := 0, id := 1, concat := false }, finfo := pairWord }
    r' hs' hq' hw' (by omega)
  have hl := loop_batch_succ T (k + 1) pairModel k (state.init pairModel) _
    { _buf := 97 :: 98 :: 10 :: List.replicate N 10, _p := 0,
      _q := (97 :: 98 :: 10 :: List.replicate N 10).length, stdin := [] } r' _ 2
    (by simp) (by simpa using hstep) hnext
  rw [hloop] at hl
  rw [run_batch_of_loop T (k + 1) pairModel _ _ _ _ hnew hl, finish_nil T st' h0']
  simp [pattern.r]

end jagger

namespace jagger

theorem next_refill (c : List Nat) (b : Nat) (t : List Nat) (hc : c ≠ [])
    (hlen : (b :: t).length ≤ BUF_SIZE) :
    simple_reader.next { _buf := c, _p := 0, _q := c.length, stdin := [b :: t] } c.length
      = some { _buf := b :: t ++ c.drop (b :: t).length, _p := 0, _q := (b :: t).length,
               stdin := [] } := by
  have hpos : 0 < c.length := List.length_pos.2 hc
  have hd : (b :: t).drop BUF_SIZE = [] := List.drop_of_length_le hlen
  have ht : (b :: t).take BUF_SIZE = b :: t := List.take_of_length_le hlen
  have hr : ¬ (c.length + 1 <<< MAX_PATTERN_BITS ≤ c.length) := by
    simp [MAX_PATTERN_BITS]
  simp only [simple_reader.next, simple_reader.advance, simple_reader.readable, Nat.zero_add,
    decide_eq_true_eq, if_neg hr, simple_reader.read, lt_irrefl, if_false, Nat.sub_self,
    List.take_zero, List.nil_append, List.drop_zero, Nat.sub_zero, hd, ht, if_true]

/-- The word `ab` and `N + 1` newlines, delivered as the byte `a` by the first
`read` and the rest by the second. -/
theorem run_batch_pair_split (T : Bool) (fuel N : Nat) (hf : N + 4 ≤ fuel)
    (hN : N + 2 ≤ BUF_SIZE) :
    run_batch T fuel pairModel [[97], 98 :: 10 :: List.replicate N 10] =
      some ([write.surface [97], if T = true then write.feature false pairUnk else write.space,
          write.surface [98]] ++
        (if T = true then [write.feature false pairUnk] else []) ++
        List.replicate (N + 1) (write.eos T)) := by
  obtain ⟨k, rfl⟩ : ∃ k, fuel = k + 2 := ⟨fuel - 2, by omega⟩
  have hnew := new_chunk [97] [98 :: 10 :: List.replicate N 10] (by simp [BUF_SIZE])
  have hstep1 := step_at_pair_a T (k + 2) (by omega)
  have hnext1 := next_refill [97] 98 (10 :: List.replicate N 10) (by simp)
    (by simp; omega)
  have hstep2 := step_at_pair_b T (k + 2) (10 :: List.replicate N 10) (N + 2) (by omega)
    (by omega)
  obtain ⟨r2, hnext2, hs2, hq2, hw2⟩ := next_exhausted
    { _buf := 98 :: 10 :: List.replicate N 10 ++ [97].drop (98 :: 10 :: List.replicate N 10).length,
      _p := 0, _q := (98 :: 10 :: List.replicate N 10).length, stdin := [] }
    1 (N + 1) (List.replicate (N + 1) 10) rfl (by simp; omega)
    (by simp [List.replicate_succ]) (by simp)
  obtain ⟨st', hloop, h0'⟩ := loop_batch_commit_newlines T (k + 2) pairModel N k
    { s_prev := { shift := 1, ctype := 0, id := 0, concat := false }, finfo := pairUnk }
    r2 hs2 hq2 hw2 (by omega)
  have hl2 := loop_batch_succ T (k + 2) pairModel k
    { s_prev := { shift := 1, ctype := 0, id := 0, concat := false }, finfo := pairUnk } _
    { _buf := 98 :: 10 :: List.replicate N 10 ++ [97].drop (98 :: 10 :: List.replicate N 10).length,
      _p := 0, _q := (98 :: 10 :: List.replicate N 10).length, stdin := [] } r2 _ 1
    (by simp) (by simpa using hstep2) hnext2
  rw [hloop] at hl2
  have hl1 := loop_batch_succ T (k + 2) pairModel (k + 1) (state.init pairModel) _
    { _buf := [97], _p := 0, _q := [97].length, stdin := [98 :: 10 :: List.replicate N 10] }
    _ _ 1 (by simp) (by simpa using hstep1) hnext1
  rw [hl2] at hl1
  rw [run_batch_of_loop T (k + 2) pairModel _ _ _ _ hnew hl1, finish_nil T st' h0']
  simp [pattern.r]

end jagger

namespace jagger

theorem loop_batch_overrun (T : Bool) (fuel : Nat) (m : tagger) (k : Nat) (st st' : state)
    (r : simple_reader) (out : List write) (shift : Nat) (hne : r._p ≠ r._q)
    (hstep : step_at T fuel m st (r._buf.drop r._p) (r._q - r._p) = some (st', out, shift))
    (hnext : r.next shift = none) :
    loop_batch T fuel m (k + 1) st r = none := by
  simp only [loop_batch, simple_reader.eob, hne, decide_False, Bool.false_eq_true, if_false,
    hstep, hnext]

theorem unicode_hira (t : List Nat) : unicode (0xE3 :: 0x81 :: 0x82 :: t) = (0x3042, 3) := by
  unfold unicode
  simp only [List.getD_cons_zero, List.getD_cons_succ]
  rw [if_pos (by decide)]
  decide

theorem step_at_hira (T : Bool) (fuel : Nat) (t : List Nat) (len : Nat) (hf : 1 ≤ fuel)
    (hlen : 1 ≤ len) :
    step_at T fuel pairModel (state.init pairModel) (0xE3 :: 0x81 :: 0x82 :: t) len =
      some ({ s_prev := { shift := 3, ctype := 0, id := 0, concat := false },
              finfo := pairUnk }, [write.surface [0xE3, 0x81, 0x82]], 3) := by
  obtain ⟨f, rfl⟩ : ∃ f, fuel = f + 1 := ⟨fuel - 1, by omega⟩
  have h0 : ¬ (0 = len) := by omega
  have hu : u8_len (0xE3 :: 0x81 :: 0x82 :: t) = 3 := u8_len_lead3 _ (by simp) (by simp)
  simp [step_at, ccedar.longestPatternSearch, ccedar.surfacePass, unicode_hira,
    pairModel, ccedar.demoC2i, current, unpack, state.init, pattern.r, CP_MAX, MAX_KEY_BITS,
    hu, h0]

theorem step_at_lead (T : Bool) (fuel : Nat) (hf : 1 ≤ fuel) :
    step_at T fuel pairModel (state.init pairModel) [0xE3] 1 =
      some ({ s_prev := { shift := 3, ctype := 0, id := 0, concat := false },
              finfo := pairUnk }, [write.surface [0xE3]], 3) := by
  obtain ⟨f, rfl⟩ : ∃ f, fuel = f + 1 := ⟨fuel - 1, by omega⟩
  have hu : u8_len [0xE3] = 3 := by decide
  have hc : unicode [0xE3] = (0x3000, 3) := by decide
  simp [step_at, ccedar.longestPatternSearch, ccedar.surfacePass, hc,
    pairModel, ccedar.demoC2i, current, unpack, state.init, pattern.r, CP_MAX, MAX_KEY_BITS,
    hu]

/-- The letter `あ` and `N + 1` newlines, delivered by the first `read`. -/
theorem run_batch_hira_whole (T : Bool) (fuel N : Nat) (hf : N + 3 ≤ fuel)
    (hN : N + 4 ≤ BUF_SIZE) :
    run_batch T fuel pairModel [0xE3 :: 0x81 :: 0x82 :: 10 :: List.replicate N 10] =
      some ([write.surface [0xE3, 0x81, 0x82]] ++
        (if T = true then [write.feature false pairUnk] else []) ++
        List.replicate (N + 1) (write.eos T)) := by
  obtain ⟨k, rfl⟩ : ∃ k, fuel = k + 1 := ⟨fuel - 1, by omega⟩
  have hnew := new_chunk (0xE3 :: 0x81 :: 0x82 :: 10 :: List.replicate N 10) []
    (by simp; omega)
  have hstep := step_at_hira T (k + 1) (10 :: List.replicate N 10) (N + 4) (by omega)
    (by omega)
  obtain ⟨r', hnext, hs', hq', hw'⟩ := next_exhausted
    { _buf := 0xE3 :: 0x81 :: 0x82 :: 10 :: List.replicate N 10, _p := 0,
      _q := (0xE3 :: 0x81 :: 0x82 :: 10 :: List.replicate N 10).length, stdin := [] }
    3 (N + 1) (List.replicate (N + 1) 10) rfl (by simp; omega)
    (by simp [List.replicate_succ]) (by simp)
  obtain ⟨st', hloop, h0'⟩ := loop_batch_commit_newlines T (k + 1) pairModel N k
    { s_prev := { shift := 3, ctype := 0, id := 0, concat := false }, finfo := pairUnk }
    r' hs' hq' hw' (by omega)
  have hl := loop_batch_succ T (k + 1) pairModel k (state.init pairModel) _
    { _buf := 0xE3 :: 0x81 :: 0x82 :: 10 :: List.replicate N 10, _p := 0,
      _q := (0xE3 :: 0x81 :: 0x82 :: 10 :: List.replicate N 10).length, stdin := [] } r' _ 3
    (by simp) (by simpa using hstep) hnext
  rw [hloop] at hl
  rw [run_batch_of_loop T (k + 1) pairModel _ _ _ _ hnew hl, finish_nil T st' h0']
  simp [pattern.r]

/-- A first `read` that delivers only the lead byte of a 3-byte character: the
round advances `_p` by 3 behind `_q`, and the next `read` is undefined. -/
theorem run_batch_lead_split (T : Bool) (fuel : Nat) (rest : List (List Nat))
    (hf : 1 ≤ fuel) :
    run_batch T fuel pairModel ([0xE3] :: rest) = none := by
  obtain ⟨k, rfl⟩ : ∃ k, fuel = k + 1 := ⟨fuel - 1, by omega⟩
  have hnew := new_chunk [0xE3] rest (by simp [BUF_SIZE])
  have hstep := step_at_lead T (k + 1) (by omega)
  have hnext : simple_reader.next
      { _buf := [0xE3], _p := 0, _q := [0xE3].length, stdin := rest } 3 = none := by
    simp [simple_reader.next, simple_reader.advance, simple_reader.readable,
      simple_reader.read, MAX_PATTERN_BITS]
  have hl := loop_batch_overrun T (k + 1) pairModel k (state.init pairModel) _
    { _buf := [0xE3], _p := 0, _q := [0xE3].length, stdin := rest } _ 3
    (by simp) (by simpa using hstep) hnext
  exact run_batch_of_none T (k + 1) pairModel _ _ hnew hl

end jagger

namespace jagger

/-- C12: the outputs of `run` in batch mode on one input of `BUF_SIZE - 1` bytes
differ with the chunks.  The word `ab` of `pairModel`, followed by newlines, is
written as one morpheme when the first `read` delivers the whole input, and as
the two unknown words `a` and `b` when the first `read` delivers the byte `a`
alone: the search runs on the bytes the buffer holds.  When the first `read`
delivers only the lead byte of the letter `あ`, the round advances `_p` by 3
behind `_q` and the next `read` is undefined, whereas the whole input is
written as one word. -/
theorem run_batch_chunk_dependent (TAGGING : Bool) :
    pairInput.length = BUF_SIZE - 1 ∧ pairChunks.flatten = pairInput ∧
    run_batch TAGGING BUF_SIZE pairModel [pairInput] =
      some ([write.surface [97, 98]] ++
        (if TAGGING = true then [write.feature false pairWord] else []) ++
        List.replicate (BUF_SIZE - 3) (write.eos TAGGING)) ∧
    run_batch TAGGING BUF_SIZE pairModel pairChunks =
      some ([write.surface [97],
          if TAGGING = true then write.feature false pairUnk else write.space,
          write.surface [98]] ++
        (if TAGGING = true then [write.feature false pairUnk] else []) ++
        List.replicate (BUF_SIZE - 3) (write.eos TAGGING)) ∧
    hiraInput.length = BUF_SIZE - 1 ∧ hiraChunks.flatten = hiraInput ∧
    run_batch TAGGING BUF_SIZE pairModel [hiraInput] =
      some ([write.surface [0xE3, 0x81, 0x82]] ++
        (if TAGGING = true then [write.feature false pairUnk] else []) ++
        List.replicate (BUF_SIZE - 4) (write.eos TAGGING)) ∧
    run_batch TAGGING BUF_SIZE pairModel hiraChunks = none := by
  have hB : BUF_SIZE = 131072 := by decide
  have h3 : BUF_SIZE - 3 = (BUF_SIZE - 4) + 1 := by omega
  have h4 : BUF_SIZE - 4 = (BUF_SIZE - 5) + 1 := by omega
  refine ⟨?_, ?_, ?_, ?_, ?_, ?_, ?_, ?_⟩
  · unfold pairInput
    rw [List.length_append, List.length_replicate]
    show 2 + (BUF_SIZE - 3) = BUF_SIZE - 1
    omega
  · simp [pairChunks, pairInput]
  · have h := run_batch_pair_whole TAGGING BUF_SIZE (BUF_SIZE - 4) (by omega) (by omega)
    rw [← h3] at h
    rw [← h]
    simp only [pairInput, h3, List.replicate_succ, List.cons_append, List.nil_append]
  · have h := run_batch_pair_split TAGGING BUF_SIZE (BUF_SIZE - 4) (by omega) (by omega)
    rw [← h3] at h
    rw [← h]
    simp only [pairChunks, h3, List.replicate_succ]
  · unfold hiraInput
    rw [List.length_append, List.length_replicate]
    show 3 + (BUF_SIZE - 4) = BUF_SIZE - 1
    omega
  · simp [hiraChunks, hiraInput]
  · have h := run_batch_hira_whole TAGGING BUF_SIZE (BUF_SIZE - 5) (by omega) (by omega)
    rw [← h4] at h
    rw [← h]
    simp only [hiraInput, h4, List.replicate_succ, List.cons_append, List.nil_append]
  · exact run_batch_lead_split TAGGING BUF_SIZE _ (by omega)

end jagger

namespace jagger

/-! ## The decoder `unicode` in arithmetic -/

theorem or_add6 (a b : Nat) (h : b < 64) : a * 64 ||| b = a * 64 + b := by
  rw [Nat.mul_comm]
  exact (Nat.mul_add_lt_is_or (i := 6) h a).symm

theorem or_add12 (a b : Nat) (h : b < 4096) : a * 4096 ||| b = a * 4096 + b := by
  rw [Nat.mul_comm]
  exact (Nat.mul_add_lt_is_or (i := 12) h a).symm

theorem or_add18 (a b : Nat) (h : b < 262144) : a * 262144 ||| b = a * 262144 + b := by
  rw [Nat.mul_comm]
  exact (Nat.mul_add_lt_is_or (i := 18) h a).symm

theorem mask_mod (x : Nat) :
    x &&& 0xff = x % 256 ∧ x &&& 0x3f = x % 64 ∧ x &&& 0x1f = x % 32 ∧ x &&& 0xf = x % 16 ∧
      x &&& 0x7 = x % 8 :=
  ⟨Nat.and_pow_two_sub_one_eq_mod x 8, Nat.and_pow_two_sub_one_eq_mod x 6,
    Nat.and_pow_two_sub_one_eq_mod x 5, Nat.and_pow_two_sub_one_eq_mod x 4,
    Nat.and_pow_two_sub_one_eq_mod x 3⟩

theorem or_add3 (a b c : Nat) (hb : b < 64) (hc : c < 64) :
    a * 4096 ||| b * 64 ||| c = a * 4096 + b * 64 + c := by
  have s2 : a * 4096 + b * 64 = (a * 64 + b) * 64 := by omega
  rw [or_add12 _ _ (by omega), s2, or_add6 _ _ hc]

theorem or_add4 (a b c d : Nat) (hb : b < 64) (hc : c < 64) (hd : d < 64) :
    a * 262144 ||| b * 4096 ||| c * 64 ||| d = a * 262144 + b * 4096 + c * 64 + d := by
  have s2 : a * 262144 + b * 4096 = (a * 64 + b) * 4096 := by omega
  have s3 : (a * 64 + b) * 4096 + c * 64 = ((a * 64 + b) * 64 + c) * 64 := by omega
  rw [or_add18 _ _ (by omega), s2, or_add12 _ _ (by omega), s3, or_add6 _ _ hd]

theorem lead_masks (x : Nat) :
    ((x % 256 &&& 240 = 224) = (x % 256 / 16 = 14)) ∧
      ((x % 256 &&& 224 = 192) = (x % 256 / 32 = 6)) := by
  obtain ⟨h1, _, h3⟩ := byte_masks (x % 256) (by omega)
  have ha : x % 256 &&& 0xff = x % 256 % 256 := Nat.and_pow_two_sub_one_eq_mod _ 8
  rw [ha, Nat.mod_mod] at h1 h3
  have k1 : (224 ≤ x % 256 ∧ x % 256 < 240) ↔ x % 256 / 16 = 14 := by
    clear h1 h3 ha
    constructor <;> intro h <;> omega
  have k3 : (192 ≤ x % 256 ∧ x % 256 < 224) ↔ x % 256 / 32 = 6 := by
    clear h1 h3 ha
    constructor <;> intro h <;> omega
  exact ⟨propext (h1.trans k1), propext (h3.trans k3)⟩

/-- The decoder `unicode` in arithmetic: the lead byte selects the branch by its
high bits, every other byte gives its low 6 bits. -/
theorem unicode_arith (p : List Nat) :
    unicode p =
      if p.getD 0 0 % 256 / 16 = 14 then
        (p.getD 0 0 % 16 * 4096 + p.getD 1 0 % 64 * 64 + p.getD 2 0 % 64, 3)
      else if p.getD 0 0 % 256 < 128 then (p.getD 0 0 % 256, 1)
      else if p.getD 0 0 % 256 / 32 = 6 then (p.getD 0 0 % 32 * 64 + p.getD 1 0 % 64, 2)
      else (p.getD 0 0 % 8 * 262144 + p.getD 1 0 % 64 * 4096 + p.getD 2 0 % 64 * 64
          + p.getD 3 0 % 64, 4) := by
  have e1 : p.getD 0 0 % 256 % 16 = p.getD 0 0 % 16 := by omega
  have e2 : p.getD 0 0 % 256 % 32 = p.getD 0 0 % 32 := by omega
  have e3 : p.getD 0 0 % 256 % 8 = p.getD 0 0 % 8 := by omega
  have b1 : p.getD 1 0 % 64 < 64 := by omega
  have b2 : p.getD 2 0 % 64 < 64 := by omega
  have b3 : p.getD 3 0 % 64 < 64 := by omega
  obtain ⟨k1, k3⟩ := lead_masks (p.getD 0 0)
  have m0 := mask_mod (p.getD 0 0)
  have mm := mask_mod (p.getD 0 0 % 256)
  have m1 := (mask_mod (p.getD 1 0)).2.1
  have m2 := (mask_mod (p.getD 2 0)).2.1
  have m3 := (mask_mod (p.getD 3 0)).2.1
  unfold unicode
  simp only [m0.1, m1, m2, m3, mm.2.1, mm.2.2.1, mm.2.2.2.1, mm.2.2.2.2, Nat.shiftLeft_eq,
    Nat.reducePow, e1, e2, e3, k1, k3, or_add3 _ _ _ b1 b2, or_add6 _ _ b1,
    or_add4 _ _ _ _ b1 b2 b3]

end jagger

namespace jagger

/-- C26: the decoder returns code points above `CP_MAX`.  Every value it returns
is below `2 ^ 21`, and the bytes `F7 BF BF BF` give `0x1FFFFF`; the search reads
`c2i` at that index, outside the `CP_MAX + 2` entries of the table: its result
changes with the value found there. -/
theorem unicode_exceeds_CP_MAX :
    (∀ p : List Nat, (unicode p).1 < 2097152) ∧
    unicode [0xF7, 0xBF, 0xBF, 0xBF] = (0x1FFFFF, 4) ∧ CP_MAX + 2 ≤ 0x1FFFFF ∧
    ccedar.longestPatternSearch 2 (oneKeyTrie 129) [0xF7, 0xBF, 0xBF, 0xBF] 4 0
      (fun cp => if cp = 0x1FFFFF then 1 else 0) 0 = some 129 ∧
    ccedar.longestPatternSearch 2 (oneKeyTrie 129) [0xF7, 0xBF, 0xBF, 0xBF] 4 0
      (fun _ => 0) 0 = some 0 := by
  refine ⟨?_, by decide, by decide, by decide, by decide⟩
  intro p
  rw [unicode_arith]
  split_ifs <;> simp only <;> omega

end jagger

namespace jagger

/-! ## The symbol seeds are decoded back -/

theorem or_add4bits (a b : Nat) (h : b < 16) : a * 16 ||| b = a * 16 + b := by
  rw [Nat.mul_comm]
  exact (Nat.mul_add_lt_is_or (i := 4) h a).symm

theorem lead_or (x : Nat) :
    (x < 64 → 0xc0 ||| x = 192 + x) ∧ (x < 16 → 0xe0 ||| x = 224 + x) ∧
      (x < 16 → 0xf0 ||| x = 240 + x) ∧ (x < 64 → 0x80 ||| x = 128 + x) :=
  ⟨fun h => or_add6 3 x h, fun h => or_add4bits 14 x h, fun h => or_add4bits 15 x h,
    fun h => or_add6 2 x h⟩

theorem symbol_seed_1 (j : Nat) (h1 : 1 ≤ j) (h2 : j ≤ 0x7f) : symbol_seed j = [j] := by
  have c1 : ¬ j > 0xffff := by omega
  have c2 : ¬ j > 0x7ff := by omega
  have c3 : ¬ j > 0x7f := by omega
  have hj : j % 256 = j := by omega
  have hne : j ≠ 0 := by omega
  simp [symbol_seed, symbol_array, symbol_loop, c_str, c1, c2, c3, hj, hne]

theorem symbol_seed_2 (j : Nat) (h1 : 0x80 ≤ j) (h2 : j ≤ 0x7ff) :
    symbol_seed j = [192 + j / 64, 128 + j % 64] := by
  have c1 : ¬ j > 0xffff := by omega
  have c2 : ¬ j > 0x7ff := by omega
  have c3 : j > 0x7f := by omega
  have e1 : 0xc0 ||| j / 64 = 192 + j / 64 := (lead_or _).1 (by omega)
  have e2 : 0x80 ||| j % 64 = 128 + j % 64 := (lead_or _).2.2.2 (by omega)
  have hl : (192 + j / 64) % 256 = 192 + j / 64 := by omega
  simp only [symbol_seed, symbol_array, c1, c2, c3, if_true, if_false, Nat.zero_add,
    List.getD_cons_succ, List.getD_cons_zero, Nat.mul_one, Nat.shiftRight_eq_div_pow,
    Nat.reducePow, symbol_loop, (mask_mod j).2.1, e1, e2, hl, List.set_cons_succ,
    List.set_cons_zero, c_str]
  simp

theorem symbol_seed_3 (j : Nat) (h1 : 0x800 ≤ j) (h2 : j ≤ 0xffff) :
    symbol_seed j = [224 + j / 4096, 128 + j / 64 % 64, 128 + j % 64] := by
  have c1 : ¬ j > 0xffff := by omega
  have c2 : j > 0x7ff := by omega
  have c3 : j > 0x7f := by omega
  have e1 : 0xe0 ||| j / 4096 = 224 + j / 4096 := (lead_or _).2.1 (by omega)
  have e2 : 0x80 ||| j % 64 = 128 + j % 64 := (lead_or _).2.2.2 (by omega)
  have e3 : 0x80 ||| j / 64 % 64 = 128 + j / 64 % 64 := (lead_or _).2.2.2 (by omega)
  have hl : (224 + j / 4096) % 256 = 224 + j / 4096 := by omega
  simp only [symbol_seed, symbol_array, c1, c2, c3, if_true, if_false, Nat.zero_add,
    List.getD_cons_succ, List.getD_cons_zero, Nat.reduceMul, Nat.reduceAdd,
    Nat.shiftRight_eq_div_pow,
    Nat.reducePow, symbol_loop, (mask_mod j).2.1, (mask_mod (j / 64)).2.1, e1, e2, e3, hl,
    List.set_cons_succ, List.set_cons_zero, c_str]
  simp

theorem symbol_seed_4 (j : Nat) (h1 : 0x10000 ≤ j) (h2 : j ≤ 0x10ffff) :
    symbol_seed j
      = [240 + j / 262144, 128 + j / 4096 % 64, 128 + j / 64 % 64, 128 + j % 64] := by
  have c1 : j > 0xffff := by omega
  have c2 : j > 0x7ff := by omega
  have c3 : j > 0x7f := by omega
  have e1 : 0xf0 ||| j / 262144 = 240 + j / 262144 := (lead_or _).2.2.1 (by omega)
  have e2 : 0x80 ||| j % 64 = 128 + j % 64 := (lead_or _).2.2.2 (by omega)
  have e3 : 0x80 ||| j / 64 % 64 = 128 + j / 64 % 64 := (lead_or _).2.2.2 (by omega)
  have e4 : 0x80 ||| j / 64 / 64 % 64 = 128 + j / 4096 % 64 := by
    rw [(lead_or _).2.2.2 (by omega)]
    omega
  have hl : (240 + j / 262144) % 256 = 240 + j / 262144 := by omega
  simp only [symbol_seed, symbol_array, c1, c2, c3, if_true, if_false, Nat.zero_add,
    List.getD_cons_succ, List.getD_cons_zero, Nat.reduceMul, Nat.reduceAdd,
    Nat.shiftRight_eq_div_pow,
    Nat.reducePow, symbol_loop, (mask_mod j).2.1, (mask_mod (j / 64)).2.1,
    (mask_mod (j / 64 / 64)).2.1, e1, e2, e3, e4, hl,
    List.set_cons_succ, List.set_cons_zero, c_str]
  simp

/-- C25: for every code point `j` from 1 to `0x10FFFF`, `unicode` decodes the bytes
of the symbol seed of `j` back to `j`, and the byte count it reports is the number
of bytes of the seed and the `u8_len` of its first byte. -/
theorem unicode_symbol_seed (j : Nat) (h1 : 1 ≤ j) (h2 : j ≤ 0x10FFFF) :
    unicode (symbol_seed j) = (j, (symbol_seed j).length) ∧
      u8_len (symbol_seed j) = (symbol_seed j).length := by
  by_cases a1 : j ≤ 0x7f
  · rw [symbol_seed_1 j h1 a1, unicode_arith, u8_len_eq]
    simp only [List.getD_cons_zero, List.length_singleton]
    have hq : j % 256 / 16 < 8 := by omega
    constructor
    · rw [if_neg (by omega), if_pos (by omega)]
      congr 1
      omega
    · generalize j % 256 / 16 = i at hq
      interval_cases i <;> rfl
  · by_cases a2 : j ≤ 0x7ff
    · rw [symbol_seed_2 j (by omega) a2, unicode_arith, u8_len_eq]
      simp only [List.getD_cons_zero, List.getD_cons_succ, List.length_cons, List.length_nil]
      have hq : (192 + j / 64) % 256 / 16 = 12 ∨ (192 + j / 64) % 256 / 16 = 13 := by omega
      constructor
      · rw [if_neg (by omega), if_neg (by omega), if_pos (by omega)]
        congr 1
        omega
      · rcases hq with hq | hq <;> rw [hq] <;> rfl
    · by_cases a3 : j ≤ 0xffff
      · rw [symbol_seed_3 j (by omega) a3, unicode_arith, u8_len_eq]
        simp only [List.getD_cons_zero, List.getD_cons_succ, List.length_cons,
          List.length_nil]
        have hq : (224 + j / 4096) % 256 / 16 = 14 := by omega
        constructor
        · rw [if_pos hq]
          congr 1
          omega
        · rw [hq]
          rfl
      · rw [symbol_seed_4 j (by omega) h2, unicode_arith, u8_len_eq]
        simp only [List.getD_cons_zero, List.getD_cons_succ, List.length_cons,
          List.length_nil]
        have hq : (240 + j / 262144) % 256 / 16 = 15 := by omega
        constructor
        · rw [if_neg (by omega), if_neg (by omega), if_neg (by omega)]
          congr 1
          omega
        · rw [hq]
          rfl

/-- C25, at a concrete input: the seed of U+3042 is `E3 81 82`. -/
theorem unicode_symbol_seed_witness :
    symbol_seed 0x3042 = [0xE3, 0x81, 0x82] ∧
      unicode (symbol_seed 0x3042) = (0x3042, (symbol_seed 0x3042).length) ∧
      u8_len (symbol_seed 0x3042) = (symbol_seed 0x3042).length :=
  ⟨by decide, unicode_symbol_seed 0x3042 (by decide) (by decide)⟩

end jagger

namespace ccedar

/-! ## The refinement loop ends -/

/-- The surface pass keeps its cursor on a path from the root and the node of the
last value on that path; every round but the last adds one edge. -/
theorem surfacePass_path (t : da) (c2i : Nat → Nat) (key : List Nat) (len : Nat) :
    ∀ (fuel o b : Nat) (s s' : surface) (l : List Nat) (P : Nat),
    t.node l 0 = some s.frm → P ≤ l.length → t.node (l.take P) 0 = some s.from_ →
    surfacePass t c2i key len fuel o b s = some s' →
    ∃ (l' : List Nat) (P' : Nat), t.node l' 0 = some s'.frm ∧ P' ≤ l'.length ∧
      t.node (l'.take P') 0 = some s'.from_ ∧ l'.length + 1 ≤ l.length + fuel := by
  intro fuel
  induction fuel with
  | zero => intro o b s s' l P _ _ _ h; simp [surfacePass] at h
  | succ f ih =>
    intro o b s s' l P hfrm hP hfrom h
    simp only [surfacePass, da.traverse] at h
    generalize (if o = len then (0, b) else unicode (List.drop o key)) = rd at h
    by_cases hi : c2i rd.1 = 0
    · rw [if_pos hi] at h
      cases h
      exact ⟨l, P, hfrm, hP, hfrom, by omega⟩
    · rw [if_neg hi] at h
      have hstep : ∀ m, t.child s.frm (c2i rd.1) = some m →
          t.node (l ++ [c2i rd.1]) 0 = some m := by
        intro m hm
        rw [node_append, hfrm]
        show t.node [c2i rd.1] s.frm = some m
        rw [node_single, hm]
      cases hch : t.child s.frm (c2i rd.1) with
      | none =>
        simp only [hch] at h
        cases h
        exact ⟨l, P, hfrm, hP, hfrom, by omega⟩
      | some m =>
        simp only [hch] at h
        cases hv : t.value m with
        | none =>
          simp only [hv] at h
          obtain ⟨l', P', h1, h2, h3, h4⟩ := ih _ _ _ s' (l ++ [c2i rd.1]) P
            (hstep m hch) (by simp; omega)
            (by rw [List.take_append_of_le_length hP]; exact hfrom) h
          refine ⟨l', P', h1, h2, h3, ?_⟩
          simp only [List.length_append, List.length_singleton] at h4
          omega
        | some v =>
          simp only [hv] at h
          obtain ⟨l', P', h1, h2, h3, h4⟩ := ih _ _ _ s' (l ++ [c2i rd.1])
            (l ++ [c2i rd.1]).length (hstep m hch) (le_refl _)
            (by rw [List.take_length]; exact hstep m hch) h
          refine ⟨l', P', h1, h2, h3, ?_⟩
          simp only [List.length_append, List.length_singleton] at h4
          omega

theorem posLoop_mono (t : da) (fi from_ : Nat) (n : Int) :
    ∀ (fuel g x : Nat) (r : Int), posLoop t fi from_ n fuel x = some r →
      posLoop t fi from_ n (fuel + g) x = some r := by
  intro fuel
  induction fuel with
  | zero => intro g x r h; simp [posLoop] at h
  | succ f ih =>
    intro g x r h
    have e : f + 1 + g = (f + g) + 1 := by omega
    rw [e, posLoop_succ]
    rw [posLoop_succ] at h
    cases he : t.ext fi x with
    | some v => rw [he] at h; exact h
    | none =>
      rw [he] at h
      simp only at h ⊢
      by_cases hx : x = from_
      · rw [if_pos hx] at h ⊢; exact h
      · rw [if_neg hx] at h ⊢; exact ih g _ r h

/-- C27: in a trie whose `check` links lead to the parent, whatever the window:
when the surface pass has ended, its cursor `frm` is the end of a path `l` from
the root, one edge per character consumed, and `from_` is the node after the
first `P` edges of that path; the refinement loop for `prev_pos_id != 0` returns
within `|l| - P + 1` rounds, that is after at most `|l|` steps along the `check`
links, and the search returns. -/
theorem posLoop_terminates (t : da) (hl : ∀ n k m, t.child n k = some m → t.check m = n)
    (c2i : Nat → Nat) (key : List Nat) (len fi_prev fuel : Nat) (s : surface)
    (hfi : fi_prev ≠ 0)
    (h : surfacePass t c2i key len fuel 0 0 { frm := 0, from_ := 0, n := 0 } = some s) :
    ∃ (l : List Nat) (P : Nat), t.node l 0 = some s.frm ∧ P ≤ l.length ∧
      t.node (l.take P) 0 = some s.from_ ∧ l.length < fuel ∧
      ∃ r, posLoop t fi_prev s.from_ s.n (l.length - P + 1) s.frm = some r ∧
        longestPatternSearch fuel t key len fi_prev c2i 0 = some r := by
  obtain ⟨l, P, h1, h2, h3, h4⟩ := surfacePass_path t c2i key len fuel 0 0
    { frm := 0, from_ := 0, n := 0 } s [] 0 rfl (le_refl _) rfl h
  simp only [List.length_nil, Nat.zero_add] at h4
  refine ⟨l, P, h1, h2, h3, by omega, ?_⟩
  obtain ⟨r, hr⟩ := posLoop_some t hl fi_prev l P s.from_ s.n h3 (l.length - P) l.length
    s.frm (l.length - P + 1) (by omega) (le_refl _) (by rw [List.take_length]; exact h1)
    (by omega)
  obtain ⟨r', hr'⟩ := posLoop_some t hl fi_prev l P s.from_ s.n h3 (l.length - P) l.length
    s.frm fuel (by omega) (le_refl _) (by rw [List.take_length]; exact h1) (by omega)
  refine ⟨r, hr, ?_⟩
  have hmono : posLoop t fi_prev s.from_ s.n fuel s.frm = some r := by
    obtain ⟨g, hg⟩ : ∃ g, fuel = (l.length - P + 1) + g := ⟨fuel - (l.length - P + 1), by omega⟩
    rw [hg]
    exact posLoop_mono t fi_prev s.from_ s.n _ g s.frm r hr
  simp only [longestPatternSearch, h, if_neg hfi, hmono]

/-- C27, at a concrete input: the window `ab` in `demoTrie`, with the previous
POS id 9. -/
theorem posLoop_terminates_witness :
    surfacePass demoTrie demoC2i [97, 98] 2 3 0 0 { frm := 0, from_ := 0, n := 0 }
      = some { frm := 2, from_ := 1, n := 10 } ∧
    ∃ (l : List Nat) (P : Nat), demoTrie.node l 0 = some 2 ∧ P ≤ l.length ∧
      demoTrie.node (l.take P) 0 = some 1 ∧ l.length < 3 ∧
      ∃ r, posLoop demoTrie 9 1 10 (l.length - P + 1) 2 = some r ∧
        longestPatternSearch 3 demoTrie [97, 98] 2 9 demoC2i 0 = some r :=
  ⟨by decide, posLoop_terminates demoTrie demoTrie_wf.link demoC2i [97, 98] 2 9 3
    { frm := 2, from_ := 1, n := 10 } (by decide) (by decide)⟩

end ccedar

namespace jagger

/-! ## The choice of the feature id -/

theorem choose_shift_max (sfi2c : List observation)
    (h : ∀ jt ∈ sfi2c, jt.1.1 ≤ max_plen) :
    choose_shift sfi2c ≤ max_plen ∧
      ∀ s, s ≤ max_plen → shift_total sfi2c s ≤ shift_total sfi2c (choose_shift sfi2c) := by
  obtain ⟨hlen, hget⟩ := s2c_of_spec sfi2c h
  have hne : (s2c_of sfi2c).reverse ≠ [] := by
    intro he
    have := congrArg List.length he
    simp [hlen] at this
  obtain ⟨hk, hmax, _⟩ := max_element_spec _ hne
  rw [List.length_reverse, hlen] at hk hmax
  have hcs : choose_shift sfi2c = max_plen - max_element (s2c_of sfi2c).reverse := by
    simp only [choose_shift, hlen]; omega
  have hle : choose_shift sfi2c ≤ max_plen := by rw [hcs]; omega
  have hrev : ∀ j, j ≤ max_plen →
      (s2c_of sfi2c).reverse.getD j 0 = shift_total sfi2c (max_plen - j) := by
    intro j hj
    rw [getD_reverse _ _ (by rw [hlen]; omega), hlen, ← hget _ (by omega)]
    congr 1
  have hbest : (s2c_of sfi2c).reverse.getD (max_element (s2c_of sfi2c).reverse) 0
      = shift_total sfi2c (choose_shift sfi2c) := by
    rw [hrev _ (by omega), hcs]
  refine ⟨hle, ?_⟩
  intro s hs
  have := hmax (max_plen - s) (by omega)
  rw [hrev _ (by omega), hbest] at this
  have he : max_plen - (max_plen - s) = s := by omega
  rwa [he] at this

/-- The shift chosen for a table with a positive count is the shift of one of
its observations. -/
theorem choose_shift_observed (sfi2c : List observation)
    (h : ∀ jt ∈ sfi2c, jt.1.1 ≤ max_plen) (hpos : ∃ jt ∈ sfi2c, 0 < jt.2) :
    ∃ jt ∈ sfi2c, jt.1.1 = choose_shift sfi2c := by
  obtain ⟨jt, hjt, hp⟩ := hpos
  apply shift_total_pos
  have h1 := shift_total_ge sfi2c jt hjt
  have h2 := (choose_shift_max sfi2c h).2 jt.1.1 (h jt hjt)
  omega

/-- The loop that picks the feature id: the count never falls, it bounds the
counts of the shift, and the pair is either the one the loop started from or the
first observation of the shift that reaches the final count. -/
theorem choose_fi_fold (s : Nat) :
    ∀ (l : List observation) (acc : Nat × Nat),
      acc.1 ≤ (l.foldl (choose_fi_step s) acc).1 ∧
      (∀ jt ∈ l, jt.1.1 = s → jt.2 ≤ (l.foldl (choose_fi_step s) acc).1) ∧
      (l.foldl (choose_fi_step s) acc = acc ∨
        ∃ pre jt post, l = pre ++ jt :: post ∧ jt.1.1 = s ∧
          l.foldl (choose_fi_step s) acc = (jt.2, jt.1.2) ∧
          (∀ x ∈ pre, x.1.1 = s → x.2 < jt.2) ∧ acc.1 < jt.2) := by
  intro l
  induction l with
  | nil => intro acc; exact ⟨le_refl _, by simp, Or.inl rfl⟩
  | cons x l ih =>
    intro acc
    simp only [List.foldl_cons]
    obtain ⟨h1, h2, h3⟩ := ih (choose_fi_step s acc x)
    have hstep : acc.1 ≤ (choose_fi_step s acc x).1 ∧
        (x.1.1 = s → x.2 ≤ (choose_fi_step s acc x).1) := by
      unfold choose_fi_step
      split_ifs with hc
      · exact ⟨by simp only; omega, fun _ => le_refl _⟩
      · exact ⟨le_refl _, fun hx => by simp only [hx, true_and] at hc; omega⟩
    refine ⟨le_trans hstep.1 h1, ?_, ?_⟩
    · intro jt hjt hs
      rcases List.mem_cons.1 hjt with rfl | hjt
      · exact le_trans (hstep.2 hs) h1
      · exact h2 jt hjt hs
    · rcases h3 with h3 | ⟨pre, jt, post, hl, hjs, hr, hpre, hacc⟩
      · rw [h3]
        by_cases hc : x.1.1 = s ∧ x.2 > acc.1
        · right
          refine ⟨[], x, l, rfl, hc.1, ?_, by simp, hc.2⟩
          simp only [choose_fi_step, if_pos hc]
        · left
          simp only [choose_fi_step, if_neg hc]
      · right
        refine ⟨x :: pre, jt, post, by rw [hl]; rfl, hjs, hr, ?_, by omega⟩
        intro y hy hys
        rcases List.mem_cons.1 hy with rfl | hy
        · have := hstep.2 hys
          omega
        · exact hpre y hy hys

/-- C21: for a table of observations in the order of the map, with positive
counts and shifts up to `max_plen`, the pair `(count, fi)` chosen for the chosen
shift is an observation of that shift, its count is the largest of the shift, and
its feature id is the smallest among the observations of the shift with that
count. -/
theorem choose_fi_spec (sfi2c : List observation)
    (hsorted : sfi2c.Pairwise obs_lt) (hne : sfi2c ≠ [])
    (hpos : ∀ jt ∈ sfi2c, 0 < jt.2) (hb : ∀ jt ∈ sfi2c, jt.1.1 ≤ max_plen) :
    ((choose_shift sfi2c, (choose_fi sfi2c (choose_shift sfi2c)).2),
        (choose_fi sfi2c (choose_shift sfi2c)).1) ∈ sfi2c ∧
      (∀ jt ∈ sfi2c, jt.1.1 = choose_shift sfi2c →
        jt.2 ≤ (choose_fi sfi2c (choose_shift sfi2c)).1) ∧
      (∀ jt ∈ sfi2c, jt.1.1 = choose_shift sfi2c →
        jt.2 = (choose_fi sfi2c (choose_shift sfi2c)).1 →
        (choose_fi sfi2c (choose_shift sfi2c)).2 ≤ jt.1.2) := by
  obtain ⟨x, xs, hx⟩ := List.exists_cons_of_ne_nil hne
  have hex : ∃ jt ∈ sfi2c, 0 < jt.2 := ⟨x, by rw [hx]; exact List.mem_cons_self _ _,
    hpos x (by rw [hx]; exact List.mem_cons_self _ _)⟩
  obtain ⟨j0, hj0, hs0⟩ := choose_shift_observed sfi2c hb hex
  obtain ⟨_, h2, h3⟩ := choose_fi_fold (choose_shift sfi2c) sfi2c (0, 0)
  have hbig : 0 < (choose_fi sfi2c (choose_shift sfi2c)).1 :=
    lt_of_lt_of_le (hpos j0 hj0) (h2 j0 hj0 hs0)
  rcases h3 with h3 | ⟨pre, jt, post, hl, hjs, hr, hpre, _⟩
  · exfalso
    have : (choose_fi sfi2c (choose_shift sfi2c)).1 = 0 := by
      show (sfi2c.foldl (choose_fi_step (choose_shift sfi2c)) (0, 0)).1 = 0
      rw [h3]
    omega
  · have hr2 : choose_fi sfi2c (choose_shift sfi2c) = (jt.2, jt.1.2) := hr
    rw [hr2]
    refine ⟨?_, ?_, ?_⟩
    · have hmem : jt ∈ sfi2c := by rw [hl]; simp
      have : ((choose_shift sfi2c, jt.1.2), jt.2) = jt := by
        rw [← hjs]
      rw [this]
      exact hmem
    · intro y hy hys
      have := h2 y hy hys
      rw [show sfi2c.foldl (choose_fi_step (choose_shift sfi2c)) (0, 0)
        = choose_fi sfi2c (choose_shift sfi2c) from rfl, hr2] at this
      exact this
    · intro y hy hys hyc
      simp only at hyc ⊢
      rw [hl] at hy hsorted
      rcases List.mem_append.1 hy with hy | hy
      · have := hpre y hy hys
        omega
      · rcases List.mem_cons.1 hy with rfl | hy
        · exact le_refl _
        · have hp := (List.pairwise_append.1 hsorted).2.1
          have hlt := (List.pairwise_cons.1 hp).1 y hy
          unfold obs_lt at hlt
          omega

set_option maxRecDepth 100000 in
/-- C21, at a concrete input: in `tieTable` the shift 2 is chosen, the features
5 and 8 share the largest count 6, and the feature 5 is taken. -/
theorem choose_fi_spec_witness :
    choose_shift tieTable = 2 ∧ choose_fi tieTable 2 = (6, 5) ∧
      ((choose_shift tieTable, (choose_fi tieTable (choose_shift tieTable)).2),
        (choose_fi tieTable (choose_shift tieTable)).1) ∈ tieTable :=
  ⟨by decide, by decide,
    (choose_fi_spec tieTable (by decide) (by decide) (by decide) (by decide)).1⟩

end jagger

namespace jagger

/-! ## The character class of a pattern -/

theorem foldl_and_zero (l : List Nat) : l.foldl (fun a b => a &&& b) 0 = 0 := by
  induction l with
  | nil => rfl
  | cons x l ih => simp only [List.foldl_cons, Nat.zero_and, ih]

/-- The loop of `check_ctype` over whole characters: the intersection of the
classes, in the order of the characters. -/
theorem check_ctype_loop_whole (tbl : Nat → Nat) (p : List Nat) (len : Nat) (rest : List Nat) :
    ∀ (cs : List (List Nat)) (fuel offset n : Nat),
      ccedar.whole cs → p.drop offset = cs.flatten ++ rest →
      offset + cs.flatten.length = len → cs.flatten.length ≤ fuel →
      check_ctype_loop tbl p len fuel offset n
        = (cs.map (fun ch => tbl (unicode ch).1)).foldl (fun a b => a &&& b) n := by
  intro cs
  induction cs with
  | nil =>
    intro fuel offset n _ _ hlen _
    simp only [List.flatten_nil, List.length_nil, Nat.add_zero] at hlen
    cases fuel with
    | zero => rfl
    | succ f =>
      have : ¬ (n ≠ 0 ∧ offset < len) := by omega
      simp only [check_ctype_loop, if_neg this, List.map_nil, List.foldl_nil]
  | cons ch cs ih =>
    intro fuel offset n hw hdrop hlen hfuel
    have hch : (unicode ch).2 = ch.length := hw ch (List.mem_cons_self _ _)
    have hpos : 1 ≤ ch.length := by rw [← hch]; exact ccedar.unicode_snd_pos ch
    simp only [List.flatten_cons, List.length_append] at hlen hfuel
    obtain ⟨f, rfl⟩ : ∃ f, fuel = f + 1 := ⟨fuel - 1, by omega⟩
    simp only [List.flatten_cons, List.append_assoc] at hdrop
    have hu : unicode (p.drop offset) = unicode ch := by
      rw [hdrop]
      exact ccedar.unicode_append ch _ hch
    by_cases hn : n = 0
    · subst hn
      have : ¬ ((0 : Nat) ≠ 0 ∧ offset < len) := by simp
      simp only [check_ctype_loop, if_neg this, foldl_and_zero]
    · have hc : n ≠ 0 ∧ offset < len := ⟨hn, by omega⟩
      simp only [check_ctype_loop, if_pos hc, hu, hch, List.map_cons, List.foldl_cons]
      apply ih f (offset + ch.length) _ (fun c hc => hw c (List.mem_cons_of_mem _ hc))
      · rw [← List.drop_drop, hdrop, List.drop_left]
      · omega
      · omega

set_option maxRecDepth 100000 in
/-- C24: the digit `1` is in `chars_[0]`, so `char_t` gives it the class `NUM`;
`check_ctype (c.c_str (), shift, char_t, shift ? ANY : OTHER)` of line 200, whose
comment reads `NUM -> OTHER`, gives the pattern of surface `1` and shift 1 the
ctype `NUM`, not `OTHER`, and the pruning pass retains the pattern with the
ctype `NUM`. -/
theorem pattern_ctype_records_NUM :
    char_t 49 = NUM ∧ pattern_ctype char_t [49] 1 = NUM ∧ NUM ≠ OTHER ∧
      (pat_info_t.new [49] (-1) 1 1 (pattern_ctype char_t [49] 1) 0).ctype = NUM ∧
      (prune char_t (fun _ _ => 0) [candidate.mk [49] (-1) [((1, 5), 1)]])._pi2sf.map
          (fun r => (r.surf, r.shift, r.ctype))
        = [([49], 1, NUM)] := by
  refine ⟨by decide, by decide, by decide, by decide, by decide⟩

/-- What line 200 computes: the ctype of a pattern is `OTHER` when the chosen
shift is 0; otherwise, when the first `shift` bytes of the surface are the whole
characters `cs`, it is the bitwise intersection of `ANY` with the class that
`char_t` gives to the code point of every character of `cs`.  Nothing in the
computation turns the class `NUM` into `OTHER`. -/
theorem pattern_ctype_spec (tbl : Nat → Nat) (c : List Nat) (shift : Nat) :
    (shift = 0 → pattern_ctype tbl c shift = OTHER) ∧
      (∀ (cs : List (List Nat)) (rest : List Nat), shift ≠ 0 → ccedar.whole cs →
        c = cs.flatten ++ rest → shift = cs.flatten.length →
        pattern_ctype tbl c shift
          = (cs.map (fun ch => tbl (unicode ch).1)).foldl (fun a b => a &&& b) ANY) := by
  constructor
  · intro h
    subst h
    rfl
  · intro cs rest hs hw hc hlen
    simp only [pattern_ctype, check_ctype, if_pos hs]
    exact check_ctype_loop_whole tbl c shift rest cs shift 0 ANY hw (by simpa using hc)
      (by omega) (by omega)

set_option maxRecDepth 100000 in
/-- The ctype of line 200, at a concrete input: the surface `1a` with the shift 2 has the
digit `1` (class `NUM`) and the letter `a` (class `ALPHA`), and the ctype 0. -/
theorem pattern_ctype_spec_witness :
    pattern_ctype char_t [49, 97] 2
      = ([[49], [97]].map (fun ch => char_t (unicode ch).1)).foldl (fun a b => a &&& b) ANY ∧
      pattern_ctype char_t [49, 97] 2 = 0 :=
  ⟨(pattern_ctype_spec char_t [49, 97] 2).2 [[49], [97]] [] (by decide)
    (by intro c hc; simp at hc; rcases hc with rfl | rfl <;> decide)
    (by decide) (by decide), by decide⟩

end jagger

namespace jagger

/-! ## The mining loop -/

theorem mine_round_new (cs : List Nat) (i k shift fi : Nat) (ti_prev : Int) (m : miner) :
    (mine_round cs i k shift fi ti_prev m).2 = true ↔ (slice cs i k, (-1 : Int)) ∉ m.pbag := by
  simp only [mine_round, bag_t.to_i, decide_eq_true_eq]
  constructor
  · intro h hin
    rw [if_pos hin] at h
    have := List.indexOf_lt_length.2 hin
    simp only at h
    omega
  · intro h
    rw [if_neg h]

theorem mine_loop_fuel (cs : List Nat) (i shift fi : Nat) (ti_prev : Int) :
    ∀ (fuel g k : Nat) (m : miner), max_plen + 1 ≤ k + fuel →
      mine_loop cs i shift fi ti_prev (fuel + g) k m = mine_loop cs i shift fi ti_prev fuel k m := by
  intro fuel
  induction fuel with
  | zero =>
    intro g k m h
    cases g with
    | zero => rfl
    | succ g =>
      have hc : ¬ (i + k ≤ cs.length ∧ k ≤ max_plen) := by omega
      simp only [Nat.zero_add, mine_loop, if_neg hc]
  | succ f ih =>
    intro g k m h
    have e : f + 1 + g = (f + g) + 1 := by omega
    rw [e]
    simp only [mine_loop]
    have hu := u8_len_pos (cs.drop (i + k))
    rw [ih g (k + u8_len (cs.drop (i + k))) _ (by omega)]

set_option maxRecDepth 100000 in
/-- C23, counterexample: on the sentence `ab`, for the token `a`, the round
`k = 1` of the empty bags creates the two patterns of `a` and the loop halts,
although `k = 2` is in range; in the bags `seenMiner` the round `k = 1` creates
no pattern and the loop goes on to `k = 2`. -/
theorem mine_counterexample :
    (mine [97, 98] 0 1 7 0 { pbag := [], pi2sfic := [] }).1 = [1] ∧
      (mine [97, 98] 0 1 7 0 { pbag := [], pi2sfic := [] }).2.pbag = [([97], -1), ([97], 0)] ∧
      (0 + 2 ≤ [97, 98].length ∧ 2 ≤ max_plen) ∧
      (mine_round [97, 98] 0 1 1 7 0 seenMiner).1.pbag = seenMiner.pbag ∧
      (mine [97, 98] 0 1 7 0 seenMiner).1 = [1, 2] := by
  refine ⟨by decide, by decide, by decide, by decide, by decide⟩

/-- C23, amended: the round for `k` runs when `i + k` is within the sentence and
`k` is at most `max_plen`; the loop then goes on to the next `k` exactly when the
surface-only pattern `(cs.substr (i, k), -1)` was in `pbag` before the round, and
halts after the round in which that pattern got a new id.  The loop ends within
`max_plen + 1 - k` rounds. -/
theorem mine_loop_spec (cs : List Nat) (i shift fi : Nat) (ti_prev : Int) (fuel k : Nat)
    (m : miner) :
    (mine_loop cs i shift fi ti_prev (fuel + 1) k m).1 =
      (if i + k ≤ cs.length ∧ k ≤ max_plen then
        k :: (if (slice cs i k, (-1 : Int)) ∈ m.pbag then
          (mine_loop cs i shift fi ti_prev fuel (k + u8_len (cs.drop (i + k)))
            (mine_round cs i k shift fi ti_prev m).1).1
          else [])
      else []) ∧
    ∀ g, mine_loop cs i shift fi ti_prev (max_plen + 1 - k + g) k m
      = mine_loop cs i shift fi ti_prev (max_plen + 1 - k) k m := by
  constructor
  · simp only [mine_loop]
    by_cases hc : i + k ≤ cs.length ∧ k ≤ max_plen
    · rw [if_pos hc, if_pos hc]
      by_cases hin : (slice cs i k, (-1 : Int)) ∈ m.pbag
      · have hn : ¬ ((mine_round cs i k shift fi ti_prev m).2 = true) := by
          rw [mine_round_new]
          exact fun h => h hin
        rw [if_neg hn, if_pos hin]
      · have hn : (mine_round cs i k shift fi ti_prev m).2 = true :=
          (mine_round_new cs i k shift fi ti_prev m).2 hin
        rw [if_pos hn, if_neg hin]
    · rw [if_neg hc, if_neg hc]
  · intro g
    exact mine_loop_fuel cs i shift fi ti_prev _ g k m (by omega)

end jagger

namespace jagger

/-! ## The pruning pass -/

theorem prefix_not_string_lt : ∀ (p c : List Nat), p <+: c → string_lt c p = false
  | [], c, _ => by cases c <;> rfl
  | a :: p, [], h => by simp at h
  | a :: p, b :: c, h => by
    rw [List.cons_prefix_cons] at h
    obtain ⟨rfl, h⟩ := h
    simp [string_lt, prefix_not_string_lt p c h]

theorem key_lt_irrefl (a b : candidate) (h : key_lt a b) :
    ¬ (a.surf = b.surf ∧ a.ti_prev = b.ti_prev) := by
  rintro ⟨hs, ht⟩
  rcases h with h | ⟨_, h⟩
  · rw [hs, prefix_not_string_lt b.surf b.surf (List.prefix_refl _)] at h
    cases h
  · omega

theorem patterns_traverse_value (t : List (List Nat × Nat)) (q : List Nat) (n : Int)
    (h : patterns_traverse t q = ccedar.result.value n) :
    ∃ kv ∈ t, kv.1 = q ∧ n = Int.ofNat kv.2 := by
  unfold patterns_traverse at h
  cases hf : t.find? (fun kv => decide (kv.1 = q)) with
  | none =>
    rw [hf] at h
    simp only at h
    split at h <;> cases h
  | some kv =>
    rw [hf] at h
    simp only [ccedar.result.value.injEq] at h
    exact ⟨kv, List.mem_of_find?_eq_some hf, by simpa using List.find?_some hf, h.symm⟩

theorem patterns_traverse_no_value (t : List (List Nat × Nat)) (q : List Nat)
    (h : patterns_traverse t q = ccedar.result.NO_VALUE) : ∀ kv ∈ t, kv.1 ≠ q := by
  unfold patterns_traverse at h
  cases hf : t.find? (fun kv => decide (kv.1 = q)) with
  | none =>
    intro kv hkv
    have := List.find?_eq_none.1 hf kv hkv
    simpa using this
  | some kv =>
    rw [hf] at h
    cases h

theorem patterns_traverse_no_path (t : List (List Nat × Nat)) (q : List Nat)
    (h : patterns_traverse t q = ccedar.result.NO_PATH) : ∀ kv ∈ t, ¬ q <+: kv.1 := by
  unfold patterns_traverse at h
  cases hf : t.find? (fun kv => decide (kv.1 = q)) with
  | none =>
    rw [hf] at h
    simp only at h
    split at h
    · cases h
    · rename_i hany
      intro kv hkv hp
      apply hany
      rw [List.any_eq_true]
      exact ⟨kv, hkv, List.isPrefixOf_iff_prefix.2 hp⟩
  | some kv =>
    rw [hf] at h
    cases h

/-- The loop of lines 192-197 leaves in `r` the value of the longest key that is
the prefix of `c` with more than `pos` bytes, and leaves `r` as it was when no
such prefix is a key. -/
theorem patterns_walk_spec (t : List (List Nat × Nat)) (c : List Nat) :
    ∀ (fuel pos : Nat) (r : Option Nat), c.length ≤ pos + fuel →
      (patterns_walk t c fuel pos r = r ∧
        ∀ k, pos < k → k ≤ c.length → ∀ kv ∈ t, kv.1 ≠ c.take k) ∨
      (∃ k kv, pos < k ∧ k ≤ c.length ∧ kv ∈ t ∧ kv.1 = c.take k ∧
        patterns_walk t c fuel pos r = some kv.2 ∧
        ∀ k1, k < k1 → k1 ≤ c.length → ∀ kv1 ∈ t, kv1.1 ≠ c.take k1) := by
  intro fuel
  induction fuel with
  | zero =>
    intro pos r h
    left
    exact ⟨rfl, fun k h1 h2 => by omega⟩
  | succ f ih =>
    intro pos r h
    by_cases hp : pos < c.length
    · simp only [patterns_walk, if_pos hp]
      cases ht : patterns_traverse t (c.take (pos + 1)) with
      | NO_VALUE =>
        simp only
        rcases ih (pos + 1) r (by omega) with ⟨h1, h2⟩ | ⟨k, kv, h1, h2, h3, h4, h5, h6⟩
        · left
          refine ⟨h1, fun k hk1 hk2 kv hkv => ?_⟩
          by_cases hk : k = pos + 1
          · subst hk
            exact patterns_traverse_no_value t _ ht kv hkv
          · exact h2 k (by omega) hk2 kv hkv
        · right
          exact ⟨k, kv, by omega, h2, h3, h4, h5, h6⟩
      | NO_PATH =>
        simp only
        left
        refine ⟨trivial, fun k hk1 hk2 kv hkv he => ?_⟩
        apply patterns_traverse_no_path t _ ht kv hkv
        rw [he]
        have : List.take (pos + 1) c = List.take (pos + 1) (List.take k c) := by
          rw [List.take_take, Nat.min_eq_left (by omega)]
        rw [this]
        exact List.take_prefix _ _
      | value n =>
        simp only
        obtain ⟨kv0, hkv0, hq, hn⟩ := patterns_traverse_value t _ n ht
        subst hn
        rcases ih (pos + 1) (some (Int.ofNat kv0.2).toNat) (by omega) with
          ⟨h1, h2⟩ | ⟨k, kv, h1, h2, h3, h4, h5, h6⟩
        · right
          exact ⟨pos + 1, kv0, by omega, by omega, hkv0, hq, by rw [h1]; rfl, h2⟩
        · right
          exact ⟨k, kv, by omega, h2, h3, h4, h5, h6⟩
    · left
      refine ⟨by simp only [patterns_walk, if_neg hp], fun k h1 h2 => by omega⟩

end jagger

namespace jagger

theorem patterns_walk_some (st : pruner) (c : List Nat) (n : Nat) (hinv : pruner_inv st)
    (h : patterns_walk st.patterns c c.length 0 none = some n) :
    ∃ r, st._pi2sf.get? n = some r ∧ longest_prefix_record st._pi2sf c r := by
  obtain ⟨i1, i2, _⟩ := hinv
  rcases patterns_walk_spec st.patterns c c.length 0 none (by omega) with
    ⟨h1, _⟩ | ⟨k, kv, h1, h2, h3, h4, h5, h6⟩
  · rw [h1] at h
    cases h
  · rw [h5] at h
    cases h
    obtain ⟨r, hr, hs, ht⟩ := i1 kv h3
    have hlen : r.surf.length = k := by rw [hs, h4, List.length_take]; omega
    refine ⟨r, hr, List.get?_mem hr, ht, ?_, ?_, ?_⟩
    · intro he
      rw [he] at hlen
      simp at hlen
      omega
    · rw [hs, h4]
      exact List.take_prefix _ _
    · intro r1 hr1 ht1 hp1
      by_contra hlt
      obtain ⟨n1, hn1⟩ := i2 r1 hr1 ht1
      exact h6 r1.surf.length (by omega) hp1.length_le (r1.surf, n1) hn1
        (List.prefix_iff_eq_take.1 hp1)

theorem patterns_walk_none (st : pruner) (c : List Nat) (hinv : pruner_inv st)
    (h : patterns_walk st.patterns c c.length 0 none = none) :
    ¬ ∃ r, longest_prefix_record st._pi2sf c r := by
  obtain ⟨_, i2, _⟩ := hinv
  rintro ⟨r, hr, ht, hne, hp, _⟩
  rcases patterns_walk_spec st.patterns c c.length 0 none (by omega) with
    ⟨_, h2⟩ | ⟨k, kv, h1, h2, h3, h4, h5, h6⟩
  · obtain ⟨n, hn⟩ := i2 r hr ht
    have hpos : 0 < r.surf.length := List.length_pos.2 hne
    exact h2 r.surf.length hpos hp.length_le (r.surf, n) hn (List.prefix_iff_eq_take.1 hp)
  · rw [h5] at h
    cases h

/-- The test of line 198, under the invariant: a seen pattern is skipped exactly
when the longest retained surface-only pattern on a prefix of its surface has the
chosen shift and feature id. -/
theorem prune_skips_longest (unseen : List Nat → Int → Nat) (st : pruner) (c : candidate)
    (hinv : pruner_inv st) (hseen : c.sfi2c ≠ []) :
    prune_skips unseen st c ↔
      ∃ r, longest_prefix_record st._pi2sf c.surf r ∧ r.shift = choose_shift c.sfi2c ∧
        r.fi = (choose_fi c.sfi2c (choose_shift c.sfi2c)).2 := by
  have hs : cand_shift c = choose_shift c.sfi2c := by simp only [cand_shift, if_pos hseen]
  have hf : cand_fi unseen c = choose_fi c.sfi2c (choose_shift c.sfi2c) := by
    simp only [cand_fi, if_pos hseen, hs]
  unfold prune_skips
  rw [hs, hf]
  cases hw : patterns_walk st.patterns c.surf c.surf.length 0 none with
  | none =>
    simp only [Option.none_bind, and_false, false_iff]
    rintro ⟨r, hr, _⟩
    exact patterns_walk_none st c.surf hinv hw ⟨r, hr⟩
  | some n =>
    obtain ⟨r, hr, hl⟩ := patterns_walk_some st c.surf n hinv hw
    simp only [Option.some_bind, hr]
    constructor
    · rintro ⟨_, h1, h2⟩
      exact ⟨r, hl, h1.symm, h2.symm⟩
    · rintro ⟨r1, hl1, h1, h2⟩
      have he : r1 = r := by
        apply hinv.2.2 r1 hl1.1 r hl.1 hl1.2.1 hl.2.1
        have ha := hl.2.2.2.2 r1 hl1.1 hl1.2.1 hl1.2.2.2.1
        have hb := hl1.2.2.2.2 r hl.1 hl.2.1 hl.2.2.2.1
        have hp := List.prefix_of_prefix_length_le hl1.2.2.2.1 hl.2.2.2.1 ha
        exact hp.eq_of_length (by omega)
      subst he
      exact ⟨hseen, h1.symm, h2.symm⟩

theorem cand_record_surf (tbl : Nat → Nat) (unseen : List Nat → Int → Nat) (c : candidate) :
    (cand_record tbl unseen c).surf = c.surf ∧ (cand_record tbl unseen c).ti_prev = c.ti_prev :=
  ⟨rfl, rfl⟩

/-- One round keeps the invariant, when no retained record has the key of the
pattern of the round. -/
theorem prune_step_inv (tbl : Nat → Nat) (unseen : List Nat → Int → Nat) (st : pruner)
    (c : candidate) (hinv : pruner_inv st)
    (hfresh : ∀ r ∈ st._pi2sf, ¬ (r.surf = c.surf ∧ r.ti_prev = c.ti_prev)) :
    pruner_inv (prune_step tbl unseen st c) := by
  unfold prune_step
  by_cases hsk : prune_skips unseen st c
  · rw [if_pos hsk]
    exact hinv
  · rw [if_neg hsk]
    obtain ⟨i1, i2, i3⟩ := hinv
    obtain ⟨hcs, hct⟩ := cand_record_surf tbl unseen c
    have hold : ∀ kv ∈ st.patterns, ∃ r, (st._pi2sf ++ [cand_record tbl unseen c]).get? kv.2
        = some r ∧ r.surf = kv.1 ∧ r.ti_prev = -1 := by
      intro kv hkv
      obtain ⟨r, hr, hs, ht⟩ := i1 kv hkv
      have hlt : kv.2 < st._pi2sf.length := by
        by_contra hge
        rw [List.get?_eq_none.2 (by omega)] at hr
        cases hr
      exact ⟨r, by rw [List.get?_eq_getElem?, List.getElem?_append_left hlt, ← List.get?_eq_getElem?]; exact hr, hs, ht⟩
    refine ⟨?_, ?_, ?_⟩
    · intro kv hkv
      by_cases ht : c.ti_prev = -1
      · simp only [if_pos ht, List.mem_cons] at hkv
        rcases hkv with rfl | hkv
        · refine ⟨cand_record tbl unseen c, ?_, hcs, by rw [hct, ht]⟩
          simp only
          rw [List.get?_eq_getElem?, List.getElem?_append_right (Nat.le_refl _), Nat.sub_self]
          rfl
        · exact hold kv hkv
      · simp only [if_neg ht] at hkv
        exact hold kv hkv
    · intro r hr ht
      simp only [List.mem_append, List.mem_singleton] at hr
      rcases hr with hr | rfl
      · obtain ⟨n, hn⟩ := i2 r hr ht
        refine ⟨n, ?_⟩
        simp only
        split
        · exact List.mem_cons_of_mem _ hn
        · exact hn
      · rw [hct] at ht
        refine ⟨st._pi2sf.length, ?_⟩
        simp only [if_pos ht, hcs]
        exact List.mem_cons_self _ _
    · intro r hr r1 hr1 ht ht1 hs
      simp only [List.mem_append, List.mem_singleton] at hr hr1
      rcases hr with hr | rfl
      · rcases hr1 with hr1 | rfl
        · exact i3 r hr r1 hr1 ht ht1 hs
        · exact absurd ⟨by rw [hs, hcs], by rw [ht, ← hct, ht1]⟩ (hfresh r hr)
      · rcases hr1 with hr1 | rfl
        · exact absurd ⟨by rw [← hs, hcs], by rw [ht1, ← hct, ht]⟩ (hfresh r1 hr1)
        · rfl

theorem prune_snoc (tbl : Nat → Nat) (unseen : List Nat → Int → Nat) (l : List candidate)
    (a : candidate) :
    prune tbl unseen (l ++ [a]) = prune_step tbl unseen (prune tbl unseen l) a := by
  simp only [prune, List.foldl_append, List.foldl_cons, List.foldl_nil]

/-- Every round appends at most the record of its pattern. -/
theorem prune_step_records (tbl : Nat → Nat) (unseen : List Nat → Int → Nat) (st : pruner)
    (c : candidate) :
    (prune_step tbl unseen st c)._pi2sf = st._pi2sf ∨
      (prune_step tbl unseen st c)._pi2sf = st._pi2sf ++ [cand_record tbl unseen c] := by
  unfold prune_step
  by_cases hsk : prune_skips unseen st c
  · rw [if_pos hsk]
    exact Or.inl rfl
  · rw [if_neg hsk]
    exact Or.inr rfl

/-- The pass over patterns in the order of `pbag` keeps the invariant, and every
retained record is the record of one of the patterns. -/
theorem prune_inv (tbl : Nat → Nat) (unseen : List Nat → Int → Nat) :
    ∀ (l : List candidate), l.Pairwise key_lt →
      pruner_inv (prune tbl unseen l) ∧
        ∀ r ∈ (prune tbl unseen l)._pi2sf, ∃ d ∈ l, r = cand_record tbl unseen d := by
  intro l
  induction l using List.reverseRecOn with
  | nil =>
    intro _
    refine ⟨⟨?_, ?_, ?_⟩, ?_⟩ <;> simp [prune]
  | append_singleton l a ih =>
    intro hp
    rw [List.pairwise_append] at hp
    obtain ⟨hl, _, hlt⟩ := hp
    obtain ⟨hinv, htr⟩ := ih hl
    rw [prune_snoc]
    constructor
    · apply prune_step_inv tbl unseen _ a hinv
      intro r hr
      obtain ⟨d, hd, rfl⟩ := htr r hr
      exact key_lt_irrefl d a (hlt d hd a (List.mem_singleton_self a))
    · intro r hr
      rcases prune_step_records tbl unseen (prune tbl unseen l) a with h | h
      · rw [h] at hr
        obtain ⟨d, hd, he⟩ := htr r hr
        exact ⟨d, List.mem_append_left _ hd, he⟩
      · rw [h] at hr
        simp only [List.mem_append, List.mem_singleton] at hr
        rcases hr with hr | rfl
        · obtain ⟨d, hd, he⟩ := htr r hr
          exact ⟨d, List.mem_append_left _ hd, he⟩
        · exact ⟨a, List.mem_append_right _ (List.mem_singleton_self a), rfl⟩

end jagger

namespace jagger

set_option maxRecDepth 100000 in
/-- C22, counterexample: after `a` (shift 1, feature 5) and `ab` (shift 2, feature
7) are retained, the observed pattern `abc` with the chosen shift 1 and feature 5
is not skipped, although the retained surface-only pattern `a`, a shorter prefix
of `abc`, has the shift 1 and the feature 5.  And the observed pattern of the
surface `a` after the POS 0 is skipped, although the only retained pattern is `a`
itself, which is no shorter prefix of `a`. -/
theorem prune_skips_counterexample :
    nestedCands.Pairwise key_lt ∧
      (prune char_t (fun _ _ => 0) (nestedCands.take 2))._pi2sf.map
          (fun r => (r.surf, r.ti_prev, r.shift, r.fi))
        = [([97], -1, 1, 5), ([97, 98], -1, 2, 7)] ∧
      nestedCands.drop 2 = [candidate.mk [97, 98, 99] (-1) [((1, 5), 1)]] ∧
      choose_shift [((1, 5), 1)] = 1 ∧ (choose_fi [((1, 5), 1)] 1).2 = 5 ∧
      ¬ prune_skips (fun _ _ => 0) (prune char_t (fun _ _ => 0) (nestedCands.take 2))
        (candidate.mk [97, 98, 99] (-1) [((1, 5), 1)]) ∧
      (prune char_t (fun _ _ => 0) nestedCands)._pi2sf.map (fun r => r.surf)
        = [[97], [97, 98], [97, 98, 99]] ∧
      sameCands.Pairwise key_lt ∧
      (prune char_t (fun _ _ => 0) (sameCands.take 1))._pi2sf.map (fun r => r.surf) = [[97]] ∧
      prune_skips (fun _ _ => 0) (prune char_t (fun _ _ => 0) (sameCands.take 1))
        (candidate.mk [97] 0 [((1, 5), 2)]) := by
  refine ⟨by decide, by decide, by decide, by decide, by decide, by decide, by decide, by decide,
    by decide, by decide⟩

/-- C22, amended: among the patterns met in the order of `pbag`, an observed
pattern with the surface `c`, the chosen shift `s` and the chosen feature id `f`
is skipped if and only if the longest already retained surface-only pattern with
a non-empty prefix of `c` as its surface (`c` itself included) has the shift `s`
and the feature id `f`; a skipped pattern leaves `_pi2sf` and `patterns` as they
were, any other pattern appends its record. -/
theorem prune_skips_iff (tbl : Nat → Nat) (unseen : List Nat → Int → Nat)
    (pre : List candidate) (c : candidate) (hsorted : pre.Pairwise key_lt)
    (hseen : c.sfi2c ≠ []) :
    (prune_skips unseen (prune tbl unseen pre) c ↔
      ∃ r, longest_prefix_record (prune tbl unseen pre)._pi2sf c.surf r ∧
        r.shift = choose_shift c.sfi2c ∧
        r.fi = (choose_fi c.sfi2c (choose_shift c.sfi2c)).2) ∧
      (prune_skips unseen (prune tbl unseen pre) c →
        prune tbl unseen (pre ++ [c]) = prune tbl unseen pre) ∧
      (¬ prune_skips unseen (prune tbl unseen pre) c →
        (prune tbl unseen (pre ++ [c]))._pi2sf
          = (prune tbl unseen pre)._pi2sf ++ [cand_record tbl unseen c]) := by
  refine ⟨prune_skips_longest unseen _ c (prune_inv tbl unseen pre hsorted).1 hseen, ?_, ?_⟩
  · intro h
    rw [prune_snoc]
    unfold prune_step
    rw [if_pos h]
  · intro h
    rw [prune_snoc]
    unfold prune_step
    rw [if_neg h]

set_option maxRecDepth 100000 in
/-- C22 amended, at a concrete input: after `a` (shift 1, feature 5) is retained,
the observed pattern `ab` with the chosen shift 1 and feature 5 is skipped. -/
theorem prune_skips_iff_witness :
    ((prune_skips (fun _ _ => 0) (prune char_t (fun _ _ => 0) (pruneCands.take 1))
        (candidate.mk [97, 98] (-1) [((1, 5), 2)]) ↔
      ∃ r, longest_prefix_record (prune char_t (fun _ _ => 0) (pruneCands.take 1))._pi2sf
          (candidate.mk [97, 98] (-1) [((1, 5), 2)]).surf r ∧
        r.shift = choose_shift (candidate.mk [97, 98] (-1) [((1, 5), 2)]).sfi2c ∧
        r.fi = (choose_fi (candidate.mk [97, 98] (-1) [((1, 5), 2)]).sfi2c
          (choose_shift (candidate.mk [97, 98] (-1) [((1, 5), 2)]).sfi2c)).2) ∧
      (prune_skips (fun _ _ => 0) (prune char_t (fun _ _ => 0) (pruneCands.take 1))
          (candidate.mk [97, 98] (-1) [((1, 5), 2)]) →
        prune char_t (fun _ _ => 0) (pruneCands.take 1 ++ [candidate.mk [97, 98] (-1) [((1, 5), 2)]])
          = prune char_t (fun _ _ => 0) (pruneCands.take 1)) ∧
      (¬ prune_skips (fun _ _ => 0) (prune char_t (fun _ _ => 0) (pruneCands.take 1))
          (candidate.mk [97, 98] (-1) [((1, 5), 2)]) →
        (prune char_t (fun _ _ => 0)
            (pruneCands.take 1 ++ [candidate.mk [97, 98] (-1) [((1, 5), 2)]]))._pi2sf
          = (prune char_t (fun _ _ => 0) (pruneCands.take 1))._pi2sf ++
            [cand_record char_t (fun _ _ => 0) (candidate.mk [97, 98] (-1) [((1, 5), 2)])])) ∧
      prune_skips (fun _ _ => 0) (prune char_t (fun _ _ => 0) (pruneCands.take 1))
        (candidate.mk [97, 98] (-1) [((1, 5), 2)]) :=
  ⟨prune_skips_iff char_t (fun _ _ => 0) (pruneCands.take 1)
    (candidate.mk [97, 98] (-1) [((1, 5), 2)]) (by decide) (by decide), by decide⟩

end jagger

namespace jagger

theorem check_ctype_loop_le (tbl : Nat → Nat) (p : List Nat) (len : Nat) :
    ∀ (fuel offset n : Nat), check_ctype_loop tbl p len fuel offset n ≤ n := by
  intro fuel
  induction fuel with
  | zero => intro offset n; exact Nat.le_refl _
  | succ f ih =>
    intro offset n
    simp only [check_ctype_loop]
    split
    · exact Nat.le_trans (ih _ _) Nat.and_le_left
    · exact Nat.le_refl _

theorem pattern_ctype_le (tbl : Nat → Nat) (c : List Nat) (shift : Nat) :
    pattern_ctype tbl c shift ≤ 7 := by
  unfold pattern_ctype check_ctype
  refine Nat.le_trans (check_ctype_loop_le tbl c shift shift 0 _) ?_
  split <;> decide

/-- The ctype of a pattern depends only on the whole characters that make up the
first `shift` bytes of its surface. -/
theorem pattern_ctype_whole (tbl : Nat → Nat) (c : List Nat) (cs : List (List Nat))
    (rest : List Nat) (hw : ccedar.whole cs) (hc : c = cs.flatten ++ rest) :
    pattern_ctype tbl c cs.flatten.length
      = (cs.map (fun ch => tbl (unicode ch).1)).foldl (fun a b => a &&& b)
          (if cs.flatten.length ≠ 0 then ANY else OTHER) := by
  unfold pattern_ctype check_ctype
  exact check_ctype_loop_whole tbl c _ rest cs _ 0 _ hw (by simpa using hc) (by omega)
    (Nat.le_refl _)

/-- The fields of the record of a pattern whose shift fits the bit-field. -/
theorem cand_record_fields (tbl : Nat → Nat) (unseen : List Nat → Int → Nat) (d : candidate)
    (h : cand_shift d < 256) :
    (cand_record tbl unseen d).shift = cand_shift d ∧
      (cand_record tbl unseen d).ctype = pattern_ctype tbl d.surf (cand_shift d) := by
  have h7 := pattern_ctype_le tbl d.surf (cand_shift d)
  unfold cand_record pat_info_t.new
  simp only
  constructor <;> omega

/-- The shift of a pattern in the pruning pass is within its surface, when its
observed shifts are. -/
theorem cand_shift_le (d : candidate) (hlen : d.surf.length ≤ max_plen)
    (hobs : ∀ jt ∈ d.sfi2c, jt.1.1 ≤ d.surf.length ∧ 0 < jt.2) :
    cand_shift d ≤ d.surf.length := by
  unfold cand_shift
  by_cases hs : d.sfi2c ≠ []
  · rw [if_pos hs]
    obtain ⟨j0, hj0⟩ := List.exists_mem_of_ne_nil _ hs
    obtain ⟨jt, hjt, he⟩ := choose_shift_observed d.sfi2c
      (fun jt hjt => Nat.le_trans (hobs jt hjt).1 hlen) ⟨j0, hj0, (hobs j0 hj0).2⟩
    rw [← he]
    exact (hobs jt hjt).1
  · rw [if_neg hs]

/-- The rounds after a state only append records of their patterns. -/
theorem prune_foldl_records (tbl : Nat → Nat) (unseen : List Nat → Int → Nat) :
    ∀ (post : List candidate) (st : pruner),
      ∃ extra, (post.foldl (prune_step tbl unseen) st)._pi2sf = st._pi2sf ++ extra ∧
        ∀ r ∈ extra, ∃ d ∈ post, r = cand_record tbl unseen d := by
  intro post
  induction post with
  | nil =>
    intro st
    exact ⟨[], by simp, by simp⟩
  | cons a post ih =>
    intro st
    obtain ⟨extra, he, hx⟩ := ih (prune_step tbl unseen st a)
    rw [List.foldl_cons, he]
    rcases prune_step_records tbl unseen st a with h | h
    · rw [h]
      exact ⟨extra, rfl, fun r hr => by
        obtain ⟨d, hd, e⟩ := hx r hr
        exact ⟨d, List.mem_cons_of_mem _ hd, e⟩⟩
    · rw [h, List.append_assoc]
      refine ⟨cand_record tbl unseen a :: extra, rfl, fun r hr => ?_⟩
      simp only [List.singleton_append, List.mem_cons] at hr
      rcases hr with rfl | hr
      · exact ⟨a, List.mem_cons_self _ _, rfl⟩
      · obtain ⟨d, hd, e⟩ := hx r hr
        exact ⟨d, List.mem_cons_of_mem _ hd, e⟩

/-- C28: in the pass over the patterns in the order of `pbag`, when an observed
surface-only pattern is skipped, the longest surface-only pattern retained at the
end of the pass with a prefix of the skipped surface as its surface has the shift
and the feature id chosen for the skipped pattern, and its ctype is the ctype of
the skipped pattern over the first `shift` bytes.  The skipped surface is at most
`max_plen` bytes long, as the mining loop makes it, and its first `shift` bytes
are whole characters; the observed shifts of the patterns met before are within
their surfaces and their counts positive. -/
theorem prune_keeps_decision (tbl : Nat → Nat) (unseen : List Nat → Int → Nat)
    (pre : List candidate) (c : candidate) (post : List candidate)
    (cs : List (List Nat)) (rest : List Nat)
    (hsorted : (pre ++ c :: post).Pairwise key_lt)
    (hseen : c.sfi2c ≠ []) (hso : c.ti_prev = -1)
    (hskip : prune_skips unseen (prune tbl unseen pre) c)
    (hlen : c.surf.length ≤ max_plen)
    (hobs : ∀ d ∈ pre, ∀ jt ∈ d.sfi2c, jt.1.1 ≤ d.surf.length ∧ 0 < jt.2)
    (hwhole : ccedar.whole cs) (hc : c.surf = cs.flatten ++ rest)
    (hs : choose_shift c.sfi2c = cs.flatten.length) :
    ∃ r, longest_prefix_record (prune tbl unseen (pre ++ c :: post))._pi2sf c.surf r ∧
      r.shift = choose_shift c.sfi2c ∧
      r.fi = (choose_fi c.sfi2c (choose_shift c.sfi2c)).2 ∧
      r.ctype = pattern_ctype tbl c.surf (choose_shift c.sfi2c) := by
  rw [List.pairwise_append] at hsorted
  obtain ⟨hpre, hcp, _⟩ := hsorted
  rw [List.pairwise_cons] at hcp
  obtain ⟨hinv, htr⟩ := prune_inv tbl unseen pre hpre
  obtain ⟨r, hl, hrs, hrf⟩ := (prune_skips_longest unseen _ c hinv hseen).1 hskip
  have hfin : prune tbl unseen (pre ++ c :: post)
      = post.foldl (prune_step tbl unseen) (prune tbl unseen pre) := by
    have e : prune_step tbl unseen (prune tbl unseen pre) c = prune tbl unseen pre := by
      unfold prune_step
      rw [if_pos hskip]
    simp only [prune, List.foldl_append, List.foldl_cons]
    simp only [prune] at e
    rw [e]
  obtain ⟨extra, he, hx⟩ := prune_foldl_records tbl unseen post (prune tbl unseen pre)
  obtain ⟨hr, ht, hne, hp, hlong⟩ := hl
  refine ⟨r, ⟨?_, ht, hne, hp, ?_⟩, hrs, hrf, ?_⟩
  · rw [hfin, he]
    exact List.mem_append_left _ hr
  · intro r1 hr1 ht1 hp1
    rw [hfin, he, List.mem_append] at hr1
    rcases hr1 with hr1 | hr1
    · exact hlong r1 hr1 ht1 hp1
    · obtain ⟨d, hd, rfl⟩ := hx r1 hr1
      obtain ⟨hds, hdt⟩ := cand_record_surf tbl unseen d
      rw [hds] at hp1
      rw [hdt] at ht1
      rcases hcp.1 d hd with hk | ⟨_, hk⟩
      · rw [prefix_not_string_lt d.surf c.surf hp1] at hk
        cases hk
      · omega
  · obtain ⟨d, hd, rfl⟩ := htr r hr
    obtain ⟨hds, _⟩ := cand_record_surf tbl unseen d
    rw [hds] at hp
    have hdl : d.surf.length ≤ max_plen := Nat.le_trans hp.length_le hlen
    have hle := cand_shift_le d hdl (hobs d hd)
    have hmax : max_plen = 128 := by decide
    have hfld := cand_record_fields tbl unseen d (by omega)
    rw [hfld.1] at hrs
    rw [hfld.2, hrs, hs]
    have hpc : cs.flatten <+: d.surf := by
      have hcp1 : cs.flatten <+: c.surf := by
        rw [hc]
        exact List.prefix_append _ _
      exact List.prefix_of_prefix_length_le hcp1 hp (by omega)
    obtain ⟨rest1, hd1⟩ := hpc
    rw [pattern_ctype_whole tbl d.surf cs rest1 hwhole hd1.symm,
      pattern_ctype_whole tbl c.surf cs rest hwhole hc]

set_option maxRecDepth 100000 in
/-- C28, at a concrete input: after `a` (shift 1, feature 5) is retained, the
observed pattern `ab` with the chosen shift 1 and feature 5 is skipped, and at
the end of the pass `a` is the longest retained prefix of `ab`, with the shift 1,
the feature 5 and the ctype of the letter `a`. -/
theorem prune_keeps_decision_witness :
    prune_skips (fun _ _ => 0) (prune char_t (fun _ _ => 0) [candidate.mk [97] (-1) [((1, 5), 3)]])
        (candidate.mk [97, 98] (-1) [((1, 5), 2)]) ∧
      pattern_ctype char_t [97, 98] 1 = ALPHA ∧
      ∃ r, longest_prefix_record
          (prune char_t (fun _ _ => 0) ([candidate.mk [97] (-1) [((1, 5), 3)]] ++
            candidate.mk [97, 98] (-1) [((1, 5), 2)] ::
              [candidate.mk [98] (-1) [((1, 6), 1)]]))._pi2sf
          (candidate.mk [97, 98] (-1) [((1, 5), 2)]).surf r ∧
        r.shift = choose_shift (candidate.mk [97, 98] (-1) [((1, 5), 2)]).sfi2c ∧
        r.fi = (choose_fi (candidate.mk [97, 98] (-1) [((1, 5), 2)]).sfi2c
          (choose_shift (candidate.mk [97, 98] (-1) [((1, 5), 2)]).sfi2c)).2 ∧
        r.ctype = pattern_ctype char_t (candidate.mk [97, 98] (-1) [((1, 5), 2)]).surf
          (choose_shift (candidate.mk [97, 98] (-1) [((1, 5), 2)]).sfi2c) :=
  ⟨by decide, by decide,
    prune_keeps_decision char_t (fun _ _ => 0) [candidate.mk [97] (-1) [((1, 5), 3)]]
      (candidate.mk [97, 98] (-1) [((1, 5), 2)]) [candidate.mk [98] (-1) [((1, 6), 1)]]
      [[97]] [98] (by decide) (by decide) (by decide) (by decide) (by decide) (by decide)
      (by intro c hc; simp at hc; subst hc; decide) (by decide) (by decide)⟩

end jagger

namespace ccedar

/-! ## Windows that are not made of whole characters, tables and tries that break an invariant -/

/-- C2, refuted as stated.  The window is cut inside a character: of the bytes
`E3 81 82 61` (the letter `あ`, then `a`) only the first byte is in the window,
and the search in `abTrie` returns `7`, the value of the key `[1, 2]` of four
bytes, where the windows of three and of four bytes give `5` and `7`; decoded by
itself the window of one byte is the code point U+3000, with the id `0`.  The
table breaks `c2i[0] = 0`: on the window `a` the search goes on behind the window
and returns `7`, the mapped window being `[1]` with the value `5`.  The trie
breaks an invariant: in `rootTrie` the empty key has the value `3` and the search
returns `0`; in `zeroTrie` the id `0` labels an edge to the value `5` and the
search on `x` returns `0`; in `strayTrie` a `check` link leads off the path and
the search on `ab` with `fi_prev = 9` returns `99`, although no prefix of
`[1, 2]` followed by `9` is a key and `[1]` has the value `5`. -/
theorem longestPatternSearch_cut_window_counterexample :
    (abTrie.wf ∧ hiraC2i 0 = 0 ∧
      longestPatternSearch 4 abTrie [0xE3, 0x81, 0x82, 97] 1 0 hiraC2i 0 = some 7 ∧
      abTrie.find [1, 2] = some 7 ∧
      longestPatternSearch 4 abTrie [0xE3, 0x81, 0x82, 97] 3 0 hiraC2i 0 = some 5 ∧
      longestPatternSearch 4 abTrie [0xE3, 0x81, 0x82, 97] 4 0 hiraC2i 0 = some 7 ∧
      ids hiraC2i [[0xE3]] = [0] ∧ abTrie.find [] = none ∧ abTrie.find [0] = none) ∧
    (openC2i 0 ≠ 0 ∧ longestPatternSearch 4 abTrie [97] 1 0 openC2i 0 = some 7 ∧
      ids openC2i [[97]] = [1] ∧ abTrie.find [1] = some 5) ∧
    (longestPatternSearch 4 rootTrie [97] 1 0 demoC2i 0 = some 0 ∧
      rootTrie.find [] = some 3) ∧
    (longestPatternSearch 4 zeroTrie [120] 1 0 demoC2i 0 = some 0 ∧
      ids demoC2i [[120]] = [0] ∧ zeroTrie.find [0] = some 5) ∧
    (longestPatternSearch 4 strayTrie [97, 98] 2 9 demoC2i 0 = some 99 ∧
      ids demoC2i [[97], [98]] = [1, 2] ∧
      strayTrie.find [1] = some 5 ∧ strayTrie.find [1, 2] = none ∧
      strayTrie.find [9] = none ∧ strayTrie.find [1, 9] = none ∧
      strayTrie.find [1, 2, 9] = none) := by
  refine ⟨⟨abTrie_wf, by decide, by decide, by decide, by decide, by decide, by decide,
    by decide, by decide⟩, by decide, by decide, by decide, by decide⟩

end ccedar

namespace jagger

/-! ## An input that `::read` delivers in pieces -/

/-- In `emptyModel` every search returns the zero decision. -/
theorem emptyModel_search (key : List Nat) (len fi : Nat) :
    ccedar.longestPatternSearch 10 emptyModel._da key len fi emptyModel._c2i 0 = some 0 := by
  by_cases h : fi = 0
  · simp [ccedar.longestPatternSearch, ccedar.surfacePass, emptyModel, h]
  · simp [ccedar.longestPatternSearch, ccedar.surfacePass, emptyModel, h, ccedar.posLoop,
      ccedar.da.traverse]

/-- C1: `tagger::run` loses a valid input that `::read` delivers in pieces.  The
input `あ` and a newline (the bytes `E3 81 82 0A`) is valid UTF-8, and
`emptyModel` returns the zero decision, of shift 0, on every window.  When the
first `read` delivers the four bytes, `run` in batch mode writes the letter as
one surface and the newline as one marker, and the writes restore the input.
When the first `read` delivers the lead byte `E3` alone, the first round searches
the window of this one byte and advances `_p` by `u8_len = 3` behind `_q`; the
`read` that follows calls `memmove` with the size `_q - _p = -2`, and `run` has
no output for the input. -/
theorem run_batch_loses_input (TAGGING : Bool) :
    validUtf8 [0xE3, 0x81, 0x82, 10] ∧
      (∀ (key : List Nat) (len fi : Nat),
        ccedar.longestPatternSearch 10 emptyModel._da key len fi emptyModel._c2i 0 = some 0) ∧
      (unpack 0).shift = 0 ∧
      run_batch TAGGING 10 emptyModel [[0xE3, 0x81, 0x82, 10]]
        = some ([write.surface [0xE3, 0x81, 0x82]] ++
            (if TAGGING = true then [write.feature false (zeroP2f 0)] else []) ++
            [write.eos TAGGING]) ∧
      restore ([write.surface [0xE3, 0x81, 0x82]] ++
          (if TAGGING = true then [write.feature false (zeroP2f 0)] else []) ++
          [write.eos TAGGING]) = [0xE3, 0x81, 0x82, 10] ∧
      [[0xE3], [0x81, 0x82, 10]].flatten = [0xE3, 0x81, 0x82, 10] ∧
      simple_reader.new [[0xE3], [0x81, 0x82, 10]]
        = some (simple_reader.mk [0xE3] 0 1 [[0x81, 0x82, 10]]) ∧
      (step_at TAGGING 10 emptyModel (state.init emptyModel) [0xE3] 1).map (fun x => x.2.2)
        = some 3 ∧
      ((simple_reader.mk [0xE3] 0 1 [[0x81, 0x82, 10]]).advance 3)._q
        < ((simple_reader.mk [0xE3] 0 1 [[0x81, 0x82, 10]]).advance 3)._p ∧
      (simple_reader.mk [0xE3] 0 1 [[0x81, 0x82, 10]]).next 3 = none ∧
      run_batch TAGGING 10 emptyModel [[0xE3], [0x81, 0x82, 10]] = none := by
  refine ⟨⟨[[0xE3, 0x81, 0x82], [10]], by decide, rfl⟩, emptyModel_search, by decide, ?_, ?_, ?_,
    ?_, ?_, ?_, ?_, ?_⟩ <;> cases TAGGING <;> decide

end jagger
